import Mathlib

/-! genSTARK `Serializer`: a shallow embedding and its verification.

The development follows `bin/lib/Serializer.js`.  A Node.js `Buffer` is a list of
bytes (natural numbers below 256), a JavaScript string is a list of characters, a
`BigInt` field element is a natural number, and a JavaScript exception is an
`Except.error`.  Every mutation of a buffer is explicit state passing: a writer takes
the buffer and returns the updated one.  `Buffer.allocUnsafe` returns memory whose
previous content is unspecified; that content is a parameter `mem` of every function
that allocates.
-/

namespace GenStark

/-! ## JavaScript runtime primitives used by the serializer -/

/-- The exception classes the runtime primitives can raise. -/
inductive JsError where
  | rangeError
  | typeError
  | syntaxError
  deriving DecidableEq, Repr

deriving instance DecidableEq for Except

/-- A Node.js `Buffer`: its bytes in order. -/
abbrev Buffer := List Nat

/-- Well-formed buffers hold bytes only. -/
def IsBytes (b : Buffer) : Prop := ∀ x ∈ b, x < 256

instance (b : Buffer) : Decidable (IsBytes b) := by
  unfold IsBytes
  infer_instance

/-- `Buffer.allocUnsafe(n)`: `n` bytes of uninitialised memory; `mem` gives the
unspecified previous contents of that memory. -/
def allocUnsafe (mem : Nat → Nat) (n : Nat) : Buffer :=
  (List.range n).map (fun i => mem i % 256)

/-- `value.toString(16)` for a non-negative `BigInt`: lower-case hexadecimal digits,
most significant first, `"0"` for zero. -/
def toString16 (value : Nat) : List Char := Nat.toDigits 16 value

/-- `string.padStart(targetLength, c)` for a one-character pad string. -/
def padStart (string : List Char) (targetLength : Nat) (c : Char) : List Char :=
  List.replicate (targetLength - string.length) c ++ string

/-- Value of one hexadecimal digit character, `none` for any other character. -/
def unhex (c : Char) : Option Nat :=
  if '0' ≤ c ∧ c ≤ '9' then some (c.toNat - '0'.toNat)
  else if 'a' ≤ c ∧ c ≤ 'f' then some (c.toNat - 'a'.toNat + 10)
  else if 'A' ≤ c ∧ c ≤ 'F' then some (c.toNat - 'A'.toNat + 10)
  else none

/-- Node's hex decoder behind `buffer.write(_, _, _, 'hex')`: decodes at most `len`
bytes from consecutive digit pairs and stops at the first pair that is incomplete or
not hexadecimal. -/
def hexDecode : Nat → List Char → List Nat
  | 0, _ => []
  | len + 1, a :: b :: rest =>
    match unhex a, unhex b with
    | some x, some y => (x * 16 + y) :: hexDecode len rest
    | _, _ => []
  | _ + 1, _ => []

/-- `buffer.write(string, offset, length, 'hex')`: returns the updated buffer and the
number of bytes written.  An `offset` or `length` beyond the buffer length raises a
range error; `length` is clamped to the room left after `offset`. -/
def Buffer.write (buffer : Buffer) (string : List Char) (offset length : Nat) :
    Except JsError (Buffer × Nat) :=
  if offset > buffer.length then .error .rangeError
  else if length > buffer.length then .error .rangeError
  else
    let remaining := buffer.length - offset
    let bytes := hexDecode (min length remaining) string
    .ok (buffer.take offset ++ bytes ++ buffer.drop (offset + bytes.length), bytes.length)

/-- The two lower-case hexadecimal digits of one byte. -/
def hexOfByte (b : Nat) : List Char := [Nat.digitChar (b / 16), Nat.digitChar (b % 16)]

/-- `buffer.toString('hex', start, fin)`: both bounds are clamped to the buffer, an
empty range gives the empty string. -/
def Buffer.toString (buffer : Buffer) (start fin : Nat) : List Char :=
  if start ≥ buffer.length then []
  else
    let fin := min fin buffer.length
    if fin ≤ start then []
    else ((buffer.drop start).take (fin - start)).flatMap hexOfByte

/-- Reads a string of hexadecimal digits as a number, most significant digit first. -/
def hexValue : Nat → List Char → Option Nat
  | acc, [] => some acc
  | acc, c :: cs =>
    match unhex c with
    | some d => hexValue (acc * 16 + d) cs
    | none => none

/-- `BigInt('0x' + hex)`: a syntax error when no digit follows the prefix or when a
character is not a hexadecimal digit. -/
def BigInt0x (hex : List Char) : Except JsError Nat :=
  match hex with
  | [] => .error .syntaxError
  | _ :: _ =>
    match hexValue 0 hex with
    | some v => .ok v
    | none => .error .syntaxError

/-- `source.copy(target, targetStart, sourceStart, sourceEnd)`: returns the updated
target and the number of bytes copied.  The copied range is clamped to the source
and to the room in the target; a `sourceStart` beyond the source raises a range
error. -/
def Buffer.copy (source target : Buffer) (targetStart sourceStart sourceEnd : Nat) :
    Except JsError (Buffer × Nat) :=
  if sourceStart > source.length then .error .rangeError
  else if targetStart ≥ target.length ∨ sourceStart ≥ sourceEnd then .ok (target, 0)
  else
    let nb := min (min (sourceEnd - sourceStart) (target.length - targetStart))
      (source.length - sourceStart)
    .ok (target.take targetStart ++ (source.drop sourceStart).take nb
      ++ target.drop (targetStart + nb), nb)

/-- `buffer.writeUInt8(value, offset)`: returns the updated buffer and `offset + 1`;
a value above 255 or an offset outside the buffer raises a range error. -/
def Buffer.writeUInt8 (buffer : Buffer) (value offset : Nat) : Except JsError (Buffer × Nat) :=
  if value > 255 then .error .rangeError
  else if offset ≥ buffer.length then .error .rangeError
  else .ok (buffer.set offset value, offset + 1)

/-- `buffer.readUInt8(offset)`: an offset outside the buffer raises a range error. -/
def Buffer.readUInt8 (buffer : Buffer) (offset : Nat) : Except JsError Nat :=
  match buffer[offset]? with
  | some b => .ok b
  | none => .error .rangeError

/-! ## The serializer: evaluation rows -/

/-- The `Serializer` instance: the four numbers its constructor reads from the
configuration. -/
structure Serializer where
  fieldElementSize : Nat
  stateWidth : Nat
  secretInputCount : Nat
  constraintCount : Nat
  deriving DecidableEq, Repr

/-- `values[register][position]`: a type error when the column or the entry is
`undefined`. -/
def columnAt (values : List (List Nat)) (register position : Nat) : Except JsError Nat :=
  match values[register]? with
  | none => .error .typeError
  | some column =>
    match column[position]? with
    | none => .error .typeError
    | some v => .ok v

/-- One of the four loops of `mergeValues`, with `count` iterations left and `register`
the loop index: writes `values[register][position]`, hex-padded to `2 * elementSize`
digits, at the running offset and advances the offset by the number of bytes written. -/
def writeElements (elementSize position : Nat) (values : List (List Nat)) :
    Nat → Nat → Buffer → Nat → Except JsError (Buffer × Nat)
  | 0, _, buffer, offset => .ok (buffer, offset)
  | count + 1, register, buffer, offset => do
    let v ← columnAt values register position
    let hex := padStart (toString16 v) (elementSize * 2) '0'
    let (buffer, written) ← Buffer.write buffer hex offset elementSize
    writeElements elementSize position values count (register + 1) buffer (offset + written)

/-- The body of `mergeValues`, returning the buffer together with the final value of
the local `offset`. -/
def mergeValuesRun (s : Serializer) (mem : Nat → Nat)
    (pValues sValues bValues dValues : List (List Nat)) (bCount position : Nat) :
    Except JsError (Buffer × Nat) := do
  let elementSize := s.fieldElementSize
  let elementCount := s.stateWidth + s.secretInputCount + bCount + s.constraintCount
  let buffer := allocUnsafe mem (elementCount * elementSize)
  let offset := 0
  let (buffer, offset) ← writeElements elementSize position pValues s.stateWidth 0 buffer offset
  let (buffer, offset) ←
    writeElements elementSize position sValues s.secretInputCount 0 buffer offset
  let (buffer, offset) ← writeElements elementSize position bValues bCount 0 buffer offset
  let (buffer, offset) ←
    writeElements s.fieldElementSize position dValues s.constraintCount 0 buffer offset
  pure (buffer, offset)

/-- `Serializer.mergeValues([pValues, sValues, bValues, dValues], bCount, position)`. -/
def mergeValues (s : Serializer) (mem : Nat → Nat)
    (pValues sValues bValues dValues : List (List Nat)) (bCount position : Nat) :
    Except JsError Buffer :=
  (mergeValuesRun s mem pValues sValues bValues dValues bCount position).map Prod.fst

/-- One of the four loops of `parseValues`: reads `count` consecutive windows of
`elementSize` bytes starting at `offset`, each through `BigInt('0x' + hex)`, and
returns the values with the advanced offset. -/
def readElements (buffer : Buffer) (elementSize : Nat) :
    Nat → Nat → Except JsError (List Nat × Nat)
  | 0, offset => .ok ([], offset)
  | count + 1, offset => do
    let v ← BigInt0x (Buffer.toString buffer offset (offset + elementSize))
    let (vs, offset) ← readElements buffer elementSize count (offset + elementSize)
    pure (v :: vs, offset)

/-- `Serializer.parseValues(buffer, bCount)`, returning `[pValues, sValues, bValues,
dValues]` as a tuple. -/
def parseValues (s : Serializer) (buffer : Buffer) (bCount : Nat) :
    Except JsError (List Nat × List Nat × List Nat × List Nat) := do
  let elementSize := s.fieldElementSize
  let offset := 0
  let (pValues, offset) ← readElements buffer elementSize s.stateWidth offset
  let (sValues, offset) ← readElements buffer elementSize s.secretInputCount offset
  let (bValues, offset) ← readElements buffer elementSize bCount offset
  let (dValues, _) ← readElements buffer elementSize s.constraintCount offset
  pure (pValues, sValues, bValues, dValues)

/-! ## Reference encodings used to state the properties -/

/-- The big-endian, left-zero-padded `w`-byte encoding of `v` (of `v mod 256^w` when
`v` does not fit). -/
def toBytesBE : Nat → Nat → List Nat
  | 0, _ => []
  | w + 1, v => toBytesBE w (v / 256) ++ [v % 256]

/-- The big-endian reading of a byte string as a non-negative integer. -/
def fromBytesBE (bytes : List Nat) : Nat := bytes.foldl (fun acc b => acc * 256 + b) 0

/-- Bytes `[k*w, (k+1)*w)` of a buffer, clamped to the buffer. -/
def window (buffer : Buffer) (w k : Nat) : List Nat := (buffer.drop (k * w)).take w

/-- The `k` low-order hexadecimal digits of `v`, most significant first. -/
def hexDigits : Nat → Nat → List Char
  | 0, _ => []
  | k + 1, v => hexDigits k (v / 16) ++ [Nat.digitChar (v % 16)]

/-- The bytes `mergeValues` writes for one element: the hex decoder applied to the
padded hexadecimal string, limited to `w` bytes. -/
def encodeElement (w v : Nat) : List Nat := hexDecode w (padStart (toString16 v) (w * 2) '0')

/-- Entry `position` of column `i`, `0` where it is undefined. -/
def entryAt (values : List (List Nat)) (i position : Nat) : Nat :=
  (values.getD i []).getD position 0

/-- The values of the first `count` columns at `position`. -/
def rowOf (values : List (List Nat)) (count position : Nat) : List Nat :=
  (List.range count).map (fun i => entryAt values i position)

/-- The element sequence of a row: state values, secret values, the first `bCount`
boundary values, constraint values. -/
def rowElements (s : Serializer) (pValues sValues bValues dValues : List (List Nat))
    (bCount position : Nat) : List Nat :=
  rowOf pValues s.stateWidth position ++ rowOf sValues s.secretInputCount position ++
    rowOf bValues bCount position ++ rowOf dValues s.constraintCount position

/-- The values `parseValues` reads from `count` consecutive windows starting at
`offset`. -/
def elementsAt (buffer : Buffer) (w count offset : Nat) : List Nat :=
  (List.range count).map (fun i => fromBytesBE ((buffer.drop (offset + i * w)).take w))

/-- Every one of `count` consecutive windows starting at `offset` begins inside the
buffer and is not empty. -/
def Readable (buffer : Buffer) (w count offset : Nat) : Prop :=
  count = 0 ∨ (1 ≤ w ∧ offset + (count - 1) * w < buffer.length)

instance (buffer : Buffer) (w count offset : Nat) : Decidable (Readable buffer w count offset) := by
  unfold Readable
  infer_instance

/-- Cuts an element sequence into the four arrays `parseValues` returns. -/
def splitElements (s : Serializer) (bCount : Nat) (vs : List Nat) :
    List Nat × List Nat × List Nat × List Nat :=
  (vs.take s.stateWidth,
   (vs.drop s.stateWidth).take s.secretInputCount,
   (vs.drop (s.stateWidth + s.secretInputCount)).take bCount,
   (vs.drop (s.stateWidth + s.secretInputCount + bCount)).take s.constraintCount)

/-- The first `count` columns exist and are defined at `position`. -/
def DefinedAt (values : List (List Nat)) (count position : Nat) : Prop :=
  ∀ i, i < count → i < values.length ∧ position < (values.getD i []).length

instance (values : List (List Nat)) (count position : Nat) :
    Decidable (DefinedAt values count position) := by
  unfold DefinedAt
  infer_instance

/-- The first `count` columns exist, are defined at `position`, and their values there
are integers in `[0, 256^w)`. -/
def FitsAt (values : List (List Nat)) (count position w : Nat) : Prop :=
  ∀ i, i < count → i < values.length ∧ position < (values.getD i []).length ∧
    entryAt values i position < 256 ^ w

instance (values : List (List Nat)) (count position w : Nat) :
    Decidable (FitsAt values count position w) := by
  unfold FitsAt
  infer_instance

/-! ## The proof object -/

/-- A hash algorithm, known to the serializer only through its digest size. -/
structure HashAlgorithm where
  digestSize : Nat
  deriving DecidableEq, Repr

/-- `getHashDigestSize(hashAlgorithm)` of the Merkle package. -/
def getHashDigestSize (hashAlgorithm : HashAlgorithm) : Nat := hashAlgorithm.digestSize

/-- A batch Merkle proof `{ values, nodes }`. -/
structure BatchMerkleProof where
  values : List Buffer
  nodes : List (List Buffer)
  deriving DecidableEq, Repr

/-- The `evaluations` part of a proof. -/
structure Evaluations where
  root : Buffer
  values : List Buffer
  nodes : List (List Buffer)
  depth : Nat
  bpc : Nat
  deriving DecidableEq, Repr

/-- One component of the low-degree proof. -/
structure Component where
  columnRoot : Buffer
  columnProof : BatchMerkleProof
  polyProof : BatchMerkleProof
  deriving DecidableEq, Repr

/-- The low-degree proof `{ components, remainder }`. -/
structure LdProof where
  components : List Component
  remainder : List Buffer
  deriving DecidableEq, Repr

/-- The `degree` part of a proof. -/
structure Degree where
  root : Buffer
  lcProof : BatchMerkleProof
  ldProof : LdProof
  deriving DecidableEq, Repr

/-- The proof object handled by `serializeProof` and `parseProof`. -/
structure StarkProof where
  evaluations : Evaluations
  degree : Degree
  deriving DecidableEq, Repr

/-! ## The helpers of `./utils`

The module `./utils` is not part of the sources at hand; its functions are modelled
from the specification of the array, matrix and Merkle-proof codecs.  The width of a
count prefix, which the specification leaves to the implementation, is the parameter
`cw`; a count is written as a big-endian unsigned integer of `cw` bytes. -/

/-- Modelled from the spec: places `bytes` at `offset` of the destination buffer and
returns the buffer with the offset after them; the helper behind every write of
`./utils`, which is missing.  Bytes that do not fit in the buffer are an error. -/
def writeBytes (buffer : Buffer) (offset : Nat) (bytes : List Nat) :
    Except JsError (Buffer × Nat) :=
  if offset + bytes.length > buffer.length then .error .rangeError
  else .ok (buffer.take offset ++ bytes ++ buffer.drop (offset + bytes.length),
    offset + bytes.length)

/-- Modelled from the spec: the count prefix of the array and matrix codecs of the
missing `./utils`, a fixed-width unsigned integer of `cw` bytes; a count that does
not fit the width is an error. -/
def writeCount (cw : Nat) (buffer : Buffer) (offset count : Nat) :
    Except JsError (Buffer × Nat) :=
  if count ≥ 256 ^ cw then .error .rangeError
  else writeBytes buffer offset (toBytesBE cw count)

/-- Modelled from the spec: the records of an array written one after the other (the
loop of the missing `utils.writeArray`). -/
def writeRecords : Buffer → Nat → List Buffer → Except JsError (Buffer × Nat)
  | buffer, offset, [] => .ok (buffer, offset)
  | buffer, offset, record :: records => do
    let (buffer, offset) ← writeBytes buffer offset record
    writeRecords buffer offset records

/-- Modelled from the spec: `utils.writeArray(buffer, offset, array)`, missing from the
sources: "writes a count followed by the concatenation of each record"; returns the
offset after the array. -/
def writeArray (cw : Nat) (buffer : Buffer) (offset : Nat) (array : List Buffer) :
    Except JsError (Buffer × Nat) := do
  let (buffer, offset) ← writeCount cw buffer offset array.length
  writeRecords buffer offset array

/-- Modelled from the spec: the rows of a matrix, each written as an array (the loop
of the missing `utils.writeMatrix`). -/
def writeRows (cw : Nat) : Buffer → Nat → List (List Buffer) → Except JsError (Buffer × Nat)
  | buffer, offset, [] => .ok (buffer, offset)
  | buffer, offset, row :: rows => do
    let (buffer, offset) ← writeArray cw buffer offset row
    writeRows cw buffer offset rows

/-- Modelled from the spec: `utils.writeMatrix(buffer, offset, matrix)`, missing from
the sources: "writes a row count, then for each row writes that row" as an array. -/
def writeMatrix (cw : Nat) (buffer : Buffer) (offset : Nat) (matrix : List (List Buffer)) :
    Except JsError (Buffer × Nat) := do
  let (buffer, offset) ← writeCount cw buffer offset matrix.length
  writeRows cw buffer offset matrix

/-- Modelled from the spec: `utils.writeMerkleProof(buffer, offset, proof, nodeSize)`,
missing from the sources: the array of `proof.values` followed by the matrix of
`proof.nodes`. -/
def writeMerkleProof (cw : Nat) (buffer : Buffer) (offset : Nat) (proof : BatchMerkleProof)
    (_nodeSize : Nat) : Except JsError (Buffer × Nat) := do
  let (buffer, offset) ← writeArray cw buffer offset proof.values
  writeMatrix cw buffer offset proof.nodes

/-- Modelled from the spec: reading a count prefix of `cw` bytes in the missing
`./utils`; a prefix that runs past the end of the buffer is an error. -/
def readCount (cw : Nat) (buffer : Buffer) (offset : Nat) : Except JsError Nat :=
  if offset + cw > buffer.length then .error .rangeError
  else .ok (fromBytesBE ((buffer.drop offset).take cw))

/-- Modelled from the spec: `utils.readArray(buffer, offset, elementSize)`, missing
from the sources: "reads the count, then slices that many `recordWidth`-byte windows.
Fails if remaining bytes are insufficient for the declared count."  Returns the
records and the offset after them. -/
def readArray (cw : Nat) (buffer : Buffer) (offset elementSize : Nat) :
    Except JsError (List Buffer × Nat) := do
  let count ← readCount cw buffer offset
  let offset := offset + cw
  if offset + count * elementSize > buffer.length then .error .rangeError
  else .ok ((List.range count).map
      (fun i => (buffer.drop (offset + i * elementSize)).take elementSize),
    offset + count * elementSize)

/-- Modelled from the spec: the rows of a matrix read one after the other (the loop of
the missing `utils.readMatrix`). -/
def readRows (cw : Nat) (buffer : Buffer) (elementSize : Nat) :
    Nat → Nat → Except JsError (List (List Buffer) × Nat)
  | 0, offset => .ok ([], offset)
  | count + 1, offset => do
    let (row, offset) ← readArray cw buffer offset elementSize
    let (rows, offset) ← readRows cw buffer elementSize count offset
    pure (row :: rows, offset)

/-- Modelled from the spec: `utils.readMatrix(buffer, offset, elementSize)`, missing
from the sources: the inverse of `writeMatrix`, "row by row". -/
def readMatrix (cw : Nat) (buffer : Buffer) (offset elementSize : Nat) :
    Except JsError (List (List Buffer) × Nat) := do
  let count ← readCount cw buffer offset
  readRows cw buffer elementSize count (offset + cw)

/-- Modelled from the spec: `utils.readMerkleProof(buffer, offset, nodeSize)`, missing
from the sources: the inverse of `writeMerkleProof`, "in the same order"; the one
width the caller passes is the record width of both the values and the nodes. -/
def readMerkleProof (cw : Nat) (buffer : Buffer) (offset nodeSize : Nat) :
    Except JsError (BatchMerkleProof × Nat) := do
  let (values, offset) ← readArray cw buffer offset nodeSize
  let (nodes, offset) ← readMatrix cw buffer offset nodeSize
  pure ({ values := values, nodes := nodes }, offset)

/-- Modelled from the spec: the size of an array, its count prefix and `count × width`
bytes of records (part of the missing `utils.sizeOf`). -/
def sizeOfArray (cw : Nat) (array : List Buffer) (elementSize : Nat) : Nat :=
  cw + array.length * elementSize

/-- Modelled from the spec: the size of a matrix, its row count and the sizes of its
rows (part of the missing `utils.sizeOf`). -/
def sizeOfMatrix (cw : Nat) (matrix : List (List Buffer)) (elementSize : Nat) : Nat :=
  cw + (matrix.map (fun row => sizeOfArray cw row elementSize)).sum

/-- Modelled from the spec: the size of a Merkle proof, its values array and its nodes
matrix (part of the missing `utils.sizeOf`). -/
def sizeOfMerkleProof (cw : Nat) (proof : BatchMerkleProof) (nodeSize : Nat) : Nat :=
  sizeOfArray cw proof.values nodeSize + sizeOfMatrix cw proof.nodes nodeSize

/-- The object returned by `utils.sizeOf`, of which the serializer reads `total`. -/
structure ProofSize where
  total : Nat
  deriving DecidableEq, Repr

/-- Modelled from the spec: `utils.sizeOf(proof, valueSize, hashAlgorithm)`, missing
from the sources: the total output size "computed up-front from the proof's shape
(component/value/node counts × known widths)", field by field in the order of the
layout. -/
def sizeOf (cw : Nat) (proof : StarkProof) (valueSize : Nat) (hashAlgorithm : HashAlgorithm) :
    ProofSize :=
  let nodeSize := getHashDigestSize hashAlgorithm
  { total := nodeSize + 1 + 1
      + sizeOfArray cw proof.evaluations.values valueSize
      + sizeOfMatrix cw proof.evaluations.nodes nodeSize
      + nodeSize
      + sizeOfMerkleProof cw proof.degree.lcProof nodeSize
      + 1
      + (proof.degree.ldProof.components.map (fun component =>
          nodeSize + sizeOfMerkleProof cw component.columnProof nodeSize
            + sizeOfMerkleProof cw component.polyProof nodeSize)).sum
      + sizeOfArray cw proof.degree.ldProof.remainder nodeSize }

/-! ## The serializer: proofs -/

/-- The loop of `serializeProof` over the components: the column root is copied, then
the two Merkle proofs are written. -/
def writeComponents (cw nodeSize : Nat) :
    Buffer → Nat → List Component → Except JsError (Buffer × Nat)
  | buffer, offset, [] => .ok (buffer, offset)
  | buffer, offset, component :: components => do
    let (buffer, copied) ←
      Buffer.copy component.columnRoot buffer offset 0 component.columnRoot.length
    let offset := offset + copied
    let (buffer, offset) ← writeMerkleProof cw buffer offset component.columnProof nodeSize
    let (buffer, offset) ← writeMerkleProof cw buffer offset component.polyProof nodeSize
    writeComponents cw nodeSize buffer offset components

/-- The body of `serializeProof`, returning the buffer together with the final value
of the local `offset`. -/
def serializeProofRun (cw : Nat) (s : Serializer) (mem : Nat → Nat) (proof : StarkProof)
    (hashAlgorithm : HashAlgorithm) : Except JsError (Buffer × Nat) := do
  let nodeSize := getHashDigestSize hashAlgorithm
  let valueCount := s.stateWidth + s.constraintCount + proof.evaluations.bpc
  let valueSize := valueCount * s.fieldElementSize
  let size := sizeOf cw proof valueSize hashAlgorithm
  let buffer := allocUnsafe mem size.total
  let offset := 0
  -- evaluations
  let (buffer, copied) ←
    Buffer.copy proof.evaluations.root buffer offset 0 proof.evaluations.root.length
  let offset := offset + copied
  let (buffer, offset) ← Buffer.writeUInt8 buffer proof.evaluations.bpc offset
  let (buffer, offset) ← Buffer.writeUInt8 buffer proof.evaluations.depth offset
  let (buffer, offset) ← writeArray cw buffer offset proof.evaluations.values
  let (buffer, offset) ← writeMatrix cw buffer offset proof.evaluations.nodes
  -- degree
  let (buffer, copied) ← Buffer.copy proof.degree.root buffer offset 0 proof.degree.root.length
  let offset := offset + copied
  let (buffer, offset) ← writeMerkleProof cw buffer offset proof.degree.lcProof nodeSize
  let (buffer, offset) ←
    Buffer.writeUInt8 buffer proof.degree.ldProof.components.length offset
  let (buffer, offset) ←
    writeComponents cw nodeSize buffer offset proof.degree.ldProof.components
  let (buffer, offset) ← writeArray cw buffer offset proof.degree.ldProof.remainder
  pure (buffer, offset)

/-- `Serializer.serializeProof(proof, hashAlgorithm)`. -/
def serializeProof (cw : Nat) (s : Serializer) (mem : Nat → Nat) (proof : StarkProof)
    (hashAlgorithm : HashAlgorithm) : Except JsError Buffer :=
  (serializeProofRun cw s mem proof hashAlgorithm).map Prod.fst

/-- The loop of `parseProof` over the components, `i` being the loop index: the column
root is copied into fresh memory, then the two Merkle proofs are read. -/
def readComponents (cw nodeSize : Nat) (mem : Nat → Nat → Nat) (buffer : Buffer) :
    Nat → Nat → Nat → Except JsError (List Component × Nat)
  | 0, _, offset => .ok ([], offset)
  | count + 1, i, offset => do
    let columnRoot := allocUnsafe (mem (i + 2)) nodeSize
    let (columnRoot, copied) ← Buffer.copy buffer columnRoot 0 offset (offset + nodeSize)
    let offset := offset + copied
    let (columnProof, offset) ← readMerkleProof cw buffer offset nodeSize
    let (polyProof, offset) ← readMerkleProof cw buffer offset nodeSize
    let component : Component :=
      { columnRoot := columnRoot, columnProof := columnProof, polyProof := polyProof }
    let (components, offset) ← readComponents cw nodeSize mem buffer count (i + 1) offset
    pure (component :: components, offset)

/-- The body of `parseProof`, returning the proof together with the final value of the
local `offset`.  `mem k` is the previous content of the `k`-th block of uninitialised
memory the function allocates. -/
def parseProofRun (cw : Nat) (s : Serializer) (mem : Nat → Nat → Nat) (buffer : Buffer)
    (hashAlgorithm : HashAlgorithm) : Except JsError (StarkProof × Nat) := do
  let nodeSize := getHashDigestSize hashAlgorithm
  -- evaluations
  let offset := 0
  let eRoot := allocUnsafe (mem 0) nodeSize
  let (eRoot, copied) ← Buffer.copy buffer eRoot 0 offset (offset + nodeSize)
  let offset := offset + copied
  let bpc ← Buffer.readUInt8 buffer offset
  let offset := offset + 1
  let eDepth ← Buffer.readUInt8 buffer offset
  let offset := offset + 1
  let valueCount := s.stateWidth + s.constraintCount + bpc
  let valueSize := valueCount * s.fieldElementSize
  let (eValues, offset) ← readArray cw buffer offset valueSize
  let (eNodes, offset) ← readMatrix cw buffer offset nodeSize
  -- degree
  let dRoot := allocUnsafe (mem 1) nodeSize
  let (dRoot, copied) ← Buffer.copy buffer dRoot 0 offset (offset + nodeSize)
  let offset := offset + copied
  let (lcProof, offset) ← readMerkleProof cw buffer offset nodeSize
  let componentCount ← Buffer.readUInt8 buffer offset
  let offset := offset + 1
  let (components, offset) ← readComponents cw nodeSize mem buffer componentCount 0 offset
  let (remainder, offset) ← readArray cw buffer offset nodeSize
  -- build and return the proof
  pure ({ evaluations :=
            { root := eRoot, values := eValues, nodes := eNodes, depth := eDepth, bpc := bpc },
          degree :=
            { root := dRoot, lcProof := lcProof,
              ldProof := { components := components, remainder := remainder } } },
        offset)

/-- `Serializer.parseProof(buffer, hashAlgorithm)`. -/
def parseProof (cw : Nat) (s : Serializer) (mem : Nat → Nat → Nat) (buffer : Buffer)
    (hashAlgorithm : HashAlgorithm) : Except JsError StarkProof :=
  (parseProofRun cw s mem buffer hashAlgorithm).map Prod.fst

/-! ## Reference encodings and validity of proofs -/

/-- The bytes of an array: its count prefix and its records. -/
def encodeArray (cw : Nat) (array : List Buffer) : List Nat :=
  toBytesBE cw array.length ++ array.flatten

/-- The bytes of a matrix: its row count and its rows, each as an array. -/
def encodeMatrix (cw : Nat) (matrix : List (List Buffer)) : List Nat :=
  toBytesBE cw matrix.length ++ matrix.flatMap (encodeArray cw)

/-- The bytes of a Merkle proof: its values array and its nodes matrix. -/
def encodeMerkleProof (cw : Nat) (proof : BatchMerkleProof) : List Nat :=
  encodeArray cw proof.values ++ encodeMatrix cw proof.nodes

/-- The bytes of a component: its column root and its two Merkle proofs. -/
def encodeComponent (cw : Nat) (component : Component) : List Nat :=
  component.columnRoot ++ (encodeMerkleProof cw component.columnProof
    ++ encodeMerkleProof cw component.polyProof)

/-- The bytes of a proof, field by field in the order `serializeProof` writes them. -/
def encodeProof (cw : Nat) (proof : StarkProof) : List Nat :=
  proof.evaluations.root ++ ([proof.evaluations.bpc] ++ ([proof.evaluations.depth]
    ++ (encodeArray cw proof.evaluations.values
    ++ (encodeMatrix cw proof.evaluations.nodes
    ++ (proof.degree.root
    ++ (encodeMerkleProof cw proof.degree.lcProof
    ++ ([proof.degree.ldProof.components.length]
    ++ (proof.degree.ldProof.components.flatMap (encodeComponent cw)
    ++ encodeArray cw proof.degree.ldProof.remainder))))))))

/-- An array whose count fits the count prefix and whose records all have `width`
bytes. -/
def ValidArray (cw width : Nat) (array : List Buffer) : Prop :=
  array.length < 256 ^ cw ∧ ∀ record ∈ array, record.length = width

instance (cw width : Nat) (array : List Buffer) : Decidable (ValidArray cw width array) := by
  unfold ValidArray
  infer_instance

/-- A matrix whose row count fits the count prefix and whose rows are valid arrays. -/
def ValidMatrix (cw width : Nat) (matrix : List (List Buffer)) : Prop :=
  matrix.length < 256 ^ cw ∧ ∀ row ∈ matrix, ValidArray cw width row

instance (cw width : Nat) (matrix : List (List Buffer)) :
    Decidable (ValidMatrix cw width matrix) := by
  unfold ValidMatrix
  infer_instance

/-- A Merkle proof whose values and nodes are records of `nodeSize` bytes. -/
def ValidMerkleProof (cw nodeSize : Nat) (proof : BatchMerkleProof) : Prop :=
  ValidArray cw nodeSize proof.values ∧ ValidMatrix cw nodeSize proof.nodes

instance (cw nodeSize : Nat) (proof : BatchMerkleProof) :
    Decidable (ValidMerkleProof cw nodeSize proof) := by
  unfold ValidMerkleProof
  infer_instance

/-- A component with a column root of `nodeSize` bytes and two valid Merkle proofs. -/
def ValidComponent (cw nodeSize : Nat) (component : Component) : Prop :=
  component.columnRoot.length = nodeSize ∧
    ValidMerkleProof cw nodeSize component.columnProof ∧
    ValidMerkleProof cw nodeSize component.polyProof

instance (cw nodeSize : Nat) (component : Component) :
    Decidable (ValidComponent cw nodeSize component) := by
  unfold ValidComponent
  infer_instance

/-- A valid proof: roots of `nodeSize` bytes; `bpc`, `depth` and the number of
components in `0..255`; evaluation records of `(stateWidth + constraintCount + bpc) *
fieldElementSize` bytes; node, remainder and Merkle-proof value records of `nodeSize`
bytes; every array, matrix and row count within the count prefix. -/
def ValidProof (cw : Nat) (s : Serializer) (nodeSize : Nat) (proof : StarkProof) : Prop :=
  proof.evaluations.root.length = nodeSize ∧
  proof.evaluations.bpc ≤ 255 ∧
  proof.evaluations.depth ≤ 255 ∧
  ValidArray cw ((s.stateWidth + s.constraintCount + proof.evaluations.bpc)
    * s.fieldElementSize) proof.evaluations.values ∧
  ValidMatrix cw nodeSize proof.evaluations.nodes ∧
  proof.degree.root.length = nodeSize ∧
  ValidMerkleProof cw nodeSize proof.degree.lcProof ∧
  proof.degree.ldProof.components.length ≤ 255 ∧
  (∀ component ∈ proof.degree.ldProof.components, ValidComponent cw nodeSize component) ∧
  ValidArray cw nodeSize proof.degree.ldProof.remainder

instance (cw : Nat) (s : Serializer) (nodeSize : Nat) (proof : StarkProof) :
    Decidable (ValidProof cw s nodeSize proof) := by
  unfold ValidProof
  infer_instance

/-- A write that started at `offset` and left the offset at `offset'` wrote exactly
`bytes` there and touched nothing else. -/
def WroteExactly (buffer : Buffer) (offset : Nat) (bytes : List Nat) (buffer' : Buffer)
    (offset' : Nat) : Prop :=
  offset' = offset + bytes.length ∧ offset' ≤ buffer.length ∧
    buffer' = buffer.take offset ++ bytes ++ buffer.drop offset'

/-- A write that started at `offset` kept the length of the buffer and the bytes before
`offset`, and did not move the offset backwards. -/
def Framed (buffer : Buffer) (offset : Nat) (buffer' : Buffer) (offset' : Nat) : Prop :=
  offset ≤ offset' ∧ buffer'.length = buffer.length ∧ buffer'.take offset = buffer.take offset

/-- The validity conditions the proof round trip is stated with: roots and column roots
of `nodeSize` bytes; `bpc`, `depth` and the number of components in `0..255`;
evaluation records of `(stateWidth + constraintCount + bpc) * fieldElementSize` bytes;
node and remainder records of `nodeSize` bytes. -/
def StatedValid (s : Serializer) (nodeSize : Nat) (proof : StarkProof) : Prop :=
  proof.evaluations.root.length = nodeSize ∧
  proof.degree.root.length = nodeSize ∧
  (∀ component ∈ proof.degree.ldProof.components, component.columnRoot.length = nodeSize) ∧
  proof.evaluations.bpc ≤ 255 ∧
  proof.evaluations.depth ≤ 255 ∧
  proof.degree.ldProof.components.length ≤ 255 ∧
  (∀ record ∈ proof.evaluations.values, record.length =
    (s.stateWidth + s.constraintCount + proof.evaluations.bpc) * s.fieldElementSize) ∧
  (∀ row ∈ proof.evaluations.nodes, ∀ record ∈ row, record.length = nodeSize) ∧
  (∀ row ∈ proof.degree.lcProof.nodes, ∀ record ∈ row, record.length = nodeSize) ∧
  (∀ component ∈ proof.degree.ldProof.components,
    (∀ row ∈ component.columnProof.nodes, ∀ record ∈ row, record.length = nodeSize) ∧
    (∀ row ∈ component.polyProof.nodes, ∀ record ∈ row, record.length = nodeSize)) ∧
  (∀ record ∈ proof.degree.ldProof.remainder, record.length = nodeSize)

instance (s : Serializer) (nodeSize : Nat) (proof : StarkProof) :
    Decidable (StatedValid s nodeSize proof) := by
  unfold StatedValid
  infer_instance

/-! ## Sample inputs -/

/-- A configuration with one-byte field elements. -/
def sampleSerializer : Serializer :=
  { fieldElementSize := 1, stateWidth := 1, secretInputCount := 1, constraintCount := 1 }

/-- A hash algorithm with two-byte digests. -/
def sampleHash : HashAlgorithm := { digestSize := 2 }

/-- A Merkle proof with two values and two rows of nodes. -/
def sampleMerkleProof : BatchMerkleProof :=
  { values := [[1, 2], [3, 4]], nodes := [[[5, 6]], []] }

/-- A valid proof with one component. -/
def sampleProof : StarkProof :=
  { evaluations :=
      { root := [9, 9], values := [[1, 2, 3], [4, 5, 6]], nodes := [[[7, 7]]],
        depth := 3, bpc := 1 },
    degree :=
      { root := [8, 8], lcProof := sampleMerkleProof,
        ldProof :=
          { components :=
              [{ columnRoot := [6, 6], columnProof := sampleMerkleProof,
                 polyProof := { values := [], nodes := [] } }],
            remainder := [[1, 1]] } } }

/-- The serialization of `sampleProof` with one-byte counts. -/
def sampleBytes : Buffer :=
  [9, 9, 1, 3, 2, 1, 2, 3, 4, 5, 6, 1, 1, 7, 7, 8, 8, 2, 1, 2, 3, 4, 2, 1, 5, 6, 0, 1, 6, 6,
    2, 1, 2, 3, 4, 2, 1, 5, 6, 0, 0, 0, 1, 1, 1]

/-- A valid proof with no component and an empty remainder. -/
def bareProof : StarkProof :=
  { evaluations := { root := [9, 9], values := [], nodes := [], depth := 3, bpc := 1 },
    degree :=
      { root := [8, 8], lcProof := { values := [], nodes := [] },
        ldProof := { components := [], remainder := [] } } }

/-- A proof that meets the stated conditions but whose linear-combination proof holds a
one-byte value where the digest size is two. -/
def narrowLeafProof : StarkProof :=
  { evaluations := { root := [9, 9], values := [], nodes := [], depth := 3, bpc := 1 },
    degree :=
      { root := [8, 8], lcProof := { values := [[7]], nodes := [] },
        ldProof := { components := [], remainder := [] } } }

/-- A proof that meets the stated conditions but whose remainder has 256 records. -/
def longRemainderProof : StarkProof :=
  { evaluations := { root := [9, 9], values := [], nodes := [], depth := 3, bpc := 1 },
    degree :=
      { root := [8, 8], lcProof := { values := [], nodes := [] },
        ldProof := { components := [], remainder := List.replicate 256 [0, 0] } } }

/-! ## The header of a serialized proof -/

/-- The local `valueSize` of `serializeProof` (lines 67 and 68 of the source): the
record width it passes to `utils.sizeOf` for `evaluations.values`. -/
def serializeValueSize (s : Serializer) (proof : StarkProof) : Nat :=
  let valueCount := s.stateWidth + s.constraintCount + proof.evaluations.bpc
  valueCount * s.fieldElementSize

/-- The first statements of `parseProof` (lines 93 to 103 of the source): the
evaluation root is copied into fresh memory, `bpc` and the depth are read as single
bytes, and the record width of `evaluations.values` is derived from `bpc`.  Returns
`eRoot`, `bpc`, `eDepth`, `valueSize` and the offset reached. -/
def parseHeader (s : Serializer) (mem : Nat → Nat → Nat) (buffer : Buffer)
    (hashAlgorithm : HashAlgorithm) : Except JsError (Buffer × Nat × Nat × Nat × Nat) := do
  let nodeSize := getHashDigestSize hashAlgorithm
  let offset := 0
  let eRoot := allocUnsafe (mem 0) nodeSize
  let (eRoot, copied) ← Buffer.copy buffer eRoot 0 offset (offset + nodeSize)
  let offset := offset + copied
  let bpc ← Buffer.readUInt8 buffer offset
  let offset := offset + 1
  let eDepth ← Buffer.readUInt8 buffer offset
  let offset := offset + 1
  let valueCount := s.stateWidth + s.constraintCount + bpc
  let valueSize := valueCount * s.fieldElementSize
  pure (eRoot, bpc, eDepth, valueSize, offset)

/-- The remaining statements of `parseProof` (lines 104 to 141 of the source), run on
what the header gave: `evaluations.values` is read with the record width `valueSize`,
then the nodes, the degree part, and the proof is built. -/
def parseBody (cw : Nat) (mem : Nat → Nat → Nat) (buffer : Buffer)
    (hashAlgorithm : HashAlgorithm) (header : Buffer × Nat × Nat × Nat × Nat) :
    Except JsError (StarkProof × Nat) := do
  let nodeSize := getHashDigestSize hashAlgorithm
  let (eRoot, bpc, eDepth, valueSize, offset) := header
  let (eValues, offset) ← readArray cw buffer offset valueSize
  let (eNodes, offset) ← readMatrix cw buffer offset nodeSize
  let dRoot := allocUnsafe (mem 1) nodeSize
  let (dRoot, copied) ← Buffer.copy buffer dRoot 0 offset (offset + nodeSize)
  let offset := offset + copied
  let (lcProof, offset) ← readMerkleProof cw buffer offset nodeSize
  let componentCount ← Buffer.readUInt8 buffer offset
  let offset := offset + 1
  let (components, offset) ← readComponents cw nodeSize mem buffer componentCount 0 offset
  let (remainder, offset) ← readArray cw buffer offset nodeSize
  pure ({ evaluations :=
            { root := eRoot, values := eValues, nodes := eNodes, depth := eDepth, bpc := bpc },
          degree :=
            { root := dRoot, lcProof := lcProof,
              ldProof := { components := components, remainder := remainder } } },
        offset)

/-- The sample proof with `bpc` raised to 256. -/
def wideBpcProof : StarkProof :=
  { sampleProof with evaluations := { sampleProof.evaluations with bpc := 256 } }

/-- A proof that meets the stated conditions but whose Merkle-proof value records are
not two bytes wide: a three-byte value in `lcProof` and a one-byte value in the column
proof of its one component. -/
def shiftedLeafProof : StarkProof :=
  { evaluations := { root := [9, 9], values := [], nodes := [], depth := 3, bpc := 1 },
    degree :=
      { root := [8, 8], lcProof := { values := [[4, 5, 0]], nodes := [] },
        ldProof :=
          { components :=
              [{ columnRoot := [6, 6], columnProof := { values := [[7]], nodes := [] },
                 polyProof := { values := [], nodes := [] } }],
            remainder := [] } } }

/-- The serialization of `shiftedLeafProof` with one-byte counts. -/
def shiftedLeafBytes : Buffer :=
  [9, 9, 1, 3, 0, 0, 8, 8, 1, 4, 5, 0, 0, 1, 6, 6, 1, 7, 0, 0, 0, 0]

/-! ## Hexadecimal strings -/

theorem unhex_digitChar (d : Nat) (h : d < 16) : unhex (Nat.digitChar d) = some d := by
  interval_cases d <;> rfl

theorem hexDigits_length (k v : Nat) : (hexDigits k v).length = k := by
  induction k generalizing v with
  | zero => rfl
  | succ k ih => simp [hexDigits, ih]

theorem toBytesBE_length (w v : Nat) : (toBytesBE w v).length = w := by
  induction w generalizing v with
  | zero => rfl
  | succ w ih => simp [toBytesBE, ih]

theorem toBytesBE_isBytes (w v : Nat) : IsBytes (toBytesBE w v) := by
  induction w generalizing v with
  | zero => intro x hx; simp [toBytesBE] at hx
  | succ w ih =>
    intro x hx
    simp only [toBytesBE, List.mem_append, List.mem_singleton] at hx
    rcases hx with hx | hx
    · exact ih _ x hx
    · omega

theorem hexDigits_zero (k : Nat) : hexDigits k 0 = List.replicate k '0' := by
  induction k with
  | zero => rfl
  | succ k ih =>
    simp only [hexDigits, Nat.zero_div, Nat.zero_mod, ih]
    rw [List.replicate_succ', ]
    rfl

/-- Splitting a digit string into its high and low parts. -/
theorem hexDigits_add (a b v : Nat) :
    hexDigits (a + b) v = hexDigits a (v / 16 ^ b) ++ hexDigits b v := by
  induction b generalizing v with
  | zero => simp [hexDigits]
  | succ b ih =>
    rw [← Nat.add_assoc]
    simp only [hexDigits]
    rw [ih, List.append_assoc, Nat.div_div_eq_div_mul, Nat.pow_succ, Nat.mul_comm]

theorem hexDigits_pad (k n v : Nat) (hv : v < 16 ^ k) :
    hexDigits (n + k) v = List.replicate n '0' ++ hexDigits k v := by
  rw [hexDigits_add, Nat.div_eq_of_lt hv, hexDigits_zero]

/-- What `toDigitsCore` computes with enough fuel: the minimal digit string. -/
theorem toDigitsCore_spec (fuel v : Nat) (ds : List Char) (h : v < fuel) :
    ∃ k, 1 ≤ k ∧ v < 16 ^ k ∧ (k = 1 ∨ 16 ^ (k - 1) ≤ v) ∧
      Nat.toDigitsCore 16 fuel v ds = hexDigits k v ++ ds := by
  induction fuel generalizing v ds with
  | zero => omega
  | succ fuel ih =>
    rw [Nat.toDigitsCore]
    by_cases h0 : v / 16 = 0
    · refine ⟨1, le_refl _, ?_, Or.inl rfl, ?_⟩
      · simp only [Nat.pow_one]; omega
      · simp [h0, hexDigits]
    · have hlt : v / 16 < fuel := by omega
      obtain ⟨k, hk1, hk2, hk3, hk4⟩ := ih (v / 16) (Nat.digitChar (v % 16) :: ds) hlt
      refine ⟨k + 1, by omega, ?_, Or.inr ?_, ?_⟩
      · rw [Nat.pow_succ]; omega
      · simp only [Nat.add_sub_cancel]
        rcases hk3 with rfl | hk3
        · simp; omega
        · have : 16 ^ k = 16 ^ (k - 1) * 16 := by
            rw [← Nat.pow_succ]; congr 1; omega
          rw [this]; omega
      · simp only [h0, if_false, hk4, hexDigits, List.append_assoc, List.singleton_append]

theorem toString16_spec (v : Nat) :
    ∃ k, 1 ≤ k ∧ v < 16 ^ k ∧ (k = 1 ∨ 16 ^ (k - 1) ≤ v) ∧ toString16 v = hexDigits k v := by
  obtain ⟨k, h1, h2, h3, h4⟩ := toDigitsCore_spec (v + 1) v [] (Nat.lt_succ_self v)
  exact ⟨k, h1, h2, h3, by simpa [toString16, Nat.toDigits] using h4⟩

/-- The padded string is a digit string of at least the requested length, and of exactly
that length when the value fits. -/
theorem padStart_toString16 (v n : Nat) :
    ∃ j, padStart (toString16 v) n '0' = hexDigits (n + j) v ∧
      (1 ≤ n → v < 16 ^ n → j = 0) := by
  obtain ⟨k, h1, h2, h3, h4⟩ := toString16_spec v
  by_cases hk : k ≤ n
  · refine ⟨0, ?_, fun _ _ => rfl⟩
    rw [padStart, h4, hexDigits_length]
    have : n + 0 = (n - k) + k := by omega
    rw [this, hexDigits_pad _ _ _ h2]
  · refine ⟨k - n, ?_, ?_⟩
    · rw [padStart, h4, hexDigits_length]
      have : n - k = 0 := by omega
      have h' : n + (k - n) = k := by omega
      rw [this, h']; rfl
    · intro hn hv
      rcases h3 with rfl | h3
      · omega
      · exfalso
        have : 16 ^ n ≤ 16 ^ (k - 1) := Nat.pow_le_pow_right (by norm_num) (by omega)
        omega

/-! ## Bytes and their hexadecimal rendering -/

theorem isBytes_nil : IsBytes [] := by intro x hx; cases hx

theorem isBytes_cons {b : Nat} {bs : List Nat} : IsBytes (b :: bs) ↔ b < 256 ∧ IsBytes bs := by
  simp [IsBytes]

theorem isBytes_append {xs ys : List Nat} : IsBytes (xs ++ ys) ↔ IsBytes xs ∧ IsBytes ys := by
  simp only [IsBytes, List.mem_append]
  constructor
  · intro h; exact ⟨fun x hx => h x (Or.inl hx), fun x hx => h x (Or.inr hx)⟩
  · rintro ⟨h1, h2⟩ x (hx | hx)
    · exact h1 x hx
    · exact h2 x hx

theorem isBytes_take {xs : List Nat} (h : IsBytes xs) (n : Nat) : IsBytes (xs.take n) :=
  fun x hx => h x (List.mem_of_mem_take hx)

theorem isBytes_drop {xs : List Nat} (h : IsBytes xs) (n : Nat) : IsBytes (xs.drop n) :=
  fun x hx => h x (List.mem_of_mem_drop hx)

theorem hexDecode_step (n b : Nat) (rest : List Char) (hb : b < 256) :
    hexDecode (n + 1) (hexOfByte b ++ rest) = b :: hexDecode n rest := by
  show hexDecode (n + 1) (Nat.digitChar (b / 16) :: Nat.digitChar (b % 16) :: rest) = _
  rw [hexDecode, unhex_digitChar _ (by omega), unhex_digitChar _ (Nat.mod_lt _ (by norm_num))]
  simp only
  congr 1
  omega

theorem hexValue_step (acc b : Nat) (rest : List Char) (hb : b < 256) :
    hexValue acc (hexOfByte b ++ rest) = hexValue (acc * 256 + b) rest := by
  show hexValue acc (Nat.digitChar (b / 16) :: Nat.digitChar (b % 16) :: rest) = _
  rw [hexValue, unhex_digitChar _ (by omega)]
  simp only
  rw [hexValue, unhex_digitChar _ (Nat.mod_lt _ (by norm_num))]
  simp only
  congr 1
  omega

/-- The hex decoder inverts the hex rendering of bytes, up to its length limit. -/
theorem hexDecode_flatMap (bs : List Nat) (hb : IsBytes bs) (n : Nat) (rest : List Char) :
    hexDecode n (bs.flatMap hexOfByte ++ rest) = bs.take n ++ hexDecode (n - bs.length) rest := by
  induction bs generalizing n with
  | nil => simp
  | cons b bs ih =>
    rw [isBytes_cons] at hb
    cases n with
    | zero => simp [hexDecode]
    | succ n =>
      rw [List.flatMap_cons, List.append_assoc, hexDecode_step _ _ _ hb.1, ih hb.2]
      simp

/-- An even number of hexadecimal digits is the hex rendering of the bytes. -/
theorem hexDigits_two_mul (w v : Nat) :
    hexDigits (w * 2) v = (toBytesBE w v).flatMap hexOfByte := by
  induction w generalizing v with
  | zero => rfl
  | succ w ih =>
    have h2 : (w + 1) * 2 = w * 2 + 1 + 1 := by ring
    rw [h2]
    simp only [hexDigits, toBytesBE, List.flatMap_append, List.flatMap_cons, List.flatMap_nil,
      List.append_nil, hexOfByte, List.append_assoc, List.singleton_append]
    rw [Nat.div_div_eq_div_mul, ih]
    have e1 : v % 256 / 16 = v / 16 % 16 := by omega
    have e2 : v % 256 % 16 = v % 16 := by omega
    rw [e1, e2]

/-- The hex reader inverts the hex rendering of bytes. -/
theorem hexValue_flatMap (bs : List Nat) (hb : IsBytes bs) (acc : Nat) :
    hexValue acc (bs.flatMap hexOfByte) = some (bs.foldl (fun a b => a * 256 + b) acc) := by
  induction bs generalizing acc with
  | nil => rfl
  | cons b bs ih =>
    rw [isBytes_cons] at hb
    rw [List.flatMap_cons, hexValue_step _ _ _ hb.1, ih hb.2]
    rfl

theorem BigInt0x_of_hexValue (s : List Char) (v : Nat) (hs : s ≠ [])
    (h : hexValue 0 s = some v) : BigInt0x s = .ok v := by
  cases s with
  | nil => exact absurd rfl hs
  | cons c cs => simp only [BigInt0x, h]

theorem BigInt0x_flatMap (bs : List Nat) (hb : IsBytes bs) (hne : bs ≠ []) :
    BigInt0x (bs.flatMap hexOfByte) = .ok (fromBytesBE bs) := by
  apply BigInt0x_of_hexValue
  · cases bs with
    | nil => exact absurd rfl hne
    | cons b bs => simp [List.flatMap_cons, hexOfByte]
  · exact hexValue_flatMap bs hb 0

theorem BigInt0x_nil : BigInt0x [] = .error .syntaxError := rfl

/-- The bytes written for one element are the encoding of the leading digits of the
padded string. -/
theorem encodeElement_spec (w v : Nat) :
    ∃ j, encodeElement w v = toBytesBE w (v / 16 ^ j) ∧ (1 ≤ w → v < 256 ^ w → j = 0) := by
  obtain ⟨j, h1, h2⟩ := padStart_toString16 v (w * 2)
  refine ⟨j, ?_, ?_⟩
  · rw [encodeElement, h1, hexDigits_add, hexDigits_two_mul,
      hexDecode_flatMap _ (toBytesBE_isBytes _ _), toBytesBE_length]
    simp [hexDecode, List.take_of_length_le, toBytesBE_length]
  · intro hw hv
    apply h2 (by omega)
    have : (16 : Nat) ^ (w * 2) = 256 ^ w := by
      rw [Nat.mul_comm, Nat.pow_mul]
    omega

/-- Every element occupies exactly `w` bytes, whatever its magnitude. -/
theorem encodeElement_length (w v : Nat) : (encodeElement w v).length = w := by
  obtain ⟨j, h, _⟩ := encodeElement_spec w v
  rw [h, toBytesBE_length]

/-- A value that fits is written as its big-endian, zero-padded encoding. -/
theorem encodeElement_of_lt (w v : Nat) (hv : v < 256 ^ w) :
    encodeElement w v = toBytesBE w v := by
  cases w with
  | zero =>
    have := encodeElement_length 0 v
    rw [List.length_eq_zero] at this
    rw [this]; rfl
  | succ w =>
    obtain ⟨j, h, hj⟩ := encodeElement_spec (w + 1) v
    rw [h, hj (by omega) hv]
    simp

theorem fromBytesBE_append (xs : List Nat) (b : Nat) :
    fromBytesBE (xs ++ [b]) = fromBytesBE xs * 256 + b := by
  simp [fromBytesBE, List.foldl_append]

/-- Reading back an encoding gives the value modulo `256^w`. -/
theorem fromBytesBE_toBytesBE (w v : Nat) : fromBytesBE (toBytesBE w v) = v % 256 ^ w := by
  induction w generalizing v with
  | zero => simp [toBytesBE, fromBytesBE, Nat.mod_one]
  | succ w ih =>
    rw [toBytesBE, fromBytesBE_append, ih, Nat.pow_succ, Nat.mul_comm (256 ^ w) 256,
      Nat.mod_mul]
    ring

theorem fromBytesBE_lt (bs : List Nat) (hb : IsBytes bs) : fromBytesBE bs < 256 ^ bs.length := by
  induction bs using List.reverseRecOn with
  | nil => simp [fromBytesBE]
  | append_singleton xs b ih =>
    rw [isBytes_append] at hb
    have hb2 : b < 256 := hb.2 b (by simp)
    have := ih hb.1
    rw [fromBytesBE_append, List.length_append, List.length_singleton, Nat.pow_succ]
    nlinarith

/-- Encoding the reading of `w` bytes gives the bytes back. -/
theorem toBytesBE_fromBytesBE (bs : List Nat) (hb : IsBytes bs) :
    toBytesBE bs.length (fromBytesBE bs) = bs := by
  induction bs using List.reverseRecOn with
  | nil => rfl
  | append_singleton xs b ih =>
    rw [isBytes_append] at hb
    have hb2 : b < 256 := hb.2 b (by simp)
    rw [fromBytesBE_append, List.length_append, List.length_singleton, toBytesBE]
    have e1 : (fromBytesBE xs * 256 + b) / 256 = fromBytesBE xs := by omega
    have e2 : (fromBytesBE xs * 256 + b) % 256 = b := by omega
    rw [e1, e2, ih hb.1]

/-! ## Writing a row -/

theorem columnAt_of_definedAt {values : List (List Nat)} {count position : Nat}
    (h : DefinedAt values count position) (i : Nat) (hi : i < count) :
    columnAt values i position = .ok (entryAt values i position) := by
  obtain ⟨h1, h2⟩ := h i hi
  have hv : values[i]? = some (values.getD i []) := by
    rw [List.getD_eq_getElem?_getD, List.getElem?_eq_getElem h1]; rfl
  have h3 : (values.getD i [])[position]? = some (values.getD i [])[position] :=
    List.getElem?_eq_getElem h2
  have h4 : (values.getD i []).getD position 0 = (values.getD i [])[position] := by
    rw [List.getD_eq_getElem?_getD, h3]; rfl
  simp only [columnAt, hv, h3, entryAt, h4]

/-- A hex write at the end of the written prefix replaces the next bytes of the rest. -/
theorem write_append (pre rest : List Nat) (hex : List Char) (w : Nat) (hw : w ≤ rest.length) :
    Buffer.write (pre ++ rest) hex pre.length w =
      .ok (pre ++ hexDecode w hex ++ rest.drop (hexDecode w hex).length,
        (hexDecode w hex).length) := by
  have h1 : ¬ pre.length > (pre ++ rest).length := by simp
  have h2 : ¬ w > (pre ++ rest).length := by simp; omega
  have h3 : min w ((pre ++ rest).length - pre.length) = w := by simp; omega
  simp only [Buffer.write, h1, h2, if_false, h3]
  congr 2
  simp [List.drop_append_eq_append_drop]

/-- One loop of `mergeValues` over a buffer split at the running offset. -/
theorem writeElements_append (w position : Nat) (values : List (List Nat)) (f : Nat → Nat)
    (count r : Nat) (pre rest : List Nat)
    (hcol : ∀ i, i < count → columnAt values (r + i) position = .ok (f (r + i)))
    (hlen : count * w ≤ rest.length) :
    writeElements w position values count r (pre ++ rest) pre.length =
      .ok (pre ++ ((List.range count).map (fun i => f (r + i))).flatMap (encodeElement w)
        ++ rest.drop (count * w), pre.length + count * w) := by
  induction count generalizing r pre rest with
  | zero => simp [writeElements]
  | succ count ih =>
    have hw : w ≤ rest.length := by
      have : (count + 1) * w = count * w + w := by ring
      omega
    have h0 := hcol 0 (Nat.succ_pos _)
    rw [Nat.add_zero] at h0
    rw [writeElements, h0]
    simp only [bind, Except.bind]
    rw [write_append _ _ _ _ hw]
    simp only
    have hlen' : (hexDecode w (padStart (toString16 (f r)) (w * 2) '0')).length = w :=
      encodeElement_length w (f r)
    rw [hlen']
    have hpre : pre.length + w = (pre ++ encodeElement w (f r)).length := by
      rw [List.length_append, encodeElement_length]
    have := ih (r + 1) (pre ++ encodeElement w (f r)) (rest.drop w)
      (fun i hi => by
        have := hcol (i + 1) (by omega)
        rw [show r + 1 + i = r + (i + 1) by omega]
        exact this)
      (by
        rw [List.length_drop]
        have : (count + 1) * w = count * w + w := by ring
        omega)
    rw [hpre]
    show writeElements w position values count (r + 1) (pre ++ encodeElement w (f r) ++ _) _ = _
    rw [this]
    have e1 : (List.range (count + 1)).map (fun i => f (r + i)) =
        f r :: (List.range count).map (fun i => f (r + 1 + i)) := by
      rw [List.range_succ_eq_map, List.map_cons, List.map_map]
      congr 1
      apply List.map_congr_left
      intro i _
      simp only [Function.comp, Nat.succ_eq_add_one]
      congr 1
      omega
    have e2 : List.drop (count * w) (List.drop w rest) = List.drop ((count + 1) * w) rest := by
      rw [List.drop_drop]
      congr 1
      ring
    have e3 : (pre ++ encodeElement w (f r)).length + count * w =
        pre.length + (count + 1) * w := by
      rw [List.length_append, encodeElement_length]
      ring
    rw [e1, e2, e3, List.flatMap_cons]
    simp only [List.append_assoc]


theorem rowOf_length (values : List (List Nat)) (count position : Nat) :
    (rowOf values count position).length = count := by
  simp [rowOf]

theorem length_flatMap_encodeElement (w : Nat) (vs : List Nat) :
    (vs.flatMap (encodeElement w)).length = vs.length * w := by
  induction vs with
  | nil => simp
  | cons v vs ih =>
    rw [List.flatMap_cons, List.length_append, ih, encodeElement_length, List.length_cons]
    ring

theorem allocUnsafe_length (mem : Nat → Nat) (n : Nat) : (allocUnsafe mem n).length = n := by
  simp [allocUnsafe]

theorem allocUnsafe_isBytes (mem : Nat → Nat) (n : Nat) : IsBytes (allocUnsafe mem n) := by
  intro x hx
  simp only [allocUnsafe, List.mem_map] at hx
  obtain ⟨i, _, rfl⟩ := hx
  exact Nat.mod_lt _ (by norm_num)

/-- One loop of `mergeValues` on defined columns. -/
theorem writeElements_row (w position : Nat) (values : List (List Nat)) (count : Nat)
    (pre rest : List Nat) (hdef : DefinedAt values count position)
    (hlen : count * w ≤ rest.length) :
    writeElements w position values count 0 (pre ++ rest) pre.length =
      .ok (pre ++ (rowOf values count position).flatMap (encodeElement w)
        ++ rest.drop (count * w), pre.length + count * w) := by
  have := writeElements_append w position values (fun i => entryAt values i position) count 0
    pre rest (fun i hi => by
      rw [Nat.zero_add]; exact columnAt_of_definedAt hdef i hi) hlen
  simpa only [Nat.zero_add] using this

/-- On defined columns `mergeValues` runs to completion: the buffer is the
concatenation of the elements' bytes and the final offset is the buffer length. -/
theorem mergeValuesRun_eq (s : Serializer) (mem : Nat → Nat)
    (pValues sValues bValues dValues : List (List Nat)) (bCount position : Nat)
    (hp : DefinedAt pValues s.stateWidth position)
    (hs : DefinedAt sValues s.secretInputCount position)
    (hb : DefinedAt bValues bCount position)
    (hd : DefinedAt dValues s.constraintCount position) :
    mergeValuesRun s mem pValues sValues bValues dValues bCount position =
      .ok ((rowElements s pValues sValues bValues dValues bCount position).flatMap
          (encodeElement s.fieldElementSize),
        (s.stateWidth + s.secretInputCount + bCount + s.constraintCount)
          * s.fieldElementSize) := by
  obtain ⟨w, sw, sic, cc⟩ := s
  simp only at hp hs hb hd ⊢
  set A := allocUnsafe mem ((sw + sic + bCount + cc) * w) with hA
  have hAl : A.length = (sw + sic + bCount + cc) * w := allocUnsafe_length _ _
  have hexp : (sw + sic + bCount + cc) * w = sw * w + sic * w + bCount * w + cc * w := by ring
  set P := (rowOf pValues sw position).flatMap (encodeElement w) with hP
  set S := (rowOf sValues sic position).flatMap (encodeElement w) with hS
  set B := (rowOf bValues bCount position).flatMap (encodeElement w) with hB
  set D := (rowOf dValues cc position).flatMap (encodeElement w) with hD
  have hPl : P.length = sw * w := by rw [hP, length_flatMap_encodeElement, rowOf_length]
  have hSl : S.length = sic * w := by rw [hS, length_flatMap_encodeElement, rowOf_length]
  have hBl : B.length = bCount * w := by rw [hB, length_flatMap_encodeElement, rowOf_length]
  have hDl : D.length = cc * w := by rw [hD, length_flatMap_encodeElement, rowOf_length]
  have s1 := writeElements_row w position pValues sw [] A hp (by omega)
  have s2 := writeElements_row w position sValues sic P (A.drop (sw * w)) hs
    (by rw [List.length_drop]; omega)
  have s3 := writeElements_row w position bValues bCount (P ++ S)
    ((A.drop (sw * w)).drop (sic * w)) hb (by rw [List.length_drop, List.length_drop]; omega)
  have s4 := writeElements_row w position dValues cc (P ++ S ++ B)
    (((A.drop (sw * w)).drop (sic * w)).drop (bCount * w)) hd
    (by rw [List.length_drop, List.length_drop, List.length_drop]; omega)
  simp only [List.nil_append, List.length_nil, Nat.zero_add] at s1
  rw [← hP] at s1
  rw [← hS, hPl] at s2
  rw [← hB, List.length_append, hPl, hSl] at s3
  rw [← hD, List.length_append, List.length_append, hPl, hSl, hBl] at s4
  have hnil : List.drop (cc * w) (List.drop (bCount * w) (List.drop (sic * w)
      (List.drop (sw * w) A))) = [] := by
    apply List.drop_eq_nil_of_le
    rw [List.length_drop, List.length_drop, List.length_drop]; omega
  rw [hnil, List.append_nil] at s4
  simp only [mergeValuesRun, bind, Except.bind, pure, Except.pure, ← hA, s1, s2, s3, s4]
  congr 2
  · simp only [rowElements, List.flatMap_append, ← hP, ← hS, ← hB, ← hD]
  · omega

/-! ## Reading a row -/

/-- The hex string of a window is the hex rendering of its (clamped) bytes. -/
theorem toString_window (buffer : Buffer) (offset w : Nat) :
    Buffer.toString buffer offset (offset + w) =
      ((buffer.drop offset).take w).flatMap hexOfByte := by
  unfold Buffer.toString
  by_cases h1 : offset ≥ buffer.length
  · simp [h1, List.drop_eq_nil_of_le h1]
  · simp only [h1, if_false]
    by_cases h2 : min (offset + w) buffer.length ≤ offset
    · have : w = 0 := by omega
      simp [this]
    · simp only [h2, if_false]
      congr 1
      rw [List.take_eq_take]
      simp only [List.length_drop]
      omega

theorem BigInt0x_error (hex : List Char) (e : JsError) (h : BigInt0x hex = .error e) :
    e = .syntaxError := by
  unfold BigInt0x at h
  split at h
  · cases h; rfl
  · split at h
    · cases h
    · cases h; rfl

/-- The only way a read loop fails is the syntax error of `BigInt`. -/
theorem readElements_error (buffer : Buffer) (w count offset : Nat) (e : JsError)
    (h : readElements buffer w count offset = .error e) : e = .syntaxError := by
  induction count generalizing offset with
  | zero => simp [readElements] at h
  | succ count ih =>
    rw [readElements] at h
    cases hb : BigInt0x (Buffer.toString buffer offset (offset + w)) with
    | error e' =>
      rw [hb] at h
      simp only [bind, Except.bind] at h
      cases h
      exact BigInt0x_error _ _ hb
    | ok v =>
      rw [hb] at h
      simp only [bind, Except.bind] at h
      cases hr : readElements buffer w count (offset + w) with
      | error e' =>
        rw [hr] at h
        simp only at h
        cases h
        exact ih _ hr
      | ok r =>
        rw [hr] at h
        simp [pure, Except.pure] at h

/-- A successful read loop returns one value per window and advances the offset by the
windows read. -/
theorem readElements_ok (buffer : Buffer) (w count offset : Nat) (vs : List Nat) (o : Nat)
    (h : readElements buffer w count offset = .ok (vs, o)) :
    vs.length = count ∧ o = offset + count * w := by
  induction count generalizing offset vs o with
  | zero =>
    simp only [readElements, Except.ok.injEq, Prod.mk.injEq] at h
    obtain ⟨rfl, rfl⟩ := h
    simp
  | succ count ih =>
    rw [readElements] at h
    cases hb : BigInt0x (Buffer.toString buffer offset (offset + w)) with
    | error e' =>
      rw [hb] at h
      simp [bind, Except.bind] at h
    | ok v =>
      rw [hb] at h
      simp only [bind, Except.bind] at h
      cases hr : readElements buffer w count (offset + w) with
      | error e' =>
        rw [hr] at h
        simp at h
      | ok r =>
        obtain ⟨vs', o'⟩ := r
        rw [hr] at h
        simp only [pure, Except.pure, Except.ok.injEq, Prod.mk.injEq] at h
        obtain ⟨rfl, rfl⟩ := h
        obtain ⟨h1, h2⟩ := ih _ _ _ hr
        refine ⟨by simp [h1], ?_⟩
        rw [h2]; ring

/-- A read loop over windows that all begin inside the buffer decodes each window. -/
theorem readElements_readable (buffer : Buffer) (hb : IsBytes buffer) (w count offset : Nat)
    (h : Readable buffer w count offset) :
    readElements buffer w count offset =
      .ok (elementsAt buffer w count offset, offset + count * w) := by
  induction count generalizing offset with
  | zero => simp [readElements, elementsAt]
  | succ count ih =>
    rcases h with h | ⟨hw, hlen⟩
    · omega
    · simp only [Nat.add_sub_cancel] at hlen
      have hoff : offset < buffer.length := by
        have : 0 ≤ count * w := Nat.zero_le _
        omega
      have hne : (buffer.drop offset).take w ≠ [] := by
        intro hnil
        have := congrArg List.length hnil
        simp only [List.length_take, List.length_drop, List.length_nil] at this
        omega
      rw [readElements, toString_window,
        BigInt0x_flatMap _ (isBytes_take (isBytes_drop hb _) _) hne]
      have hr : Readable buffer w count (offset + w) := by
        cases count with
        | zero => exact Or.inl rfl
        | succ c =>
          refine Or.inr ⟨hw, ?_⟩
          simp only [Nat.add_sub_cancel]
          have : (c + 1) * w = w + c * w := by ring
          omega
      simp only [bind, Except.bind, ih _ hr, pure, Except.pure]
      congr 2
      · simp only [elementsAt]
        rw [List.range_succ_eq_map, List.map_cons, List.map_map]
        congr 1
        · simp
        · apply List.map_congr_left
          intro i _
          simp only [Function.comp, Nat.succ_eq_add_one]
          congr 3
          ring
      · ring

/-- A read loop with a window that begins at or past the end of the buffer, or with
empty windows, fails. -/
theorem readElements_not_readable (buffer : Buffer) (w count offset : Nat)
    (h : ¬ Readable buffer w count offset) :
    readElements buffer w count offset = .error .syntaxError := by
  induction count generalizing offset with
  | zero => exact absurd (Or.inl rfl) h
  | succ count ih =>
    simp only [Readable, Nat.add_sub_cancel, not_or, not_and, not_lt] at h
    rw [readElements, toString_window]
    by_cases hne : (buffer.drop offset).take w = []
    · rw [hne]; rfl
    · have hw : 1 ≤ w := by
        rcases Nat.eq_zero_or_pos w with h0 | h0
        · rw [h0] at hne; simp at hne
        · exact h0
      have hoff : offset < buffer.length := by
        by_contra hc
        exact hne (by rw [List.drop_eq_nil_of_le (by omega)]; simp)
      have hlen := h.2 hw
      have hnr : ¬ Readable buffer w count (offset + w) := by
        rintro (h0 | ⟨_, h1⟩)
        · rw [h0] at hlen; simp at hlen; omega
        · cases count with
          | zero => simp at hlen; omega
          | succ c =>
            simp only [Nat.add_sub_cancel] at h1
            have : (c + 1) * w = w + c * w := by ring
            omega
      cases hb : BigInt0x (((buffer.drop offset).take w).flatMap hexOfByte) with
      | error e =>
        have := BigInt0x_error _ _ hb
        rw [this]; rfl
      | ok v =>
        simp only [bind, Except.bind, ih _ hnr]


theorem elementsAt_length (buffer : Buffer) (w count offset : Nat) :
    (elementsAt buffer w count offset).length = count := by
  simp [elementsAt]

theorem elementsAt_add (buffer : Buffer) (w a b offset : Nat) :
    elementsAt buffer w (a + b) offset =
      elementsAt buffer w a offset ++ elementsAt buffer w b (offset + a * w) := by
  simp only [elementsAt, List.range_add, List.map_append, List.map_map]
  congr 1
  apply List.map_congr_left
  intro i _
  simp only [Function.comp]
  congr 3
  ring

theorem readable_add (buffer : Buffer) (w a b offset : Nat) :
    Readable buffer w (a + b) offset ↔
      Readable buffer w a offset ∧ Readable buffer w b (offset + a * w) := by
  unfold Readable
  rcases Nat.eq_zero_or_pos b with hb | hb
  · subst hb
    simp
  · rcases Nat.eq_zero_or_pos a with ha | ha
    · subst ha
      simp
    · have e1 : (a + b - 1) * w = a * w + (b - 1) * w := by
        rw [← Nat.add_mul]; congr 1; omega
      have e2 : a * w = (a - 1) * w + w := by
        have : a = (a - 1) + 1 := by omega
        conv_lhs => rw [this, Nat.add_mul, Nat.one_mul]
      constructor
      · rintro (h | ⟨hw, h⟩)
        · omega
        · refine ⟨Or.inr ⟨hw, ?_⟩, Or.inr ⟨hw, ?_⟩⟩ <;> omega
      · rintro ⟨_, h | ⟨hw, h⟩⟩
        · omega
        · exact Or.inr ⟨hw, by omega⟩

/-- The four arrays cut from a concatenation of four segments of the right lengths. -/
theorem splitElements_append (s : Serializer) (bCount : Nat) (p q b d : List Nat)
    (hp : p.length = s.stateWidth) (hq : q.length = s.secretInputCount)
    (hb : b.length = bCount) (hd : d.length = s.constraintCount) :
    splitElements s bCount (p ++ q ++ b ++ d) = (p, q, b, d) := by
  simp only [splitElements, Prod.mk.injEq]
  refine ⟨?_, ?_, ?_, ?_⟩
  · rw [List.append_assoc, List.append_assoc, List.take_left' hp]
  · rw [List.append_assoc, List.append_assoc, List.drop_left' hp, List.take_left' hq]
  · rw [List.append_assoc, ← hp, ← hq, ← List.length_append, List.drop_left,
      List.take_left' hb]
  · rw [← hp, ← hq, ← hb, ← List.length_append, ← List.length_append, List.drop_left,
      List.take_of_length_le (by omega)]

/-- When every window begins inside the buffer, `parseValues` decodes them all. -/
theorem parseValues_readable (s : Serializer) (buffer : Buffer) (bCount : Nat)
    (hb : IsBytes buffer)
    (h : Readable buffer s.fieldElementSize
      (s.stateWidth + s.secretInputCount + bCount + s.constraintCount) 0) :
    parseValues s buffer bCount = .ok (splitElements s bCount
      (elementsAt buffer s.fieldElementSize
        (s.stateWidth + s.secretInputCount + bCount + s.constraintCount) 0)) := by
  rw [readable_add, readable_add, readable_add] at h
  simp only [Nat.zero_add, Nat.add_mul] at h
  obtain ⟨⟨⟨h1, h2⟩, h3⟩, h4⟩ := h
  have r1 := readElements_readable buffer hb _ _ _ h1
  have r2 := readElements_readable buffer hb _ _ _ h2
  have r3 := readElements_readable buffer hb _ _ _ h3
  have r4 := readElements_readable buffer hb _ _ _ h4
  rw [Nat.zero_add] at r1
  simp only [parseValues, bind, Except.bind, pure, Except.pure, r1, r2, r3, r4]
  rw [elementsAt_add, elementsAt_add, elementsAt_add,
    splitElements_append _ _ _ _ _ _ (elementsAt_length _ _ _ _) (elementsAt_length _ _ _ _)
      (elementsAt_length _ _ _ _) (elementsAt_length _ _ _ _)]
  simp only [Nat.zero_add, Nat.add_mul]

/-- When some window begins at or past the end of the buffer, `parseValues` fails. -/
theorem parseValues_not_readable (s : Serializer) (buffer : Buffer) (bCount : Nat)
    (h : ¬ Readable buffer s.fieldElementSize
      (s.stateWidth + s.secretInputCount + bCount + s.constraintCount) 0) :
    parseValues s buffer bCount = .error .syntaxError := by
  rw [readable_add, readable_add, readable_add] at h
  simp only [Nat.zero_add, Nat.add_mul] at h
  unfold parseValues
  simp only [bind, Except.bind, pure, Except.pure]
  cases r1 : readElements buffer s.fieldElementSize s.stateWidth 0 with
  | error e => rw [readElements_error _ _ _ _ _ r1]
  | ok x1 =>
    obtain ⟨v1, o1⟩ := x1
    obtain ⟨_, rfl⟩ := readElements_ok _ _ _ _ _ _ r1
    simp only [Nat.zero_add]
    cases r2 : readElements buffer s.fieldElementSize s.secretInputCount
        (s.stateWidth * s.fieldElementSize) with
    | error e => rw [readElements_error _ _ _ _ _ r2]
    | ok x2 =>
      obtain ⟨v2, o2⟩ := x2
      obtain ⟨_, rfl⟩ := readElements_ok _ _ _ _ _ _ r2
      simp only
      cases r3 : readElements buffer s.fieldElementSize bCount
          (s.stateWidth * s.fieldElementSize + s.secretInputCount * s.fieldElementSize) with
      | error e => rw [readElements_error _ _ _ _ _ r3]
      | ok x3 =>
        obtain ⟨v3, o3⟩ := x3
        obtain ⟨_, rfl⟩ := readElements_ok _ _ _ _ _ _ r3
        simp only
        cases r4 : readElements buffer s.fieldElementSize s.constraintCount
            (s.stateWidth * s.fieldElementSize + s.secretInputCount * s.fieldElementSize
              + bCount * s.fieldElementSize) with
        | error e => rw [readElements_error _ _ _ _ _ r4]
        | ok x4 =>
          exfalso
          apply h
          refine ⟨⟨⟨?_, ?_⟩, ?_⟩, ?_⟩
          · by_contra hc
            rw [readElements_not_readable _ _ _ _ hc] at r1
            cases r1
          · by_contra hc
            rw [readElements_not_readable _ _ _ _ hc] at r2
            cases r2
          · by_contra hc
            rw [readElements_not_readable _ _ _ _ hc] at r3
            cases r3
          · by_contra hc
            rw [readElements_not_readable _ _ _ _ hc] at r4
            cases r4


theorem FitsAt.definedAt {values : List (List Nat)} {count position w : Nat}
    (h : FitsAt values count position w) : DefinedAt values count position :=
  fun i hi => ⟨(h i hi).1, (h i hi).2.1⟩

theorem FitsAt.lt {values : List (List Nat)} {count position w : Nat}
    (h : FitsAt values count position w) :
    ∀ v ∈ rowOf values count position, v < 256 ^ w := by
  intro v hv
  simp only [rowOf, List.mem_map, List.mem_range] at hv
  obtain ⟨i, hi, rfl⟩ := hv
  exact (h i hi).2.2

theorem flatMap_encodeElement_of_lt (w : Nat) (vs : List Nat) (h : ∀ v ∈ vs, v < 256 ^ w) :
    vs.flatMap (encodeElement w) = vs.flatMap (toBytesBE w) := by
  induction vs with
  | nil => rfl
  | cons v vs ih =>
    rw [List.flatMap_cons, List.flatMap_cons, encodeElement_of_lt w v (h v (by simp)),
      ih (fun x hx => h x (by simp [hx]))]

theorem length_flatMap_toBytesBE (w : Nat) (vs : List Nat) :
    (vs.flatMap (toBytesBE w)).length = vs.length * w := by
  induction vs with
  | nil => simp
  | cons v vs ih =>
    rw [List.flatMap_cons, List.length_append, ih, toBytesBE_length, List.length_cons]
    ring

theorem isBytes_flatMap_toBytesBE (w : Nat) (vs : List Nat) :
    IsBytes (vs.flatMap (toBytesBE w)) := by
  intro x hx
  simp only [List.mem_flatMap] at hx
  obtain ⟨v, _, hv⟩ := hx
  exact toBytesBE_isBytes w v x hv

theorem isBytes_flatMap_encodeElement (w : Nat) (vs : List Nat) :
    IsBytes (vs.flatMap (encodeElement w)) := by
  intro x hx
  simp only [List.mem_flatMap] at hx
  obtain ⟨v, _, hv⟩ := hx
  obtain ⟨j, hj, _⟩ := encodeElement_spec w v
  rw [hj] at hv
  exact toBytesBE_isBytes w _ x hv

/-- Window `k` of a concatenation of `w`-byte chunks is chunk `k`. -/
theorem window_flatMap (w : Nat) (f : Nat → List Nat) (hf : ∀ v, (f v).length = w)
    (vs : List Nat) (k : Nat) (hk : k < vs.length) :
    window (vs.flatMap f) w k = f (vs.getD k 0) := by
  induction vs generalizing k with
  | nil => simp at hk
  | cons v vs ih =>
    cases k with
    | zero =>
      simp only [window, Nat.zero_mul, List.drop_zero, List.flatMap_cons, List.getD_cons_zero]
      rw [List.take_left' (hf v)]
    | succ k =>
      have hk' : k < vs.length := by simpa using hk
      rw [List.getD_cons_succ, ← ih k hk']
      simp only [window, List.flatMap_cons]
      have : (k + 1) * w = (f v).length + k * w := by rw [hf]; ring
      rw [this, List.drop_append]

theorem elementsAt_eq_window (buffer : Buffer) (w count : Nat) :
    elementsAt buffer w count 0 =
      (List.range count).map (fun k => fromBytesBE (window buffer w k)) := by
  simp only [elementsAt, window, Nat.zero_add]

/-- Reading the concatenated encodings of values that fit gives the values back. -/
theorem elementsAt_flatMap_toBytesBE (w : Nat) (vs : List Nat) (h : ∀ v ∈ vs, v < 256 ^ w) :
    elementsAt (vs.flatMap (toBytesBE w)) w vs.length 0 = vs := by
  rw [elementsAt_eq_window]
  apply List.ext_getElem
  · simp
  · intro k h1 h2
    simp only [List.getElem_map, List.getElem_range]
    rw [window_flatMap w _ (toBytesBE_length w) vs k h2, fromBytesBE_toBytesBE]
    have hv : vs.getD k 0 = vs[k] := by
      rw [List.getD_eq_getElem?_getD, List.getElem?_eq_getElem h2]; rfl
    rw [hv, Nat.mod_eq_of_lt (h _ (List.getElem_mem _))]

theorem rowElements_length (s : Serializer) (pValues sValues bValues dValues : List (List Nat))
    (bCount position : Nat) :
    (rowElements s pValues sValues bValues dValues bCount position).length =
      s.stateWidth + s.secretInputCount + bCount + s.constraintCount := by
  simp only [rowElements, List.length_append, rowOf_length]

theorem readable_of_le (buffer : Buffer) (w count : Nat) (hw : 1 ≤ w)
    (h : count * w ≤ buffer.length) : Readable buffer w count 0 := by
  rcases Nat.eq_zero_or_pos count with h0 | h0
  · exact Or.inl h0
  · refine Or.inr ⟨hw, ?_⟩
    have : count * w = (count - 1) * w + w := by
      have : count = (count - 1) + 1 := by omega
      conv_lhs => rw [this, Nat.add_mul, Nat.one_mul]
    omega


theorem hexDecode_length_le (n : Nat) (s : List Char) : (hexDecode n s).length ≤ n := by
  induction n generalizing s with
  | zero => simp [hexDecode]
  | succ n ih =>
    match s with
    | [] => simp [hexDecode]
    | [_] => simp [hexDecode]
    | a :: b :: rest =>
      rw [hexDecode]
      split
      · simp only [List.length_cons]
        have := ih rest
        omega
      · simp

/-- A hex write never changes the length of the buffer. -/
theorem write_length (buffer : Buffer) (hex : List Char) (offset length : Nat)
    (buffer' : Buffer) (n : Nat) (h : Buffer.write buffer hex offset length = .ok (buffer', n)) :
    buffer'.length = buffer.length := by
  unfold Buffer.write at h
  split at h
  · cases h
  · split at h
    · cases h
    · simp only [Except.ok.injEq, Prod.mk.injEq] at h
      obtain ⟨rfl, _⟩ := h
      have := hexDecode_length_le (min length (buffer.length - offset)) hex
      simp only [List.length_append, List.length_take, List.length_drop]
      omega

/-- A write loop never changes the length of the buffer. -/
theorem writeElements_length (w position : Nat) (values : List (List Nat)) (count r : Nat)
    (buffer : Buffer) (offset : Nat) (buffer' : Buffer) (offset' : Nat)
    (h : writeElements w position values count r buffer offset = .ok (buffer', offset')) :
    buffer'.length = buffer.length := by
  induction count generalizing r buffer offset with
  | zero =>
    simp only [writeElements, Except.ok.injEq, Prod.mk.injEq] at h
    rw [h.1]
  | succ count ih =>
    rw [writeElements] at h
    cases hc : columnAt values r position with
    | error e => rw [hc] at h; cases h
    | ok v =>
      rw [hc] at h
      simp only [bind, Except.bind] at h
      cases hwr : Buffer.write buffer (padStart (toString16 v) (w * 2) '0') offset w with
      | error e => rw [hwr] at h; cases h
      | ok x =>
        obtain ⟨b1, n⟩ := x
        rw [hwr] at h
        simp only at h
        rw [ih _ _ _ h, write_length _ _ _ _ _ _ hwr]

theorem mergeValuesRun_length (s : Serializer) (mem : Nat → Nat)
    (pValues sValues bValues dValues : List (List Nat)) (bCount position : Nat)
    (buffer : Buffer) (offset : Nat)
    (h : mergeValuesRun s mem pValues sValues bValues dValues bCount position
      = .ok (buffer, offset)) :
    buffer.length =
      (s.stateWidth + s.secretInputCount + bCount + s.constraintCount) * s.fieldElementSize := by
  unfold mergeValuesRun at h
  simp only [bind, Except.bind, pure, Except.pure] at h
  split at h
  · cases h
  · rename_i x1 h1
    split at h
    · cases h
    · rename_i x2 h2
      split at h
      · cases h
      · rename_i x3 h3
        split at h
        · cases h
        · rename_i x4 h4
          simp only [Except.ok.injEq, Prod.mk.injEq] at h
          obtain ⟨b1, o1⟩ := x1
          obtain ⟨b2, o2⟩ := x2
          obtain ⟨b3, o3⟩ := x3
          obtain ⟨b4, o4⟩ := x4
          simp only at h h2 h3 h4
          rw [← h.1, writeElements_length _ _ _ _ _ _ _ _ _ h4,
            writeElements_length _ _ _ _ _ _ _ _ _ h3,
            writeElements_length _ _ _ _ _ _ _ _ _ h2,
            writeElements_length _ _ _ _ _ _ _ _ _ h1, allocUnsafe_length]

theorem mergeValues_ok_iff (s : Serializer) (mem : Nat → Nat)
    (pValues sValues bValues dValues : List (List Nat)) (bCount position : Nat)
    (buffer : Buffer) :
    mergeValues s mem pValues sValues bValues dValues bCount position = .ok buffer ↔
      ∃ offset, mergeValuesRun s mem pValues sValues bValues dValues bCount position
        = .ok (buffer, offset) := by
  unfold mergeValues
  cases mergeValuesRun s mem pValues sValues bValues dValues bCount position with
  | error e => simp [Except.map]
  | ok x =>
    obtain ⟨b, o⟩ := x
    simp [Except.map]

/-! ## Writing a proof -/

theorem bind_ok_iff {α β : Type} (x : Except JsError α) (f : α → Except JsError β) (b : β) :
    (x >>= f) = .ok b ↔ ∃ a, x = .ok a ∧ f a = .ok b := by
  cases x <;> simp [bind, Except.bind]

theorem map_fst_ok_iff {α β : Type} (x : Except JsError (α × β)) (a : α) :
    x.map Prod.fst = .ok a ↔ ∃ b, x = .ok (a, b) := by
  cases x with
  | error e => simp [Except.map]
  | ok v =>
    obtain ⟨a', b'⟩ := v
    simp [Except.map]

/-- Writing bytes at the end of the written prefix replaces the next bytes of the
rest. -/
theorem writeBytes_append (pre rest bytes : List Nat) (h : bytes.length ≤ rest.length) :
    writeBytes (pre ++ rest) pre.length bytes =
      .ok (pre ++ bytes ++ rest.drop bytes.length, pre.length + bytes.length) := by
  have h1 : ¬ pre.length + bytes.length > (pre ++ rest).length := by
    rw [List.length_append]; omega
  simp only [writeBytes, h1, if_false, List.take_left, List.drop_append]

theorem writeCount_append (cw : Nat) (pre rest : List Nat) (n : Nat) (hn : n < 256 ^ cw)
    (h : cw ≤ rest.length) :
    writeCount cw (pre ++ rest) pre.length n =
      .ok (pre ++ toBytesBE cw n ++ rest.drop cw, pre.length + cw) := by
  have h1 : ¬ n ≥ 256 ^ cw := by omega
  have := writeBytes_append pre rest (toBytesBE cw n) (by rw [toBytesBE_length]; exact h)
  rw [toBytesBE_length] at this
  simp only [writeCount, h1, if_false, this]

theorem writeRecords_append (pre rest : List Nat) (records : List Buffer)
    (h : records.flatten.length ≤ rest.length) :
    writeRecords (pre ++ rest) pre.length records =
      .ok (pre ++ records.flatten ++ rest.drop records.flatten.length,
        pre.length + records.flatten.length) := by
  induction records generalizing pre rest with
  | nil => simp [writeRecords]
  | cons r rs ih =>
    rw [List.flatten_cons, List.length_append] at h
    rw [writeRecords, writeBytes_append pre rest r (by omega)]
    simp only [bind, Except.bind]
    have := ih (pre ++ r) (rest.drop r.length) (by rw [List.length_drop]; omega)
    rw [List.length_append] at this
    rw [this, List.flatten_cons, List.length_append, List.drop_drop]
    simp only [List.append_assoc, Nat.add_assoc]

theorem encodeArray_length_eq (cw : Nat) (array : List Buffer) :
    (encodeArray cw array).length = cw + array.flatten.length := by
  rw [encodeArray, List.length_append, toBytesBE_length]

theorem writeArray_append (cw : Nat) (pre rest : List Nat) (array : List Buffer)
    (hn : array.length < 256 ^ cw) (h : (encodeArray cw array).length ≤ rest.length) :
    writeArray cw (pre ++ rest) pre.length array =
      .ok (pre ++ encodeArray cw array ++ rest.drop (encodeArray cw array).length,
        pre.length + (encodeArray cw array).length) := by
  rw [encodeArray_length_eq] at h ⊢
  rw [writeArray, writeCount_append cw pre rest _ hn (by omega)]
  simp only [bind, Except.bind]
  have := writeRecords_append (pre ++ toBytesBE cw array.length) (rest.drop cw) array
    (by rw [List.length_drop]; omega)
  rw [List.length_append, toBytesBE_length] at this
  rw [this, List.drop_drop, encodeArray]
  simp only [List.append_assoc, Nat.add_assoc]

theorem writeRows_append (cw : Nat) (pre rest : List Nat) (rows : List (List Buffer))
    (hn : ∀ row ∈ rows, row.length < 256 ^ cw)
    (h : (rows.flatMap (encodeArray cw)).length ≤ rest.length) :
    writeRows cw (pre ++ rest) pre.length rows =
      .ok (pre ++ rows.flatMap (encodeArray cw)
          ++ rest.drop (rows.flatMap (encodeArray cw)).length,
        pre.length + (rows.flatMap (encodeArray cw)).length) := by
  induction rows generalizing pre rest with
  | nil => simp [writeRows]
  | cons r rs ih =>
    rw [List.flatMap_cons, List.length_append] at h
    rw [writeRows, writeArray_append cw pre rest r (hn r (by simp)) (by omega)]
    simp only [bind, Except.bind]
    have := ih (pre ++ encodeArray cw r) (rest.drop (encodeArray cw r).length)
      (fun row hrow => hn row (by simp [hrow])) (by rw [List.length_drop]; omega)
    rw [List.length_append] at this
    rw [this, List.flatMap_cons, List.length_append, List.drop_drop]
    simp only [List.append_assoc, Nat.add_assoc]

theorem encodeMatrix_length_eq (cw : Nat) (matrix : List (List Buffer)) :
    (encodeMatrix cw matrix).length = cw + (matrix.flatMap (encodeArray cw)).length := by
  rw [encodeMatrix, List.length_append, toBytesBE_length]

theorem writeMatrix_append (cw : Nat) (pre rest : List Nat) (matrix : List (List Buffer))
    (hn : matrix.length < 256 ^ cw) (hrows : ∀ row ∈ matrix, row.length < 256 ^ cw)
    (h : (encodeMatrix cw matrix).length ≤ rest.length) :
    writeMatrix cw (pre ++ rest) pre.length matrix =
      .ok (pre ++ encodeMatrix cw matrix ++ rest.drop (encodeMatrix cw matrix).length,
        pre.length + (encodeMatrix cw matrix).length) := by
  rw [encodeMatrix_length_eq] at h ⊢
  rw [writeMatrix, writeCount_append cw pre rest _ hn (by omega)]
  simp only [bind, Except.bind]
  have := writeRows_append cw (pre ++ toBytesBE cw matrix.length) (rest.drop cw) matrix hrows
    (by rw [List.length_drop]; omega)
  rw [List.length_append, toBytesBE_length] at this
  rw [this, List.drop_drop, encodeMatrix]
  simp only [List.append_assoc, Nat.add_assoc]

theorem writeMerkleProof_append (cw : Nat) (pre rest : List Nat) (proof : BatchMerkleProof)
    (nodeSize : Nat) (hv : ValidMerkleProof cw nodeSize proof)
    (h : (encodeMerkleProof cw proof).length ≤ rest.length) :
    writeMerkleProof cw (pre ++ rest) pre.length proof nodeSize =
      .ok (pre ++ encodeMerkleProof cw proof ++ rest.drop (encodeMerkleProof cw proof).length,
        pre.length + (encodeMerkleProof cw proof).length) := by
  rw [encodeMerkleProof, List.length_append] at h
  rw [writeMerkleProof, writeArray_append cw pre rest _ hv.1.1 (by omega)]
  simp only [bind, Except.bind]
  have := writeMatrix_append cw (pre ++ encodeArray cw proof.values)
    (rest.drop (encodeArray cw proof.values).length) proof.nodes hv.2.1
    (fun row hrow => (hv.2.2 row hrow).1) (by rw [List.length_drop]; omega)
  rw [List.length_append] at this
  rw [this, List.drop_drop, encodeMerkleProof, List.length_append]
  simp only [List.append_assoc, Nat.add_assoc]

/-- Copying a source that fits at the end of the written prefix. -/
theorem copy_append (source pre rest : List Nat) (h : source.length ≤ rest.length) :
    Buffer.copy source (pre ++ rest) pre.length 0 source.length =
      .ok (pre ++ source ++ rest.drop source.length, source.length) := by
  unfold Buffer.copy
  have h1 : ¬ 0 > source.length := by omega
  simp only [h1, if_false]
  by_cases h2 : pre.length ≥ (pre ++ rest).length ∨ 0 ≥ source.length
  · have hs : source = [] := by
      rw [List.length_append] at h2
      apply List.eq_nil_of_length_eq_zero
      omega
    simp [h2, hs]
  · simp only [h2, if_false]
    have hmin : min (min (source.length - 0) ((pre ++ rest).length - pre.length))
        (source.length - 0) = source.length := by
      rw [List.length_append]; omega
    rw [hmin, List.take_left, List.drop_zero, List.take_length, List.drop_append]

theorem writeUInt8_append (pre rest : List Nat) (v : Nat) (hv : v ≤ 255)
    (h : 1 ≤ rest.length) :
    Buffer.writeUInt8 (pre ++ rest) v pre.length =
      .ok (pre ++ [v] ++ rest.drop 1, pre.length + 1) := by
  have h1 : ¬ v > 255 := by omega
  have h2 : ¬ pre.length ≥ (pre ++ rest).length := by rw [List.length_append]; omega
  simp only [Buffer.writeUInt8, h1, h2, if_false]
  congr 2
  cases rest with
  | nil => simp at h
  | cons r rs => simp [List.set_append]

theorem writeComponents_append (cw nodeSize : Nat) (pre rest : List Nat)
    (components : List Component)
    (hv : ∀ component ∈ components, ValidComponent cw nodeSize component)
    (h : (components.flatMap (encodeComponent cw)).length ≤ rest.length) :
    writeComponents cw nodeSize (pre ++ rest) pre.length components =
      .ok (pre ++ components.flatMap (encodeComponent cw)
          ++ rest.drop (components.flatMap (encodeComponent cw)).length,
        pre.length + (components.flatMap (encodeComponent cw)).length) := by
  induction components generalizing pre rest with
  | nil => simp [writeComponents]
  | cons c cs ih =>
    rw [List.flatMap_cons, List.length_append] at h
    have hc := hv c (by simp)
    have hlen : (encodeComponent cw c).length = c.columnRoot.length
        + ((encodeMerkleProof cw c.columnProof).length
          + (encodeMerkleProof cw c.polyProof).length) := by
      simp only [encodeComponent, List.length_append]
    rw [writeComponents, copy_append c.columnRoot pre rest (by omega)]
    simp only [bind, Except.bind]
    have e1 : pre.length + c.columnRoot.length = (pre ++ c.columnRoot).length := by
      rw [List.length_append]
    rw [e1, writeMerkleProof_append cw _ _ _ nodeSize hc.2.1
      (by rw [List.length_drop]; omega)]
    simp only
    have e2 : (pre ++ c.columnRoot).length + (encodeMerkleProof cw c.columnProof).length =
        (pre ++ c.columnRoot ++ encodeMerkleProof cw c.columnProof).length := by
      simp only [List.length_append]
    rw [e2, writeMerkleProof_append cw _ _ _ nodeSize hc.2.2
      (by rw [List.length_drop, List.length_drop]; omega)]
    simp only
    have e3 : (pre ++ c.columnRoot ++ encodeMerkleProof cw c.columnProof).length
        + (encodeMerkleProof cw c.polyProof).length =
        (pre ++ c.columnRoot ++ encodeMerkleProof cw c.columnProof
          ++ encodeMerkleProof cw c.polyProof).length := by
      simp only [List.length_append]
    rw [e3, ih _ _ (fun x hx => hv x (by simp [hx]))
      (by rw [List.length_drop, List.length_drop, List.length_drop]; omega)]
    simp only [List.flatMap_cons, encodeComponent, List.length_append, List.drop_drop,
      List.append_assoc, Except.ok.injEq, Prod.mk.injEq, List.append_cancel_left_eq]
    constructor
    · congr 1
      omega
    · omega


theorem flatten_length_of_width (w : Nat) (array : List Buffer)
    (h : ∀ record ∈ array, record.length = w) : array.flatten.length = array.length * w := by
  induction array with
  | nil => simp
  | cons r rs ih =>
    rw [List.flatten_cons, List.length_append, h r (by simp),
      ih (fun x hx => h x (by simp [hx])), List.length_cons]
    ring

theorem encodeArray_length (cw w : Nat) (array : List Buffer) (h : ValidArray cw w array) :
    (encodeArray cw array).length = sizeOfArray cw array w := by
  rw [encodeArray_length_eq, flatten_length_of_width w array h.2, sizeOfArray]

theorem encodeRows_length (cw w : Nat) (rows : List (List Buffer))
    (h : ∀ row ∈ rows, ValidArray cw w row) :
    (rows.flatMap (encodeArray cw)).length =
      (rows.map (fun row => sizeOfArray cw row w)).sum := by
  induction rows with
  | nil => simp
  | cons r rs ih =>
    rw [List.flatMap_cons, List.length_append, encodeArray_length cw w r (h r (by simp)),
      ih (fun x hx => h x (by simp [hx])), List.map_cons, List.sum_cons]

theorem encodeMatrix_length (cw w : Nat) (matrix : List (List Buffer))
    (h : ValidMatrix cw w matrix) :
    (encodeMatrix cw matrix).length = sizeOfMatrix cw matrix w := by
  rw [encodeMatrix_length_eq, encodeRows_length cw w matrix h.2, sizeOfMatrix]

theorem encodeMerkleProof_length (cw nodeSize : Nat) (proof : BatchMerkleProof)
    (h : ValidMerkleProof cw nodeSize proof) :
    (encodeMerkleProof cw proof).length = sizeOfMerkleProof cw proof nodeSize := by
  rw [encodeMerkleProof, List.length_append, encodeArray_length cw nodeSize _ h.1,
    encodeMatrix_length cw nodeSize _ h.2, sizeOfMerkleProof]

theorem encodeComponents_length (cw nodeSize : Nat) (components : List Component)
    (h : ∀ component ∈ components, ValidComponent cw nodeSize component) :
    (components.flatMap (encodeComponent cw)).length =
      (components.map (fun component =>
        nodeSize + sizeOfMerkleProof cw component.columnProof nodeSize
          + sizeOfMerkleProof cw component.polyProof nodeSize)).sum := by
  induction components with
  | nil => simp
  | cons c cs ih =>
    have hc := h c (by simp)
    rw [List.flatMap_cons, List.length_append, ih (fun x hx => h x (by simp [hx])),
      List.map_cons, List.sum_cons, encodeComponent, List.length_append, List.length_append,
      hc.1, encodeMerkleProof_length cw nodeSize _ hc.2.1,
      encodeMerkleProof_length cw nodeSize _ hc.2.2]
    omega

/-- The length of the encoding of a valid proof is the size computed from its shape. -/
theorem encodeProof_length (cw : Nat) (s : Serializer) (proof : StarkProof)
    (hashAlgorithm : HashAlgorithm)
    (h : ValidProof cw s (getHashDigestSize hashAlgorithm) proof) :
    (encodeProof cw proof).length =
      (sizeOf cw proof ((s.stateWidth + s.constraintCount + proof.evaluations.bpc)
        * s.fieldElementSize) hashAlgorithm).total := by
  obtain ⟨h1, _, _, h4, h5, h6, h7, _, h9, h10⟩ := h
  simp only [encodeProof, List.length_append, List.length_singleton, sizeOf, h1, h6,
    encodeArray_length _ _ _ h4, encodeMatrix_length _ _ _ h5,
    encodeMerkleProof_length _ _ _ h7, encodeComponents_length _ _ _ h9,
    encodeArray_length _ _ _ h10]
  omega

theorem copy_at (source pre rest : List Nat) (offset : Nat) (hoff : offset = pre.length)
    (h : source.length ≤ rest.length) :
    Buffer.copy source (pre ++ rest) offset 0 source.length =
      .ok (pre ++ source ++ rest.drop source.length, source.length) := by
  subst hoff; exact copy_append source pre rest h

theorem writeUInt8_at (pre rest : List Nat) (v offset : Nat) (hoff : offset = pre.length)
    (hv : v ≤ 255) (h : 1 ≤ rest.length) :
    Buffer.writeUInt8 (pre ++ rest) v offset = .ok (pre ++ [v] ++ rest.drop 1, offset + 1) := by
  subst hoff; exact writeUInt8_append pre rest v hv h

theorem writeArray_at (cw : Nat) (pre rest : List Nat) (array : List Buffer) (offset : Nat)
    (hoff : offset = pre.length)
    (hn : array.length < 256 ^ cw) (h : (encodeArray cw array).length ≤ rest.length) :
    writeArray cw (pre ++ rest) offset array =
      .ok (pre ++ encodeArray cw array ++ rest.drop (encodeArray cw array).length,
        offset + (encodeArray cw array).length) := by
  subst hoff; exact writeArray_append cw pre rest array hn h

theorem writeMatrix_at (cw : Nat) (pre rest : List Nat) (matrix : List (List Buffer))
    (offset : Nat) (hoff : offset = pre.length)
    (hn : matrix.length < 256 ^ cw) (hrows : ∀ row ∈ matrix, row.length < 256 ^ cw)
    (h : (encodeMatrix cw matrix).length ≤ rest.length) :
    writeMatrix cw (pre ++ rest) offset matrix =
      .ok (pre ++ encodeMatrix cw matrix ++ rest.drop (encodeMatrix cw matrix).length,
        offset + (encodeMatrix cw matrix).length) := by
  subst hoff; exact writeMatrix_append cw pre rest matrix hn hrows h

theorem writeMerkleProof_at (cw : Nat) (pre rest : List Nat) (proof : BatchMerkleProof)
    (nodeSize offset : Nat) (hoff : offset = pre.length)
    (hv : ValidMerkleProof cw nodeSize proof)
    (h : (encodeMerkleProof cw proof).length ≤ rest.length) :
    writeMerkleProof cw (pre ++ rest) offset proof nodeSize =
      .ok (pre ++ encodeMerkleProof cw proof ++ rest.drop (encodeMerkleProof cw proof).length,
        offset + (encodeMerkleProof cw proof).length) := by
  subst hoff; exact writeMerkleProof_append cw pre rest proof nodeSize hv h

theorem writeComponents_at (cw nodeSize : Nat) (pre rest : List Nat)
    (components : List Component) (offset : Nat) (hoff : offset = pre.length)
    (hv : ∀ component ∈ components, ValidComponent cw nodeSize component)
    (h : (components.flatMap (encodeComponent cw)).length ≤ rest.length) :
    writeComponents cw nodeSize (pre ++ rest) offset components =
      .ok (pre ++ components.flatMap (encodeComponent cw)
          ++ rest.drop (components.flatMap (encodeComponent cw)).length,
        offset + (components.flatMap (encodeComponent cw)).length) := by
  subst hoff; exact writeComponents_append cw nodeSize pre rest components hv h

/-- On a valid proof `serializeProof` runs to completion: the buffer is the encoding of
the proof and the final offset is its length. -/
theorem serializeProofRun_valid (cw : Nat) (s : Serializer) (mem : Nat → Nat)
    (proof : StarkProof) (hashAlgorithm : HashAlgorithm)
    (h : ValidProof cw s (getHashDigestSize hashAlgorithm) proof) :
    serializeProofRun cw s mem proof hashAlgorithm =
      .ok (encodeProof cw proof, (encodeProof cw proof).length) := by
  have hlen := encodeProof_length cw s proof hashAlgorithm h
  obtain ⟨h1, h2, h3, h4, h5, h6, h7, h8, h9, h10⟩ := h
  unfold serializeProofRun
  simp only [bind, Except.bind, pure, Except.pure]
  set A := allocUnsafe mem (sizeOf cw proof ((s.stateWidth + s.constraintCount
    + proof.evaluations.bpc) * s.fieldElementSize) hashAlgorithm).total with hA
  have hAl : A.length = (encodeProof cw proof).length := by
    rw [hA, allocUnsafe_length, hlen]
  simp only [encodeProof, List.length_append, List.length_singleton] at hAl
  have hA0 : A = [] ++ A := rfl
  rw [hA0, copy_at _ [] A 0 rfl (by omega)]
  simp only
  rw [writeUInt8_at _ _ _ _ (by simp) h2 (by simp only [List.length_drop]; omega)]
  simp only
  rw [writeUInt8_at _ _ _ _ (by simp) h3 (by simp only [List.length_drop]; omega)]
  simp only
  rw [writeArray_at cw _ _ _ _ (by simp) h4.1 (by simp only [List.length_drop]; omega)]
  simp only
  rw [writeMatrix_at cw _ _ _ _ (by simp; omega) h5.1 (fun row hrow => (h5.2 row hrow).1)
    (by simp only [List.length_drop]; omega)]
  simp only
  rw [copy_at _ _ _ _ (by simp; omega) (by simp only [List.length_drop]; omega)]
  simp only
  rw [writeMerkleProof_at cw _ _ _ _ _ (by simp; omega) h7
    (by simp only [List.length_drop]; omega)]
  simp only
  rw [writeUInt8_at _ _ _ _ (by simp; omega) h8 (by simp only [List.length_drop]; omega)]
  simp only
  rw [writeComponents_at cw _ _ _ _ _ (by simp; omega) h9
    (by simp only [List.length_drop]; omega)]
  simp only
  rw [writeArray_at cw _ _ _ _ (by simp; omega) h10.1
    (by simp only [List.length_drop]; omega)]
  simp only [Except.ok.injEq, Prod.mk.injEq]
  constructor
  · rw [List.drop_eq_nil_of_le (by simp only [List.length_drop]; omega)]
    simp only [encodeProof, List.append_assoc, List.nil_append, List.append_nil]
  · simp only [encodeProof, List.length_append, List.length_singleton]
    omega

/-! ## Reading a proof -/

theorem drop_step {buffer bytes tail : List Nat} {offset : Nat}
    (h : buffer.drop offset = bytes ++ tail) :
    buffer.drop (offset + bytes.length) = tail := by
  rw [← List.drop_drop, h, List.drop_left]

theorem le_step {buffer bytes tail : List Nat} {offset : Nat}
    (h : buffer.drop offset = bytes ++ tail) (ho : offset ≤ buffer.length) :
    offset + bytes.length ≤ buffer.length := by
  have := congrArg List.length h
  rw [List.length_drop, List.length_append] at this
  omega

theorem readUInt8_at (buffer tail : List Nat) (offset v : Nat)
    (h : buffer.drop offset = v :: tail) : Buffer.readUInt8 buffer offset = .ok v := by
  have : buffer[offset]? = some v := by
    have h0 : (buffer.drop offset)[0]? = some v := by rw [h]; simp
    rw [List.getElem?_drop] at h0
    simpa using h0
  simp only [Buffer.readUInt8, this]

theorem readCount_at (cw : Nat) (buffer tail : List Nat) (offset n : Nat)
    (h : buffer.drop offset = toBytesBE cw n ++ tail) (ho : offset ≤ buffer.length)
    (hn : n < 256 ^ cw) : readCount cw buffer offset = .ok n := by
  have hle := le_step h ho
  rw [toBytesBE_length] at hle
  have h1 : ¬ offset + cw > buffer.length := by omega
  have h2 : (buffer.drop offset).take cw = toBytesBE cw n := by
    rw [h, List.take_left' (toBytesBE_length cw n)]
  simp only [readCount, h1, if_false, h2, fromBytesBE_toBytesBE, Nat.mod_eq_of_lt hn]

/-- The windows of a concatenation of records of one width are the records. -/
theorem windows_flatten (w : Nat) (array : List Buffer) (tail : List Nat)
    (h : ∀ record ∈ array, record.length = w) :
    (List.range array.length).map (fun i => ((array.flatten ++ tail).drop (i * w)).take w)
      = array := by
  induction array with
  | nil => rfl
  | cons r rs ih =>
    rw [List.length_cons, List.range_succ_eq_map, List.map_cons, List.map_map]
    congr 1
    · simp only [Nat.zero_mul, List.drop_zero, List.flatten_cons, List.append_assoc]
      exact List.take_left' (h r (by simp))
    · rw [← ih (fun x hx => h x (by simp [hx]))]
      simp only [List.length_map, List.length_range]
      apply List.map_congr_left
      intro i _
      simp only [Function.comp, Nat.succ_eq_add_one, List.flatten_cons, List.append_assoc]
      have : (i + 1) * w = r.length + i * w := by rw [h r (by simp)]; ring
      rw [this, List.drop_append]
      congr 2
      rw [ih (fun x hx => h x (by simp [hx]))]

theorem readArray_at (cw : Nat) (buffer tail : List Nat) (offset w : Nat) (array : List Buffer)
    (h : buffer.drop offset = encodeArray cw array ++ tail) (ho : offset ≤ buffer.length)
    (hv : ValidArray cw w array) :
    readArray cw buffer offset w = .ok (array, offset + (encodeArray cw array).length) := by
  have hle := le_step h ho
  rw [encodeArray, List.append_assoc] at h
  have hc := readCount_at cw buffer _ offset array.length h ho hv.1
  have h' := drop_step h
  rw [toBytesBE_length] at h'
  rw [encodeArray_length_eq, flatten_length_of_width w array hv.2] at hle ⊢
  have h1 : ¬ offset + cw + array.length * w > buffer.length := by omega
  simp only [readArray, hc, bind, Except.bind, h1, if_false]
  congr 2
  · rw [← windows_flatten w array tail hv.2]
    simp only [List.length_map, List.length_range]
    apply List.map_congr_left
    intro i _
    rw [← List.drop_drop, h']
  · omega

theorem readRows_at (cw : Nat) (buffer : List Nat) (w : Nat) (rows : List (List Buffer))
    (tail : List Nat) (offset : Nat)
    (h : buffer.drop offset = rows.flatMap (encodeArray cw) ++ tail)
    (ho : offset ≤ buffer.length) (hv : ∀ row ∈ rows, ValidArray cw w row) :
    readRows cw buffer w rows.length offset =
      .ok (rows, offset + (rows.flatMap (encodeArray cw)).length) := by
  induction rows generalizing offset with
  | nil => simp [readRows]
  | cons r rs ih =>
    rw [List.flatMap_cons, List.append_assoc] at h
    rw [List.length_cons, readRows, readArray_at cw buffer _ offset w r h ho (hv r (by simp))]
    simp only [bind, Except.bind]
    rw [ih _ (drop_step h) (le_step h ho) (fun x hx => hv x (by simp [hx]))]
    simp only [pure, Except.pure, List.flatMap_cons, List.length_append, Nat.add_assoc]

theorem readMatrix_at (cw : Nat) (buffer tail : List Nat) (offset w : Nat)
    (matrix : List (List Buffer))
    (h : buffer.drop offset = encodeMatrix cw matrix ++ tail) (ho : offset ≤ buffer.length)
    (hv : ValidMatrix cw w matrix) :
    readMatrix cw buffer offset w = .ok (matrix, offset + (encodeMatrix cw matrix).length) := by
  rw [encodeMatrix, List.append_assoc] at h
  have hc := readCount_at cw buffer _ offset matrix.length h ho hv.1
  have h' := drop_step h
  have ho' := le_step h ho
  rw [toBytesBE_length] at h' ho'
  simp only [readMatrix, hc, bind, Except.bind]
  rw [readRows_at cw buffer w matrix tail _ h' ho' hv.2, encodeMatrix_length_eq, Nat.add_assoc]

theorem readMerkleProof_at (cw : Nat) (buffer tail : List Nat) (offset nodeSize : Nat)
    (proof : BatchMerkleProof)
    (h : buffer.drop offset = encodeMerkleProof cw proof ++ tail) (ho : offset ≤ buffer.length)
    (hv : ValidMerkleProof cw nodeSize proof) :
    readMerkleProof cw buffer offset nodeSize =
      .ok (proof, offset + (encodeMerkleProof cw proof).length) := by
  rw [encodeMerkleProof, List.append_assoc] at h
  rw [readMerkleProof, readArray_at cw buffer _ offset nodeSize _ h ho hv.1]
  simp only [bind, Except.bind]
  rw [readMatrix_at cw buffer tail _ nodeSize _ (drop_step h) (le_step h ho) hv.2]
  simp only [pure, Except.pure, encodeMerkleProof, List.length_append, Nat.add_assoc]

/-- Copying a root that lies wholly inside the source into fresh memory. -/
theorem copy_root_at (buffer root tail target : List Nat) (offset n : Nat)
    (h : buffer.drop offset = root ++ tail) (ho : offset ≤ buffer.length)
    (hr : root.length = n) (ht : target.length = n) :
    Buffer.copy buffer target 0 offset (offset + n) = .ok (root, n) := by
  have hle := le_step h ho
  unfold Buffer.copy
  have h1 : ¬ offset > buffer.length := by omega
  simp only [h1, if_false]
  by_cases h2 : 0 ≥ target.length ∨ offset ≥ offset + n
  · have hn : n = 0 := by omega
    have h3 : target = [] := List.eq_nil_of_length_eq_zero (by omega)
    have h4 : root = [] := List.eq_nil_of_length_eq_zero (by omega)
    simp [h3, h4, hn]
  · simp only [h2, if_false]
    have hmin : min (min (offset + n - offset) (target.length - 0)) (buffer.length - offset)
        = n := by omega
    rw [hmin, h, List.take_zero, List.nil_append, ← hr, List.take_left,
      List.drop_eq_nil_of_le (by omega), List.append_nil]


theorem drop_step_end {buffer bytes : List Nat} {offset : Nat}
    (h : buffer.drop offset = bytes) : buffer.drop (offset + bytes.length) = [] :=
  @drop_step buffer bytes [] offset (by rw [List.append_nil]; exact h)

theorem le_step_end {buffer bytes : List Nat} {offset : Nat}
    (h : buffer.drop offset = bytes) (ho : offset ≤ buffer.length) :
    offset + bytes.length ≤ buffer.length :=
  @le_step buffer bytes [] offset (by rw [List.append_nil]; exact h) ho

theorem readArray_at_end (cw : Nat) (buffer : List Nat) (offset w : Nat) (array : List Buffer)
    (h : buffer.drop offset = encodeArray cw array) (ho : offset ≤ buffer.length)
    (hv : ValidArray cw w array) :
    readArray cw buffer offset w = .ok (array, offset + (encodeArray cw array).length) :=
  readArray_at cw buffer [] offset w array (by rw [List.append_nil]; exact h) ho hv

theorem readComponents_at (cw nodeSize : Nat) (mem : Nat → Nat → Nat) (buffer : List Nat)
    (components : List Component) (tail : List Nat) (i offset : Nat)
    (h : buffer.drop offset = components.flatMap (encodeComponent cw) ++ tail)
    (ho : offset ≤ buffer.length)
    (hv : ∀ component ∈ components, ValidComponent cw nodeSize component) :
    readComponents cw nodeSize mem buffer components.length i offset =
      .ok (components, offset + (components.flatMap (encodeComponent cw)).length) := by
  induction components generalizing i offset with
  | nil => simp [readComponents]
  | cons c cs ih =>
    have hc := hv c (by simp)
    rw [List.flatMap_cons, encodeComponent] at h
    simp only [List.append_assoc] at h
    have d1 := drop_step h
    have o1 := le_step h ho
    have d2 := drop_step d1
    have o2 := le_step d1 o1
    have d3 := drop_step d2
    have o3 := le_step d2 o2
    rw [hc.1] at d1 o1 d2 o2 d3 o3
    rw [List.length_cons, readComponents,
      copy_root_at buffer c.columnRoot _ _ offset nodeSize h ho hc.1 (allocUnsafe_length _ _)]
    simp only [bind, Except.bind]
    rw [readMerkleProof_at cw buffer _ _ nodeSize c.columnProof d1 o1 hc.2.1]
    simp only
    rw [readMerkleProof_at cw buffer _ _ nodeSize c.polyProof d2 o2 hc.2.2]
    simp only
    rw [ih _ _ d3 o3 (fun x hx => hv x (by simp [hx]))]
    simp only [pure, Except.pure, List.flatMap_cons, encodeComponent, List.length_append,
      hc.1, Nat.add_assoc]

/-- Parsing the encoding of a valid proof gives the proof back and ends at the end of
the encoding. -/
theorem parseProofRun_encodeProof (cw : Nat) (s : Serializer) (mem : Nat → Nat → Nat)
    (proof : StarkProof) (hashAlgorithm : HashAlgorithm)
    (h : ValidProof cw s (getHashDigestSize hashAlgorithm) proof) :
    parseProofRun cw s mem (encodeProof cw proof) hashAlgorithm =
      .ok (proof, (encodeProof cw proof).length) := by
  obtain ⟨h1, h2, h3, h4, h5, h6, h7, h8, h9, h10⟩ := h
  set B := encodeProof cw proof with hB
  set n := getHashDigestSize hashAlgorithm with hn
  have d0 : B.drop 0 = proof.evaluations.root ++ _ := rfl
  have o0 : 0 ≤ B.length := Nat.zero_le _
  have d1 := drop_step d0
  have o1 := le_step d0 o0
  have d2 := drop_step d1
  have o2 := le_step d1 o1
  have d3 := drop_step d2
  have o3 := le_step d2 o2
  have d4 := drop_step d3
  have o4 := le_step d3 o3
  have d5 := drop_step d4
  have o5 := le_step d4 o4
  have d6 := drop_step d5
  have o6 := le_step d5 o5
  have d7 := drop_step d6
  have o7 := le_step d6 o6
  have d8 := drop_step d7
  have o8 := le_step d7 o7
  have d9 := drop_step d8
  have o9 := le_step d8 o8
  have d10 := drop_step_end d9
  have o10 := le_step_end d9 o9
  simp only [h1, h6, List.length_singleton] at d1 o1 d2 o2 d3 o3 d4 o4 d5 o5
  simp only [h1, h6, List.length_singleton] at d6 o6 d7 o7 d8 o8 d9 o9 d10 o10
  unfold parseProofRun
  simp only [bind, Except.bind, pure, Except.pure, ← hn]
  rw [copy_root_at B _ _ _ 0 n d0 o0 h1 (allocUnsafe_length _ _)]
  simp only
  rw [readUInt8_at B _ _ _ d1]
  simp only
  rw [readUInt8_at B _ _ _ d2]
  simp only
  rw [readArray_at cw B _ _ _ _ d3 o3 h4]
  simp only
  rw [readMatrix_at cw B _ _ _ _ d4 o4 h5]
  simp only
  rw [copy_root_at B _ _ _ _ n d5 o5 h6 (allocUnsafe_length _ _)]
  simp only
  rw [readMerkleProof_at cw B _ _ _ _ d6 o6 h7]
  simp only
  rw [readUInt8_at B _ _ _ d7]
  simp only
  rw [readComponents_at cw n mem B _ _ _ _ d8 o8 h9]
  simp only
  rw [readArray_at_end cw B _ _ _ d9 o9 h10]
  simp only [Except.ok.injEq, Prod.mk.injEq]
  refine ⟨trivial, ?_⟩
  have := congrArg List.length d10
  rw [List.length_drop, List.length_nil] at this
  omega

/-! ## What a successful write leaves in the buffer -/

theorem WroteExactly.toFramed {buffer buffer' : Buffer} {offset offset' : Nat} {bytes : List Nat}
    (h : WroteExactly buffer offset bytes buffer' offset') :
    Framed buffer offset buffer' offset' := by
  obtain ⟨h1, h2, h3⟩ := h
  refine ⟨by omega, ?_, ?_⟩
  · rw [h3]
    simp only [List.length_append, List.length_take, List.length_drop]
    omega
  · rw [h3, List.append_assoc, List.take_append_of_le_length (by
      rw [List.length_take]; omega), List.take_take, Nat.min_self]

theorem WroteExactly.append {b0 b1 b2 : Buffer} {o0 o1 o2 : Nat} {x y : List Nat}
    (h1 : WroteExactly b0 o0 x b1 o1) (h2 : WroteExactly b1 o1 y b2 o2) :
    WroteExactly b0 o0 (x ++ y) b2 o2 := by
  have hf := h1.toFramed
  obtain ⟨e1, l1, r1⟩ := h1
  obtain ⟨e2, l2, r2⟩ := h2
  have hlen : b1.length = b0.length := hf.2.1
  refine ⟨by rw [List.length_append]; omega, by omega, ?_⟩
  have ht : (b0.take o0 ++ x).length = o1 := by
    rw [List.length_append, List.length_take]; omega
  have t1 : b1.take o1 = b0.take o0 ++ x := by
    rw [r1, ← ht, List.take_left]
  have t2 : b1.drop o2 = b0.drop o2 := by
    have : o2 = (b0.take o0 ++ x).length + y.length := by omega
    rw [r1, this, List.drop_append, List.drop_drop]
    congr 1
    omega
  rw [r2, t1, t2, List.append_assoc, List.append_assoc, List.append_assoc, List.append_assoc]

theorem Framed.andThen {b0 b1 b2 : Buffer} {o0 o1 o2 : Nat}
    (h1 : Framed b0 o0 b1 o1) (h2 : Framed b1 o1 b2 o2) : Framed b0 o0 b2 o2 := by
  obtain ⟨a1, a2, a3⟩ := h1
  obtain ⟨c1, c2, c3⟩ := h2
  refine ⟨by omega, by omega, ?_⟩
  have : b2.take o0 = (b2.take o1).take o0 := by
    rw [List.take_take, Nat.min_eq_left a1]
  rw [this, c3, List.take_take, Nat.min_eq_left a1, a3]

theorem Framed.same (b : Buffer) (o : Nat) : Framed b o b o := ⟨le_refl _, rfl, rfl⟩

theorem writeBytes_exact (buffer : Buffer) (offset : Nat) (bytes : List Nat) (buffer' : Buffer)
    (offset' : Nat) (h : writeBytes buffer offset bytes = .ok (buffer', offset')) :
    WroteExactly buffer offset bytes buffer' offset' := by
  unfold writeBytes at h
  split at h
  · cases h
  · simp only [Except.ok.injEq, Prod.mk.injEq] at h
    obtain ⟨rfl, rfl⟩ := h
    exact ⟨rfl, by omega, rfl⟩

theorem writeCount_exact (cw : Nat) (buffer : Buffer) (offset n : Nat) (buffer' : Buffer)
    (offset' : Nat) (h : writeCount cw buffer offset n = .ok (buffer', offset')) :
    WroteExactly buffer offset (toBytesBE cw n) buffer' offset' ∧ n < 256 ^ cw := by
  unfold writeCount at h
  split at h
  · cases h
  · exact ⟨writeBytes_exact _ _ _ _ _ h, by omega⟩

theorem writeRecords_exact (buffer : Buffer) (offset : Nat) (records : List Buffer)
    (buffer' : Buffer) (offset' : Nat) (ho : offset ≤ buffer.length)
    (h : writeRecords buffer offset records = .ok (buffer', offset')) :
    WroteExactly buffer offset records.flatten buffer' offset' := by
  induction records generalizing buffer offset with
  | nil =>
    simp only [writeRecords, Except.ok.injEq, Prod.mk.injEq] at h
    obtain ⟨rfl, rfl⟩ := h
    exact ⟨by simp, ho, by simp⟩
  | cons r rs ih =>
    rw [writeRecords, bind_ok_iff] at h
    obtain ⟨⟨b1, o1⟩, h1, h2⟩ := h
    rw [List.flatten_cons]
    have e1 := writeBytes_exact _ _ _ _ _ h1
    exact e1.append (ih _ _ (by rw [e1.toFramed.2.1]; exact e1.2.1) h2)

/-- A successful `writeArray` wrote exactly the encoding of the array. -/
theorem writeArray_exact (cw : Nat) (buffer : Buffer) (offset : Nat) (array : List Buffer)
    (buffer' : Buffer) (offset' : Nat)
    (h : writeArray cw buffer offset array = .ok (buffer', offset')) :
    WroteExactly buffer offset (encodeArray cw array) buffer' offset' := by
  rw [writeArray, bind_ok_iff] at h
  obtain ⟨⟨b1, o1⟩, h1, h2⟩ := h
  have e1 := (writeCount_exact _ _ _ _ _ _ h1).1
  exact e1.append (writeRecords_exact _ _ _ _ _ (by rw [e1.toFramed.2.1]; exact e1.2.1) h2)

theorem writeRows_framed (cw : Nat) (buffer : Buffer) (offset : Nat)
    (rows : List (List Buffer)) (buffer' : Buffer) (offset' : Nat)
    (h : writeRows cw buffer offset rows = .ok (buffer', offset')) :
    Framed buffer offset buffer' offset' := by
  induction rows generalizing buffer offset with
  | nil =>
    simp only [writeRows, Except.ok.injEq, Prod.mk.injEq] at h
    obtain ⟨rfl, rfl⟩ := h
    exact Framed.same _ _
  | cons r rs ih =>
    rw [writeRows, bind_ok_iff] at h
    obtain ⟨⟨b1, o1⟩, h1, h2⟩ := h
    exact (writeArray_exact _ _ _ _ _ _ h1).toFramed.andThen (ih _ _ h2)

theorem writeMatrix_framed (cw : Nat) (buffer : Buffer) (offset : Nat)
    (matrix : List (List Buffer)) (buffer' : Buffer) (offset' : Nat)
    (h : writeMatrix cw buffer offset matrix = .ok (buffer', offset')) :
    Framed buffer offset buffer' offset' := by
  rw [writeMatrix, bind_ok_iff] at h
  obtain ⟨⟨b1, o1⟩, h1, h2⟩ := h
  exact (writeCount_exact _ _ _ _ _ _ h1).1.toFramed.andThen (writeRows_framed _ _ _ _ _ _ h2)

theorem writeMerkleProof_framed (cw : Nat) (buffer : Buffer) (offset : Nat)
    (proof : BatchMerkleProof) (nodeSize : Nat) (buffer' : Buffer) (offset' : Nat)
    (h : writeMerkleProof cw buffer offset proof nodeSize = .ok (buffer', offset')) :
    Framed buffer offset buffer' offset' := by
  rw [writeMerkleProof, bind_ok_iff] at h
  obtain ⟨⟨b1, o1⟩, h1, h2⟩ := h
  exact (writeArray_exact _ _ _ _ _ _ h1).toFramed.andThen (writeMatrix_framed _ _ _ _ _ _ h2)

/-- A copy into the buffer at `offset` keeps the bytes before `offset`. -/
theorem copy_framed (source buffer : Buffer) (offset : Nat) (buffer' : Buffer) (copied : Nat)
    (h : Buffer.copy source buffer offset 0 source.length = .ok (buffer', copied)) :
    Framed buffer offset buffer' (offset + copied) := by
  unfold Buffer.copy at h
  split at h
  · cases h
  · split at h
    · simp only [Except.ok.injEq, Prod.mk.injEq] at h
      obtain ⟨rfl, rfl⟩ := h
      exact Framed.same _ _
    · rename_i h1 h2
      simp only [Except.ok.injEq, Prod.mk.injEq] at h
      obtain ⟨rfl, rfl⟩ := h
      have ho : offset < buffer.length := by omega
      refine ⟨by omega, ?_, ?_⟩
      · simp only [List.length_append, List.length_take, List.length_drop]
        omega
      · rw [List.append_assoc, List.take_append_of_le_length (by
          rw [List.length_take]; omega), List.take_take, Nat.min_self]

theorem writeUInt8_framed (buffer : Buffer) (value offset : Nat) (buffer' : Buffer)
    (offset' : Nat) (h : Buffer.writeUInt8 buffer value offset = .ok (buffer', offset')) :
    Framed buffer offset buffer' offset' ∧ offset < buffer.length ∧ value ≤ 255 ∧
      buffer' = buffer.set offset value ∧ offset' = offset + 1 := by
  unfold Buffer.writeUInt8 at h
  split at h
  · cases h
  · split at h
    · cases h
    · simp only [Except.ok.injEq, Prod.mk.injEq] at h
      obtain ⟨rfl, rfl⟩ := h
      refine ⟨⟨by omega, by simp, ?_⟩, by omega, by omega, rfl, rfl⟩
      rw [List.set_eq_take_append_cons_drop, if_pos (by omega),
        List.take_left' (by rw [List.length_take]; omega)]

theorem writeComponents_framed (cw nodeSize : Nat) (buffer : Buffer) (offset : Nat)
    (components : List Component) (buffer' : Buffer) (offset' : Nat)
    (h : writeComponents cw nodeSize buffer offset components = .ok (buffer', offset')) :
    Framed buffer offset buffer' offset' := by
  induction components generalizing buffer offset with
  | nil =>
    simp only [writeComponents, Except.ok.injEq, Prod.mk.injEq] at h
    obtain ⟨rfl, rfl⟩ := h
    exact Framed.same _ _
  | cons c cs ih =>
    rw [writeComponents, bind_ok_iff] at h
    obtain ⟨⟨b1, n1⟩, h1, h⟩ := h
    simp only at h
    rw [bind_ok_iff] at h
    obtain ⟨⟨b2, o2⟩, h2, h⟩ := h
    simp only at h
    rw [bind_ok_iff] at h
    obtain ⟨⟨b3, o3⟩, h3, h⟩ := h
    exact (((copy_framed _ _ _ _ _ h1).andThen (writeMerkleProof_framed _ _ _ _ _ _ _ h2)).andThen
      (writeMerkleProof_framed _ _ _ _ _ _ _ h3)).andThen (ih _ _ h)


/-- A copy to the start of a buffer that leaves room after it copied the whole source. -/
theorem copy_zero_exact (source buffer buffer' : Buffer) (copied : Nat)
    (h : Buffer.copy source buffer 0 0 source.length = .ok (buffer', copied))
    (hlt : copied < buffer.length) :
    copied = source.length ∧ buffer' = source ++ buffer.drop source.length := by
  unfold Buffer.copy at h
  split at h
  · cases h
  · split at h
    · rename_i h1 h2
      simp only [Except.ok.injEq, Prod.mk.injEq] at h
      obtain ⟨rfl, rfl⟩ := h
      have hs : source = [] := List.eq_nil_of_length_eq_zero (by omega)
      subst hs
      simp
    · rename_i h1 h2
      simp only [Except.ok.injEq, Prod.mk.injEq] at h
      obtain ⟨rfl, rfl⟩ := h
      have hmin : min (min (source.length - 0) (buffer.length - 0)) (source.length - 0)
          = source.length := by omega
      rw [hmin]
      simp

/-- The header of a buffer after the root and the two one-byte fields are written. -/
theorem header_take (root rest : List Nat) (bpc depth : Nat) (h : 2 ≤ rest.length) :
    (((root ++ rest).set root.length bpc).set (root.length + 1) depth).take (root.length + 2)
      = root ++ [bpc, depth] := by
  match rest, h with
  | r0 :: r1 :: rest', _ =>
    simp [List.set_append, List.take_append]

/-! ## Reading from a prefix of a buffer -/

theorem readUInt8_ext (b t : List Nat) (o v : Nat) (h : Buffer.readUInt8 b o = .ok v) :
    o < b.length ∧ Buffer.readUInt8 (b ++ t) o = .ok v := by
  unfold Buffer.readUInt8 at h ⊢
  cases hb : b[o]? with
  | none => rw [hb] at h; cases h
  | some x =>
    rw [hb] at h
    simp only [Except.ok.injEq] at h
    subst h
    have hlt : o < b.length := by
      by_contra hc
      rw [List.getElem?_eq_none (by omega)] at hb
      cases hb
    refine ⟨hlt, ?_⟩
    rw [List.getElem?_append_left hlt, hb]

theorem readCount_ext (cw : Nat) (b t : List Nat) (o n : Nat)
    (h : readCount cw b o = .ok n) :
    o + cw ≤ b.length ∧ readCount cw (b ++ t) o = .ok n := by
  unfold readCount at h ⊢
  split at h
  · cases h
  · rename_i h1
    have h2 : ¬ o + cw > (b ++ t).length := by rw [List.length_append]; omega
    simp only [h2, if_false]
    refine ⟨by omega, ?_⟩
    rw [← h, List.drop_append_of_le_length (by omega),
      List.take_append_of_le_length (by rw [List.length_drop]; omega)]

theorem readArray_ext (cw : Nat) (b t : List Nat) (o w : Nat) (a : List Buffer) (o' : Nat)
    (h : readArray cw b o w = .ok (a, o')) :
    o + cw ≤ o' ∧ o' ≤ b.length ∧ readArray cw (b ++ t) o w = .ok (a, o') := by
  unfold readArray at h ⊢
  rw [bind_ok_iff] at h
  obtain ⟨n, h1, h2⟩ := h
  obtain ⟨hle, hc⟩ := readCount_ext cw b t o n h1
  simp only at h2
  split at h2
  · cases h2
  · rename_i h3
    simp only [Except.ok.injEq, Prod.mk.injEq] at h2
    obtain ⟨rfl, rfl⟩ := h2
    have h4 : ¬ o + cw + n * w > (b ++ t).length := by rw [List.length_append]; omega
    simp only [hc, bind, Except.bind, h4, if_false, Except.ok.injEq, Prod.mk.injEq, and_true]
    refine ⟨by omega, by omega, ?_⟩
    apply List.map_congr_left
    intro i hi
    have hi' : i < n := List.mem_range.1 hi
    have hiw : (i + 1) * w ≤ n * w := Nat.mul_le_mul_right w hi'
    have hiw' : (i + 1) * w = i * w + w := by ring
    rw [List.drop_append_of_le_length (by omega),
      List.take_append_of_le_length (by rw [List.length_drop]; omega)]

theorem readRows_ext (cw : Nat) (b t : List Nat) (w k o : Nat) (rows : List (List Buffer))
    (o' : Nat) (ho : o ≤ b.length) (h : readRows cw b w k o = .ok (rows, o')) :
    o ≤ o' ∧ o' ≤ b.length ∧ readRows cw (b ++ t) w k o = .ok (rows, o') := by
  induction k generalizing o rows with
  | zero =>
    simp only [readRows, Except.ok.injEq, Prod.mk.injEq] at h ⊢
    obtain ⟨rfl, rfl⟩ := h
    exact ⟨le_refl _, ho, rfl, rfl⟩
  | succ k ih =>
    rw [readRows, bind_ok_iff] at h
    obtain ⟨⟨r, o1⟩, h1, h⟩ := h
    simp only at h
    rw [bind_ok_iff] at h
    obtain ⟨⟨rs, o2⟩, h2, h⟩ := h
    simp only [pure, Except.pure, Except.ok.injEq, Prod.mk.injEq] at h
    obtain ⟨rfl, rfl⟩ := h
    obtain ⟨a1, a2, a3⟩ := readArray_ext cw b t o w r o1 h1
    obtain ⟨c1, c2, c3⟩ := ih o1 rs a2 h2
    refine ⟨by omega, c2, ?_⟩
    rw [readRows, a3]
    simp only [bind, Except.bind, c3, pure, Except.pure]

theorem readMatrix_ext (cw : Nat) (b t : List Nat) (o w : Nat) (m : List (List Buffer))
    (o' : Nat) (h : readMatrix cw b o w = .ok (m, o')) :
    o + cw ≤ o' ∧ o' ≤ b.length ∧ readMatrix cw (b ++ t) o w = .ok (m, o') := by
  unfold readMatrix at h ⊢
  rw [bind_ok_iff] at h
  obtain ⟨n, h1, h2⟩ := h
  obtain ⟨hle, hc⟩ := readCount_ext cw b t o n h1
  obtain ⟨c1, c2, c3⟩ := readRows_ext cw b t w n (o + cw) m o' hle h2
  refine ⟨c1, c2, ?_⟩
  simp only [hc, bind, Except.bind, c3]

theorem readMerkleProof_ext (cw : Nat) (b t : List Nat) (o nodeSize : Nat)
    (p : BatchMerkleProof) (o' : Nat) (h : readMerkleProof cw b o nodeSize = .ok (p, o')) :
    o + cw ≤ o' ∧ o' ≤ b.length ∧ readMerkleProof cw (b ++ t) o nodeSize = .ok (p, o') := by
  unfold readMerkleProof at h ⊢
  rw [bind_ok_iff] at h
  obtain ⟨⟨vs, o1⟩, h1, h⟩ := h
  simp only at h
  rw [bind_ok_iff] at h
  obtain ⟨⟨ns, o2⟩, h2, h⟩ := h
  simp only [pure, Except.pure, Except.ok.injEq, Prod.mk.injEq] at h
  obtain ⟨rfl, rfl⟩ := h
  obtain ⟨a1, a2, a3⟩ := readArray_ext cw b t o nodeSize vs o1 h1
  obtain ⟨c1, c2, c3⟩ := readMatrix_ext cw b t o1 nodeSize ns o2 h2
  refine ⟨by omega, c2, ?_⟩
  simp only [a3, bind, Except.bind, c3, pure, Except.pure]

/-- A copy of `n` bytes out of a source either lies wholly inside the source, and is
then unchanged when the source is extended, or stops at the end of the source. -/
theorem copy_ext (b t target : List Nat) (o n : Nat) (r : List Nat) (nb : Nat)
    (ht : target.length = n) (h : Buffer.copy b target 0 o (o + n) = .ok (r, nb)) :
    o + nb ≤ b.length ∧
      (o + n ≤ b.length → nb = n ∧ Buffer.copy (b ++ t) target 0 o (o + n) = .ok (r, nb)) ∧
      (b.length < o + n → o + nb = b.length) := by
  unfold Buffer.copy at h ⊢
  split at h
  · cases h
  · rename_i h1
    have h1' : ¬ o > (b ++ t).length := by rw [List.length_append]; omega
    simp only [h1', if_false]
    split at h
    · rename_i h2
      simp only [Except.ok.injEq, Prod.mk.injEq] at h
      obtain ⟨rfl, rfl⟩ := h
      have hn : n = 0 := by omega
      refine ⟨by omega, fun _ => ⟨by omega, ?_⟩, fun hlt => by omega⟩
      simp only [h2, if_true]
    · rename_i h2
      simp only [Except.ok.injEq, Prod.mk.injEq] at h
      obtain ⟨rfl, rfl⟩ := h
      refine ⟨by omega, fun hle => ⟨by omega, ?_⟩, fun hlt => by omega⟩
      simp only [h2, if_false]
      have m1 : min (min (o + n - o) (target.length - 0)) (b.length - o) = n := by omega
      have m2 : min (min (o + n - o) (target.length - 0)) ((b ++ t).length - o) = n := by
        rw [List.length_append]; omega
      rw [m1, m2, List.drop_append_of_le_length (by omega),
        List.take_append_of_le_length (by rw [List.length_drop]; omega)]


theorem readComponents_ext (cw nodeSize : Nat) (mem : Nat → Nat → Nat) (b t : List Nat)
    (hcw : 1 ≤ cw) (k i o : Nat) (cs : List Component) (o' : Nat) (ho : o ≤ b.length)
    (h : readComponents cw nodeSize mem b k i o = .ok (cs, o')) :
    o ≤ o' ∧ o' ≤ b.length ∧ readComponents cw nodeSize mem (b ++ t) k i o = .ok (cs, o') := by
  induction k generalizing i o cs with
  | zero =>
    simp only [readComponents, Except.ok.injEq, Prod.mk.injEq] at h ⊢
    obtain ⟨rfl, rfl⟩ := h
    exact ⟨le_refl _, ho, rfl, rfl⟩
  | succ k ih =>
    rw [readComponents, bind_ok_iff] at h
    obtain ⟨⟨r, nb⟩, h1, h⟩ := h
    simp only at h
    rw [bind_ok_iff] at h
    obtain ⟨⟨cp, o1⟩, h2, h⟩ := h
    simp only at h
    rw [bind_ok_iff] at h
    obtain ⟨⟨pp, o2⟩, h3, h⟩ := h
    simp only at h
    rw [bind_ok_iff] at h
    obtain ⟨⟨rest, o3⟩, h4, h⟩ := h
    simp only [pure, Except.pure, Except.ok.injEq, Prod.mk.injEq] at h
    obtain ⟨rfl, rfl⟩ := h
    obtain ⟨a1, a2, a3⟩ := copy_ext b t _ o nodeSize r nb (allocUnsafe_length _ _) h1
    obtain ⟨c1, c2, c3⟩ := readMerkleProof_ext cw b t _ nodeSize cp o1 h2
    obtain ⟨e1, e2, e3⟩ := readMerkleProof_ext cw b t _ nodeSize pp o2 h3
    obtain ⟨f1, f2, f3⟩ := ih (i + 1) o2 rest e2 h4
    have hin : o + nodeSize ≤ b.length := by
      by_contra hc
      have := a3 (by omega)
      omega
    obtain ⟨g1, g2⟩ := a2 hin
    refine ⟨by omega, f2, ?_⟩
    rw [readComponents, g2]
    simp only [bind, Except.bind, c3, e3, f3, pure, Except.pure]

/-- A successful parse read only the bytes before its final offset: it ends inside the
buffer and gives the same result on every extension of the buffer. -/
theorem parseProofRun_ext (cw : Nat) (s : Serializer) (mem : Nat → Nat → Nat)
    (b t : List Nat) (hashAlgorithm : HashAlgorithm) (hcw : 1 ≤ cw) (q : StarkProof) (o : Nat)
    (h : parseProofRun cw s mem b hashAlgorithm = .ok (q, o)) :
    o ≤ b.length ∧ parseProofRun cw s mem (b ++ t) hashAlgorithm = .ok (q, o) := by
  unfold parseProofRun at h
  rw [bind_ok_iff] at h
  obtain ⟨⟨r1, nb1⟩, h1, h⟩ := h
  simp only at h
  rw [bind_ok_iff] at h
  obtain ⟨bpc, h2, h⟩ := h
  rw [bind_ok_iff] at h
  obtain ⟨depth, h3, h⟩ := h
  rw [bind_ok_iff] at h
  obtain ⟨⟨vs, o4⟩, h4, h⟩ := h
  simp only at h
  rw [bind_ok_iff] at h
  obtain ⟨⟨ns, o5⟩, h5, h⟩ := h
  simp only at h
  rw [bind_ok_iff] at h
  obtain ⟨⟨r2, nb2⟩, h6, h⟩ := h
  simp only at h
  rw [bind_ok_iff] at h
  obtain ⟨⟨lc, o7⟩, h7, h⟩ := h
  simp only at h
  rw [bind_ok_iff] at h
  obtain ⟨cc, h8, h⟩ := h
  rw [bind_ok_iff] at h
  obtain ⟨⟨cs, o9⟩, h9, h⟩ := h
  simp only at h
  rw [bind_ok_iff] at h
  obtain ⟨⟨rem, o10⟩, h10, h⟩ := h
  simp only [pure, Except.pure, Except.ok.injEq, Prod.mk.injEq] at h
  obtain ⟨rfl, rfl⟩ := h
  obtain ⟨a1, a2, a3⟩ := copy_ext b t _ 0 _ r1 nb1 (allocUnsafe_length _ _) h1
  obtain ⟨b1, b2⟩ := readUInt8_ext b t _ bpc h2
  obtain ⟨c1, c2⟩ := readUInt8_ext b t _ depth h3
  obtain ⟨d1, d2, d3⟩ := readArray_ext cw b t _ _ vs o4 h4
  obtain ⟨e1, e2, e3⟩ := readMatrix_ext cw b t _ _ ns o5 h5
  obtain ⟨f1, f2, f3⟩ := copy_ext b t _ o5 _ r2 nb2 (allocUnsafe_length _ _) h6
  obtain ⟨g1, g2, g3⟩ := readMerkleProof_ext cw b t _ _ lc o7 h7
  obtain ⟨i1, i2⟩ := readUInt8_ext b t _ cc h8
  obtain ⟨j1, j2, j3⟩ := readComponents_ext cw _ mem b t hcw cc 0 _ cs o9 (by omega) h9
  obtain ⟨k1, k2, k3⟩ := readArray_ext cw b t _ _ rem o10 h10
  have hin1 : 0 + getHashDigestSize hashAlgorithm ≤ b.length := by
    by_contra hc
    have := a3 (by omega)
    omega
  have hin2 : o5 + getHashDigestSize hashAlgorithm ≤ b.length := by
    by_contra hc
    have := f3 (by omega)
    omega
  obtain ⟨l1, l2⟩ := a2 hin1
  obtain ⟨m1, m2⟩ := f2 hin2
  refine ⟨k2, ?_⟩
  unfold parseProofRun
  simp only [bind, Except.bind, pure, Except.pure, l2, b2, c2, d3, e3, m2, g3, i2, j3, k3]

/-- A valid proof meets the conditions the round trip is stated with. -/
theorem ValidProof.stated {cw : Nat} {s : Serializer} {nodeSize : Nat} {proof : StarkProof}
    (h : ValidProof cw s nodeSize proof) : StatedValid s nodeSize proof := by
  obtain ⟨h1, h2, h3, h4, h5, h6, h7, h8, h9, h10⟩ := h
  refine ⟨h1, h6, fun c hc => (h9 c hc).1, h2, h3, h8, h4.2,
    fun row hrow => (h5.2 row hrow).2, fun row hrow => (h7.2.2 row hrow).2,
    fun c hc => ⟨fun row hrow => ((h9 c hc).2.1.2.2 row hrow).2,
      fun row hrow => ((h9 c hc).2.2.2.2 row hrow).2⟩, h10.2⟩

/-! ## The header of a proof -/

/-- `parseProof` is its header followed by its body. -/
theorem parseProofRun_header (cw : Nat) (s : Serializer) (mem : Nat → Nat → Nat)
    (buffer : Buffer) (hashAlgorithm : HashAlgorithm) :
    parseProofRun cw s mem buffer hashAlgorithm =
      parseHeader s mem buffer hashAlgorithm >>= parseBody cw mem buffer hashAlgorithm := by
  unfold parseProofRun parseHeader parseBody
  simp only [bind, Except.bind, pure, Except.pure]
  cases Buffer.copy buffer (allocUnsafe (mem 0) (getHashDigestSize hashAlgorithm)) 0 0
      (0 + getHashDigestSize hashAlgorithm) with
  | error e => rfl
  | ok x =>
    obtain ⟨r, nb⟩ := x
    simp only
    cases Buffer.readUInt8 buffer (0 + nb) with
    | error e => rfl
    | ok bpc =>
      simp only
      cases Buffer.readUInt8 buffer (0 + nb + 1) with
      | error e => rfl
      | ok depth => rfl

/-- A copy out of a source at offset `0` copies as much as the source and the target
hold and never fails. -/
theorem copy_from_start (buffer target : List Nat) (n : Nat) (ht : target.length = n) :
    ∃ r, Buffer.copy buffer target 0 0 (0 + n) = .ok (r, min n buffer.length) := by
  unfold Buffer.copy
  have h1 : ¬ 0 > buffer.length := by omega
  simp only [h1, if_false]
  by_cases h2 : 0 ≥ target.length ∨ 0 ≥ 0 + n
  · have hn : n = 0 := by omega
    refine ⟨target, ?_⟩
    subst hn
    simp
  · simp only [h2, if_false]
    have hmin : min (min (0 + n - 0) (target.length - 0)) (buffer.length - 0)
        = min n buffer.length := by omega
    rw [hmin]
    exact ⟨_, rfl⟩

theorem readUInt8_out_of_range (buffer : List Nat) (offset : Nat) (h : buffer.length ≤ offset) :
    Buffer.readUInt8 buffer offset = .error .rangeError := by
  simp only [Buffer.readUInt8, List.getElem?_eq_none h]

theorem readUInt8_in_range (buffer : List Nat) (offset : Nat) (h : offset < buffer.length) :
    ∃ v, Buffer.readUInt8 buffer offset = .ok v := by
  refine ⟨buffer[offset], ?_⟩
  simp only [Buffer.readUInt8, List.getElem?_eq_getElem h]

/-- A buffer too short for the root and the two one-byte fields fails in the header. -/
theorem parseHeader_short (s : Serializer) (mem : Nat → Nat → Nat) (buffer : Buffer)
    (hashAlgorithm : HashAlgorithm)
    (h : buffer.length < getHashDigestSize hashAlgorithm + 2) :
    parseHeader s mem buffer hashAlgorithm = .error .rangeError := by
  obtain ⟨r, hr⟩ := copy_from_start buffer (allocUnsafe (mem 0) (getHashDigestSize hashAlgorithm))
    (getHashDigestSize hashAlgorithm) (allocUnsafe_length _ _)
  unfold parseHeader
  simp only [bind, Except.bind, pure, Except.pure, hr]
  by_cases h1 : buffer.length ≤ 0 + min (getHashDigestSize hashAlgorithm) buffer.length
  · rw [readUInt8_out_of_range _ _ h1]
  · obtain ⟨v, hv⟩ := readUInt8_in_range buffer
      (0 + min (getHashDigestSize hashAlgorithm) buffer.length) (by omega)
    rw [hv]
    simp only
    rw [readUInt8_out_of_range _ _ (by omega)]

/-- What a successful `serializeProof` implies: the three one-byte fields are in
`0..255`, the buffer has the computed size, and when the evaluation root has the digest
size the buffer starts with the root, `bpc` and the depth. -/
theorem serializeProofRun_ok (cw : Nat) (s : Serializer) (mem : Nat → Nat)
    (proof : StarkProof) (hashAlgorithm : HashAlgorithm) (out : Buffer) (off : Nat)
    (h : serializeProofRun cw s mem proof hashAlgorithm = .ok (out, off)) :
    proof.evaluations.bpc ≤ 255 ∧ proof.evaluations.depth ≤ 255 ∧
      proof.degree.ldProof.components.length ≤ 255 ∧
      out.length = (sizeOf cw proof (serializeValueSize s proof) hashAlgorithm).total ∧
      (proof.evaluations.root.length = getHashDigestSize hashAlgorithm →
        ∃ rest, out = proof.evaluations.root
          ++ proof.evaluations.bpc :: proof.evaluations.depth :: rest) := by
  unfold serializeProofRun at h
  rw [bind_ok_iff] at h
  obtain ⟨⟨b1, nb⟩, h1, h⟩ := h
  simp only at h
  rw [bind_ok_iff] at h
  obtain ⟨⟨b2, o2⟩, h2, h⟩ := h
  simp only at h
  rw [bind_ok_iff] at h
  obtain ⟨⟨b3, o3⟩, h3, h⟩ := h
  simp only at h
  rw [bind_ok_iff] at h
  obtain ⟨⟨b4, o4⟩, h4, h⟩ := h
  simp only at h
  rw [bind_ok_iff] at h
  obtain ⟨⟨b5, o5⟩, h5, h⟩ := h
  simp only at h
  rw [bind_ok_iff] at h
  obtain ⟨⟨b6, n6⟩, h6, h⟩ := h
  simp only at h
  rw [bind_ok_iff] at h
  obtain ⟨⟨b7, o7⟩, h7, h⟩ := h
  simp only at h
  rw [bind_ok_iff] at h
  obtain ⟨⟨b8, o8⟩, h8, h⟩ := h
  simp only at h
  rw [bind_ok_iff] at h
  obtain ⟨⟨b9, o9⟩, h9, h⟩ := h
  simp only at h
  rw [bind_ok_iff] at h
  obtain ⟨⟨b10, o10⟩, h10, h⟩ := h
  simp only [pure, Except.pure, Except.ok.injEq, Prod.mk.injEq] at h
  obtain ⟨rfl, rfl⟩ := h
  have hframe : Framed b3 o3 b10 o10 :=
    (((((((writeArray_exact _ _ _ _ _ _ h4).toFramed.andThen
      (writeMatrix_framed _ _ _ _ _ _ h5)).andThen (copy_framed _ _ _ _ _ h6)).andThen
      (writeMerkleProof_framed _ _ _ _ _ _ _ h7)).andThen
      (writeUInt8_framed _ _ _ _ _ h8).1).andThen
      (writeComponents_framed _ _ _ _ _ _ _ h9)).andThen
      (writeArray_exact _ _ _ _ _ _ h10).toFramed)
  set A := allocUnsafe mem (sizeOf cw proof ((s.stateWidth + s.constraintCount
    + proof.evaluations.bpc) * s.fieldElementSize) hashAlgorithm).total with hA
  have f1 := copy_framed _ _ _ _ _ h1
  obtain ⟨f2, lt2, v2, e2, eo2⟩ := writeUInt8_framed _ _ _ _ _ h2
  obtain ⟨f3, lt3, v3, e3, eo3⟩ := writeUInt8_framed _ _ _ _ _ h3
  obtain ⟨-, -, v8, -, -⟩ := writeUInt8_framed _ _ _ _ _ h8
  have hb1len : b1.length = A.length := f1.2.1
  have hb2len : b2.length = b1.length := f2.2.1
  have hb3len : b3.length = b2.length := f3.2.1
  refine ⟨v2, v3, v8, ?_, ?_⟩
  · rw [hframe.2.1, hb3len, hb2len, hb1len, hA, allocUnsafe_length]
    rfl
  · intro hroot
    obtain ⟨c1, c2⟩ := copy_zero_exact _ _ _ _ h1 (by omega)
    have hrest : 2 ≤ (A.drop proof.evaluations.root.length).length := by
      rw [List.length_drop]; omega
    have hhead : b3.take (proof.evaluations.root.length + 2) = proof.evaluations.root ++
        [proof.evaluations.bpc, proof.evaluations.depth] := by
      rw [e3, eo2, e2, c2, c1, Nat.zero_add]
      exact header_take _ _ _ _ hrest
    have ho3 : o3 = proof.evaluations.root.length + 2 := by omega
    refine ⟨b10.drop (proof.evaluations.root.length + 2), ?_⟩
    have hsplit := (List.take_append_drop (proof.evaluations.root.length + 2) b10).symm
    rw [← ho3, hframe.2.2, ho3, hhead] at hsplit
    rw [List.append_assoc] at hsplit
    exact hsplit

/-- Parsing the header of a serialized proof gives back `bpc` and the record width used
on the encoding side. -/
theorem parseHeader_serialized (s : Serializer) (mem : Nat → Nat → Nat)
    (proof : StarkProof) (hashAlgorithm : HashAlgorithm) (rest : List Nat)
    (hroot : proof.evaluations.root.length = getHashDigestSize hashAlgorithm) :
    parseHeader s mem (proof.evaluations.root
        ++ proof.evaluations.bpc :: proof.evaluations.depth :: rest) hashAlgorithm =
      .ok (proof.evaluations.root, proof.evaluations.bpc, proof.evaluations.depth,
        serializeValueSize s proof, getHashDigestSize hashAlgorithm + 2) := by
  set B := proof.evaluations.root ++ proof.evaluations.bpc :: proof.evaluations.depth :: rest
    with hB
  have d0 : B.drop 0 = proof.evaluations.root
      ++ ([proof.evaluations.bpc] ++ ([proof.evaluations.depth] ++ rest)) := rfl
  have o0 : 0 ≤ B.length := Nat.zero_le _
  have d1 := drop_step d0
  have d2 := drop_step d1
  simp only [hroot, List.length_singleton] at d1 d2
  unfold parseHeader
  simp only [bind, Except.bind, pure, Except.pure]
  rw [copy_root_at B _ _ _ 0 _ d0 o0 hroot (allocUnsafe_length _ _)]
  simp only
  rw [readUInt8_at B _ _ _ d1]
  simp only
  rw [readUInt8_at B _ _ _ d2]
  simp only [serializeValueSize, Nat.zero_add]

/-! ## Failures of `serializeProof` -/

theorem bind_error_iff {α β : Type} (x : Except JsError α) (f : α → Except JsError β)
    (e : JsError) :
    (x >>= f) = .error e ↔ x = .error e ∨ ∃ a, x = .ok a ∧ f a = .error e := by
  cases x <;> simp [bind, Except.bind]

theorem writeBytes_error (buffer : Buffer) (offset : Nat) (bytes : List Nat) (e : JsError)
    (h : writeBytes buffer offset bytes = .error e) : e = .rangeError := by
  unfold writeBytes at h
  split at h
  · cases h; rfl
  · cases h

theorem writeCount_error (cw : Nat) (buffer : Buffer) (offset n : Nat) (e : JsError)
    (h : writeCount cw buffer offset n = .error e) : e = .rangeError := by
  unfold writeCount at h
  split at h
  · cases h; rfl
  · exact writeBytes_error _ _ _ _ h

theorem writeRecords_error (buffer : Buffer) (offset : Nat) (records : List Buffer)
    (e : JsError) (h : writeRecords buffer offset records = .error e) : e = .rangeError := by
  induction records generalizing buffer offset with
  | nil => simp [writeRecords] at h
  | cons r rs ih =>
    rw [writeRecords, bind_error_iff] at h
    rcases h with h | ⟨⟨b1, o1⟩, -, h⟩
    · exact writeBytes_error _ _ _ _ h
    · exact ih _ _ h

theorem writeArray_error (cw : Nat) (buffer : Buffer) (offset : Nat) (array : List Buffer)
    (e : JsError) (h : writeArray cw buffer offset array = .error e) : e = .rangeError := by
  rw [writeArray, bind_error_iff] at h
  rcases h with h | ⟨⟨b1, o1⟩, -, h⟩
  · exact writeCount_error _ _ _ _ _ h
  · exact writeRecords_error _ _ _ _ h

theorem writeRows_error (cw : Nat) (buffer : Buffer) (offset : Nat)
    (rows : List (List Buffer)) (e : JsError)
    (h : writeRows cw buffer offset rows = .error e) : e = .rangeError := by
  induction rows generalizing buffer offset with
  | nil => simp [writeRows] at h
  | cons r rs ih =>
    rw [writeRows, bind_error_iff] at h
    rcases h with h | ⟨⟨b1, o1⟩, -, h⟩
    · exact writeArray_error _ _ _ _ _ h
    · exact ih _ _ h

theorem writeMatrix_error (cw : Nat) (buffer : Buffer) (offset : Nat)
    (matrix : List (List Buffer)) (e : JsError)
    (h : writeMatrix cw buffer offset matrix = .error e) : e = .rangeError := by
  rw [writeMatrix, bind_error_iff] at h
  rcases h with h | ⟨⟨b1, o1⟩, -, h⟩
  · exact writeCount_error _ _ _ _ _ h
  · exact writeRows_error _ _ _ _ _ h

theorem writeMerkleProof_error (cw : Nat) (buffer : Buffer) (offset : Nat)
    (proof : BatchMerkleProof) (nodeSize : Nat) (e : JsError)
    (h : writeMerkleProof cw buffer offset proof nodeSize = .error e) : e = .rangeError := by
  rw [writeMerkleProof, bind_error_iff] at h
  rcases h with h | ⟨⟨b1, o1⟩, -, h⟩
  · exact writeArray_error _ _ _ _ _ h
  · exact writeMatrix_error _ _ _ _ _ h

theorem copy_error (source target : Buffer) (targetStart sourceStart sourceEnd : Nat)
    (e : JsError)
    (h : Buffer.copy source target targetStart sourceStart sourceEnd = .error e) :
    e = .rangeError := by
  unfold Buffer.copy at h
  split at h
  · cases h; rfl
  · split at h <;> cases h

theorem writeUInt8_error (buffer : Buffer) (value offset : Nat) (e : JsError)
    (h : Buffer.writeUInt8 buffer value offset = .error e) : e = .rangeError := by
  unfold Buffer.writeUInt8 at h
  split at h
  · cases h; rfl
  · split at h
    · cases h; rfl
    · cases h

theorem writeUInt8_too_large (buffer : Buffer) (value offset : Nat) (h : 255 < value) :
    Buffer.writeUInt8 buffer value offset = .error .rangeError := by
  have h1 : value > 255 := h
  simp only [Buffer.writeUInt8, h1, if_true]

theorem writeComponents_error (cw nodeSize : Nat) (buffer : Buffer) (offset : Nat)
    (components : List Component) (e : JsError)
    (h : writeComponents cw nodeSize buffer offset components = .error e) :
    e = .rangeError := by
  induction components generalizing buffer offset with
  | nil => simp [writeComponents] at h
  | cons c cs ih =>
    rw [writeComponents, bind_error_iff] at h
    rcases h with h | ⟨⟨b1, n1⟩, -, h⟩
    · exact copy_error _ _ _ _ _ _ h
    · simp only at h
      rw [bind_error_iff] at h
      rcases h with h | ⟨⟨b2, o2⟩, -, h⟩
      · exact writeMerkleProof_error _ _ _ _ _ _ h
      · simp only at h
        rw [bind_error_iff] at h
        rcases h with h | ⟨⟨b3, o3⟩, -, h⟩
        · exact writeMerkleProof_error _ _ _ _ _ _ h
        · exact ih _ _ h

/-- Every failure of `serializeProof` is a range error. -/
theorem serializeProofRun_error (cw : Nat) (s : Serializer) (mem : Nat → Nat)
    (proof : StarkProof) (hashAlgorithm : HashAlgorithm) (e : JsError)
    (h : serializeProofRun cw s mem proof hashAlgorithm = .error e) : e = .rangeError := by
  unfold serializeProofRun at h
  rw [bind_error_iff] at h
  rcases h with h | ⟨⟨b1, n1⟩, -, h⟩
  · exact copy_error _ _ _ _ _ _ h
  simp only at h
  rw [bind_error_iff] at h
  rcases h with h | ⟨⟨b2, o2⟩, -, h⟩
  · exact writeUInt8_error _ _ _ _ h
  simp only at h
  rw [bind_error_iff] at h
  rcases h with h | ⟨⟨b3, o3⟩, -, h⟩
  · exact writeUInt8_error _ _ _ _ h
  simp only at h
  rw [bind_error_iff] at h
  rcases h with h | ⟨⟨b4, o4⟩, -, h⟩
  · exact writeArray_error _ _ _ _ _ h
  simp only at h
  rw [bind_error_iff] at h
  rcases h with h | ⟨⟨b5, o5⟩, -, h⟩
  · exact writeMatrix_error _ _ _ _ _ h
  simp only at h
  rw [bind_error_iff] at h
  rcases h with h | ⟨⟨b6, n6⟩, -, h⟩
  · exact copy_error _ _ _ _ _ _ h
  simp only at h
  rw [bind_error_iff] at h
  rcases h with h | ⟨⟨b7, o7⟩, -, h⟩
  · exact writeMerkleProof_error _ _ _ _ _ _ h
  simp only at h
  rw [bind_error_iff] at h
  rcases h with h | ⟨⟨b8, o8⟩, -, h⟩
  · exact writeUInt8_error _ _ _ _ h
  simp only at h
  rw [bind_error_iff] at h
  rcases h with h | ⟨⟨b9, o9⟩, -, h⟩
  · exact writeComponents_error _ _ _ _ _ _ h
  simp only at h
  rw [bind_error_iff] at h
  rcases h with h | ⟨⟨b10, o10⟩, -, h⟩
  · exact writeArray_error _ _ _ _ _ h
  simp [pure, Except.pure] at h


/-- What a successful header read implies: `bpc` is the byte at offset `nodeSize`, the
depth the byte after it, and the record width is derived from that `bpc`. -/
theorem parseHeader_ok (s : Serializer) (mem : Nat → Nat → Nat) (buffer : Buffer)
    (hashAlgorithm : HashAlgorithm) (eRoot : Buffer) (bpc eDepth valueSize offset : Nat)
    (h : parseHeader s mem buffer hashAlgorithm = .ok (eRoot, bpc, eDepth, valueSize, offset)) :
    buffer[getHashDigestSize hashAlgorithm]? = some bpc ∧
      buffer[getHashDigestSize hashAlgorithm + 1]? = some eDepth ∧
      valueSize = (s.stateWidth + s.constraintCount + bpc) * s.fieldElementSize ∧
      offset = getHashDigestSize hashAlgorithm + 2 := by
  obtain ⟨r, hr⟩ := copy_from_start buffer (allocUnsafe (mem 0) (getHashDigestSize hashAlgorithm))
    (getHashDigestSize hashAlgorithm) (allocUnsafe_length _ _)
  unfold parseHeader at h
  rw [bind_ok_iff] at h
  obtain ⟨⟨r1, nb⟩, h1, h⟩ := h
  rw [hr] at h1
  simp only [Except.ok.injEq, Prod.mk.injEq] at h1
  obtain ⟨-, rfl⟩ := h1
  simp only at h
  rw [bind_ok_iff] at h
  obtain ⟨bpc', h2, h⟩ := h
  rw [bind_ok_iff] at h
  obtain ⟨d', h3, h⟩ := h
  simp only [pure, Except.pure, Except.ok.injEq, Prod.mk.injEq] at h
  obtain ⟨-, rfl, rfl, rfl, rfl⟩ := h
  obtain ⟨lt2, -⟩ := readUInt8_ext buffer [] _ _ h2
  have hmin : min (getHashDigestSize hashAlgorithm) buffer.length
      = getHashDigestSize hashAlgorithm := by omega
  rw [hmin, Nat.zero_add] at h2 h3
  refine ⟨?_, ?_, rfl, by omega⟩
  · unfold Buffer.readUInt8 at h2
    cases hb : buffer[getHashDigestSize hashAlgorithm]? with
    | none => rw [hb] at h2; cases h2
    | some x => rw [hb] at h2; simp only [Except.ok.injEq] at h2; rw [h2]
  · unfold Buffer.readUInt8 at h3
    cases hb : buffer[getHashDigestSize hashAlgorithm + 1]? with
    | none => rw [hb] at h3; cases h3
    | some x => rw [hb] at h3; simp only [Except.ok.injEq] at h3; rw [h3]

/-! ## Over-wide values and the reverse round trip of a row -/

/-- An over-wide value is written as its leading `2 * w` hexadecimal digits: `j ≥ 1`
digits are cut off at the low-order end. -/
theorem encodeElement_overflow (w v : Nat) (hv : 256 ^ w ≤ v) :
    ∃ j, 1 ≤ j ∧ 16 ^ (w * 2 + j - 1) ≤ v ∧ v < 16 ^ (w * 2 + j) ∧
      encodeElement w v = toBytesBE w (v / 16 ^ j) := by
  obtain ⟨k, h1, h2, h3, h4⟩ := toString16_spec v
  have h256 : (16 : Nat) ^ (w * 2) = 256 ^ w := by rw [Nat.mul_comm, Nat.pow_mul]
  have hk : w * 2 < k := by
    by_contra hc
    have h5 : 16 ^ k ≤ 16 ^ (w * 2) := Nat.pow_le_pow_right (by norm_num) (by omega)
    have h6 : 16 ^ (w * 2) ≤ v := by rw [h256]; exact hv
    exact absurd h2 (not_lt.2 (le_trans h5 h6))
  have hlow : 16 ^ (k - 1) ≤ v := by
    rcases h3 with rfl | h3
    · have hpos : 0 < 256 ^ w := Nat.pow_pos (by norm_num)
      simp only [Nat.sub_self, Nat.pow_zero]
      omega
    · exact h3
  refine ⟨k - w * 2, by omega, ?_, ?_, ?_⟩
  · have : w * 2 + (k - w * 2) - 1 = k - 1 := by omega
    rw [this]; exact hlow
  · have : w * 2 + (k - w * 2) = k := by omega
    rw [this]; exact h2
  · have hpad : w * 2 - (hexDigits k v).length = 0 := by rw [hexDigits_length]; omega
    have hsplit : k = w * 2 + (k - w * 2) := by omega
    rw [encodeElement, h4, padStart, hpad, List.replicate_zero, List.nil_append]
    conv_lhs => rw [hsplit]
    rw [hexDigits_add, hexDigits_two_mul, hexDecode_flatMap _ (toBytesBE_isBytes _ _),
      toBytesBE_length]
    simp [hexDecode, List.take_of_length_le, toBytesBE_length]

theorem window_zero (buffer : Buffer) (w : Nat) : window buffer w 0 = buffer.take w := by
  simp [window]

theorem window_succ (buffer : Buffer) (w k : Nat) :
    window buffer w (k + 1) = window (buffer.drop w) w k := by
  simp only [window, List.drop_drop]
  congr 2
  ring

/-- A buffer of `n * w` bytes is the concatenation of its `n` windows. -/
theorem flatMap_window (w n : Nat) (buffer : Buffer) (h : buffer.length = n * w) :
    (List.range n).flatMap (fun k => window buffer w k) = buffer := by
  induction n generalizing buffer with
  | zero =>
    have : buffer = [] := List.eq_nil_of_length_eq_zero (by rw [h]; simp)
    rw [this]; rfl
  | succ n ih =>
    rw [List.range_succ_eq_map, List.flatMap_cons, List.flatMap_map, window_zero]
    have hd : (buffer.drop w).length = n * w := by
      rw [List.length_drop, h]
      have : (n + 1) * w = n * w + w := by ring
      omega
    have := ih (buffer.drop w) hd
    simp only [Function.comp, Nat.succ_eq_add_one, window_succ]
    rw [this, List.take_append_drop]

theorem window_length (buffer : Buffer) (w n k : Nat) (h : n * w ≤ buffer.length)
    (hk : k < n) : (window buffer w k).length = w := by
  simp only [window, List.length_take, List.length_drop]
  have h1 : (k + 1) * w ≤ n * w := Nat.mul_le_mul_right w hk
  have h2 : (k + 1) * w = k * w + w := by ring
  omega

/-- Encoding the values read from the windows of a buffer gives the buffer back. -/
theorem flatMap_toBytesBE_elementsAt (w n : Nat) (buffer : Buffer) (hb : IsBytes buffer)
    (h : buffer.length = n * w) :
    (elementsAt buffer w n 0).flatMap (toBytesBE w) = buffer := by
  rw [elementsAt_eq_window, List.flatMap_map]
  have hcongr : (List.range n).flatMap (fun k => toBytesBE w (fromBytesBE (window buffer w k)))
      = (List.range n).flatMap (fun k => window buffer w k) := by
    apply List.flatMap_congr
    intro k hk
    have hl := window_length buffer w n k (by omega) (List.mem_range.1 hk)
    have := toBytesBE_fromBytesBE (window buffer w k) (isBytes_take (isBytes_drop hb _) _)
    rw [hl] at this
    exact this
  rw [hcongr, flatMap_window w n buffer h]

theorem rowOf_wrap (vs : List Nat) :
    rowOf (vs.map (fun x => [x])) vs.length 0 = vs := by
  apply List.ext_getElem
  · simp [rowOf]
  · intro i h1 h2
    have hv : (vs.map (fun x => [x])).getD i [] = [vs[i]] := by
      rw [List.getD_eq_getElem?_getD, List.getElem?_map, List.getElem?_eq_getElem h2]
      rfl
    simp only [rowOf, List.getElem_map, List.getElem_range, entryAt, hv]
    rfl

theorem fitsAt_wrap (vs : List Nat) (w : Nat) (h : ∀ v ∈ vs, v < 256 ^ w) :
    FitsAt (vs.map (fun x => [x])) vs.length 0 w := by
  intro i hi
  have hv : (vs.map (fun x => [x])).getD i [] = [vs[i]] := by
    rw [List.getD_eq_getElem?_getD, List.getElem?_map, List.getElem?_eq_getElem hi]
    rfl
  refine ⟨by simpa using hi, by rw [hv]; simp, ?_⟩
  rw [entryAt, hv]
  exact h _ (List.getElem_mem _)


/-! ## Evaluation rows: the properties -/

/-- On rows whose values fit, the merged buffer is the concatenation of the big-endian
encodings and the final offset is its length. -/
theorem mergeValuesRun_fits (s : Serializer) (mem : Nat → Nat)
    (pValues sValues bValues dValues : List (List Nat)) (bCount position : Nat)
    (hp : FitsAt pValues s.stateWidth position s.fieldElementSize)
    (hs : FitsAt sValues s.secretInputCount position s.fieldElementSize)
    (hb : FitsAt bValues bCount position s.fieldElementSize)
    (hd : FitsAt dValues s.constraintCount position s.fieldElementSize) :
    mergeValuesRun s mem pValues sValues bValues dValues bCount position =
      .ok ((rowElements s pValues sValues bValues dValues bCount position).flatMap
          (toBytesBE s.fieldElementSize),
        (s.stateWidth + s.secretInputCount + bCount + s.constraintCount)
          * s.fieldElementSize) := by
  rw [mergeValuesRun_eq s mem _ _ _ _ _ _ hp.definedAt hs.definedAt hb.definedAt hd.definedAt,
    flatMap_encodeElement_of_lt]
  intro v hv
  simp only [rowElements, List.mem_append] at hv
  rcases hv with ((hv | hv) | hv) | hv
  · exact hp.lt v hv
  · exact hs.lt v hv
  · exact hb.lt v hv
  · exact hd.lt v hv

/-- C1 (row round trip): with `fieldElementSize ≥ 1`, for every `bCount`, `position`
and columns that are defined at `position` with values in `[0, 256^w)` there,
`mergeValues` returns a buffer and `parseValues` of that buffer returns the four
arrays of the values at `position`: the `stateWidth` state values, the
`secretInputCount` secret values, the first `bCount` boundary values and the
`constraintCount` constraint values. -/
theorem parseValues_mergeValues (s : Serializer) (mem : Nat → Nat)
    (pValues sValues bValues dValues : List (List Nat)) (bCount position : Nat)
    (hw : 1 ≤ s.fieldElementSize)
    (hp : FitsAt pValues s.stateWidth position s.fieldElementSize)
    (hs : FitsAt sValues s.secretInputCount position s.fieldElementSize)
    (hb : FitsAt bValues bCount position s.fieldElementSize)
    (hd : FitsAt dValues s.constraintCount position s.fieldElementSize) :
    ∃ buffer, mergeValues s mem pValues sValues bValues dValues bCount position = .ok buffer ∧
      parseValues s buffer bCount =
        .ok (rowOf pValues s.stateWidth position, rowOf sValues s.secretInputCount position,
          rowOf bValues bCount position, rowOf dValues s.constraintCount position) := by
  have hrun := mergeValuesRun_fits s mem pValues sValues bValues dValues bCount position
    hp hs hb hd
  refine ⟨_, (mergeValues_ok_iff _ _ _ _ _ _ _ _ _).2 ⟨_, hrun⟩, ?_⟩
  set vs := rowElements s pValues sValues bValues dValues bCount position with hvs
  have hlen : vs.length = s.stateWidth + s.secretInputCount + bCount + s.constraintCount :=
    rowElements_length _ _ _ _ _ _ _
  have hfit : ∀ v ∈ vs, v < 256 ^ s.fieldElementSize := by
    intro v hv
    simp only [hvs, rowElements, List.mem_append] at hv
    rcases hv with ((hv | hv) | hv) | hv
    · exact hp.lt v hv
    · exact hs.lt v hv
    · exact hb.lt v hv
    · exact hd.lt v hv
  rw [parseValues_readable _ _ _ (isBytes_flatMap_toBytesBE _ _)
    (readable_of_le _ _ _ hw (by rw [length_flatMap_toBytesBE, hlen])),
    ← hlen, elementsAt_flatMap_toBytesBE _ _ hfit, hvs, rowElements,
    splitElements_append _ _ _ _ _ _ (rowOf_length _ _ _) (rowOf_length _ _ _)
      (rowOf_length _ _ _) (rowOf_length _ _ _)]

/-- The round trip at a row holding the maximal value `256^w - 1`. -/
theorem parseValues_mergeValues_witness :
    ∃ buffer, mergeValues ⟨2, 2, 1, 1⟩ (fun _ => 170) [[65535, 1], [0, 2]] [[7, 3]]
        [[4, 4], [256, 5]] [[6, 6]] 2 0 = .ok buffer ∧
      parseValues ⟨2, 2, 1, 1⟩ buffer 2 = .ok ([65535, 0], [7], [4, 256], [6]) :=
  parseValues_mergeValues ⟨2, 2, 1, 1⟩ (fun _ => 170) [[65535, 1], [0, 2]] [[7, 3]]
    [[4, 4], [256, 5]] [[6, 6]] 2 0 (by decide) (by decide) (by decide) (by decide) (by decide)

/-- C3 (row layout): on columns defined at `position` with values in `[0, 256^w)`,
`mergeValues` returns a buffer of `(stateWidth + secretInputCount + bCount +
constraintCount) * w` bytes, the final write offset equals the buffer length, and for
every `k` bytes `[k*w, (k+1)*w)` are the big-endian, left-zero-padded `w`-byte encoding
of element `k` of the sequence state values, secret values, first `bCount` boundary
values, constraint values. -/
theorem mergeValues_layout (s : Serializer) (mem : Nat → Nat)
    (pValues sValues bValues dValues : List (List Nat)) (bCount position : Nat)
    (hp : FitsAt pValues s.stateWidth position s.fieldElementSize)
    (hs : FitsAt sValues s.secretInputCount position s.fieldElementSize)
    (hb : FitsAt bValues bCount position s.fieldElementSize)
    (hd : FitsAt dValues s.constraintCount position s.fieldElementSize) :
    ∃ buffer offset,
      mergeValuesRun s mem pValues sValues bValues dValues bCount position
        = .ok (buffer, offset) ∧
      mergeValues s mem pValues sValues bValues dValues bCount position = .ok buffer ∧
      offset = buffer.length ∧
      buffer = (rowOf pValues s.stateWidth position ++ rowOf sValues s.secretInputCount position
        ++ rowOf bValues bCount position ++ rowOf dValues s.constraintCount position).flatMap
          (toBytesBE s.fieldElementSize) ∧
      ∀ k, k < s.stateWidth + s.secretInputCount + bCount + s.constraintCount →
        window buffer s.fieldElementSize k = toBytesBE s.fieldElementSize
          ((rowOf pValues s.stateWidth position ++ rowOf sValues s.secretInputCount position
            ++ rowOf bValues bCount position
            ++ rowOf dValues s.constraintCount position).getD k 0) := by
  have hrun := mergeValuesRun_fits s mem pValues sValues bValues dValues bCount position
    hp hs hb hd
  have hlen := rowElements_length s pValues sValues bValues dValues bCount position
  refine ⟨_, _, hrun, (mergeValues_ok_iff _ _ _ _ _ _ _ _ _).2 ⟨_, hrun⟩, ?_, rfl, ?_⟩
  · rw [length_flatMap_toBytesBE, hlen]
  · intro k hk
    exact window_flatMap _ _ (toBytesBE_length _) _ k (by rw [hlen]; exact hk)

/-- The layout of the row `([5, 9], [3], [7], [11])` with 32-byte elements. -/
theorem mergeValues_layout_witness :
    ∃ buffer offset,
      mergeValuesRun ⟨32, 2, 1, 1⟩ (fun _ => 170) [[5], [9]] [[3]] [[7]] [[11]] 1 0
        = .ok (buffer, offset) ∧
      mergeValues ⟨32, 2, 1, 1⟩ (fun _ => 170) [[5], [9]] [[3]] [[7]] [[11]] 1 0 = .ok buffer ∧
      offset = buffer.length ∧
      buffer = [5, 9, 3, 7, 11].flatMap (toBytesBE 32) ∧
      ∀ k, k < 5 → window buffer 32 k = toBytesBE 32 ([5, 9, 3, 7, 11].getD k 0) :=
  mergeValues_layout ⟨32, 2, 1, 1⟩ (fun _ => 170) [[5], [9]] [[3]] [[7]] [[11]] 1 0
    (by decide) (by decide) (by decide) (by decide)

/-- C4 (row length): whenever `mergeValues` returns, the returned buffer has exactly
`(stateWidth + secretInputCount + bCount + constraintCount) * fieldElementSize` bytes,
whatever the magnitudes of the values. -/
theorem mergeValues_length (s : Serializer) (mem : Nat → Nat)
    (pValues sValues bValues dValues : List (List Nat)) (bCount position : Nat)
    (buffer : Buffer)
    (h : mergeValues s mem pValues sValues bValues dValues bCount position = .ok buffer) :
    buffer.length =
      (s.stateWidth + s.secretInputCount + bCount + s.constraintCount) * s.fieldElementSize := by
  obtain ⟨offset, hrun⟩ := (mergeValues_ok_iff _ _ _ _ _ _ _ _ _).1 h
  exact mergeValuesRun_length _ _ _ _ _ _ _ _ _ _ hrun

/-- The length of a row that holds a value wider than one element. -/
theorem mergeValues_length_witness :
    mergeValues ⟨1, 1, 1, 0⟩ (fun _ => 170) [[65536]] [[3]] [[1], [2]] [] 2 0
        = .ok [16, 3, 1, 2] ∧
      [16, 3, 1, 2].length = (1 + 1 + 2 + 0) * 1 :=
  ⟨by decide, mergeValues_length ⟨1, 1, 1, 0⟩ (fun _ => 170) [[65536]] [[3]] [[1], [2]] [] 2 0
    [16, 3, 1, 2] (by decide)⟩

/-- C5, as the code behaves: a row holding the value `256 = 256^1` with one-byte
elements is not rejected; `mergeValues` returns a buffer. -/
theorem mergeValues_overflow_not_rejected :
    256 ^ 1 ≤ entryAt [[256]] 0 0 ∧
      mergeValues ⟨1, 1, 0, 0⟩ (fun _ => 170) [[256]] [] [] [] 0 0 = .ok [16] := by
  decide

/-- C5 (amended): `mergeValues` never rejects a value for its magnitude.  For every
configuration and every row whose needed columns are defined at `position`, also one
holding a value `v ≥ 256^w`, it returns a buffer of `(stateWidth + secretInputCount +
bCount + constraintCount) * w` bytes whose windows hold `w` bytes per element. -/
theorem mergeValues_defined (s : Serializer) (mem : Nat → Nat)
    (pValues sValues bValues dValues : List (List Nat)) (bCount position : Nat)
    (hp : DefinedAt pValues s.stateWidth position)
    (hs : DefinedAt sValues s.secretInputCount position)
    (hb : DefinedAt bValues bCount position)
    (hd : DefinedAt dValues s.constraintCount position) :
    ∃ buffer, mergeValues s mem pValues sValues bValues dValues bCount position = .ok buffer ∧
      buffer.length = (s.stateWidth + s.secretInputCount + bCount + s.constraintCount)
        * s.fieldElementSize ∧
      buffer = (rowElements s pValues sValues bValues dValues bCount position).flatMap
        (encodeElement s.fieldElementSize) := by
  have hrun := mergeValuesRun_eq s mem pValues sValues bValues dValues bCount position
    hp hs hb hd
  have hm := (mergeValues_ok_iff _ _ _ _ _ _ _ _ _).2 ⟨_, hrun⟩
  exact ⟨_, hm, mergeValuesRun_length _ _ _ _ _ _ _ _ _ _ hrun, rfl⟩

/-- A row with an over-wide value is merged. -/
theorem mergeValues_defined_witness :
    ∃ buffer, mergeValues ⟨1, 1, 0, 1⟩ (fun _ => 170) [[256]] [] [] [[70000]] 0 0 = .ok buffer ∧
      buffer.length = (1 + 0 + 0 + 1) * 1 ∧
      buffer = (rowElements ⟨1, 1, 0, 1⟩ [[256]] [] [] [[70000]] 0 0).flatMap
        (encodeElement 1) :=
  mergeValues_defined ⟨1, 1, 0, 1⟩ (fun _ => 170) [[256]] [] [] [[70000]] 0 0
    (by decide) (by decide) (by decide) (by decide)


/-- C6, as the code behaves: with two-byte elements and one state register, the
one-byte buffer `[1]` is shorter than the row and is decoded all the same. -/
theorem parseValues_short_not_rejected :
    [1].length < (1 + 0 + 0 + 0) * 2 ∧
      parseValues ⟨2, 1, 0, 0⟩ [1] 0 = .ok ([1], [], [], []) := by
  decide

/-- C6 (amended): for a buffer of bytes shorter than `(stateWidth + secretInputCount +
bCount + constraintCount) * w`, `parseValues` fails when at least one whole element
is missing, that is when the length is at most the row length minus `w`; a buffer
that lacks fewer than `w` bytes is decoded, the last value being read from the bytes
that remain. -/
theorem parseValues_short (s : Serializer) (buffer : Buffer) (bCount : Nat)
    (hb : IsBytes buffer)
    (hlt : buffer.length <
      (s.stateWidth + s.secretInputCount + bCount + s.constraintCount) * s.fieldElementSize) :
    (buffer.length + s.fieldElementSize ≤
        (s.stateWidth + s.secretInputCount + bCount + s.constraintCount) * s.fieldElementSize →
      parseValues s buffer bCount = .error .syntaxError) ∧
    ((s.stateWidth + s.secretInputCount + bCount + s.constraintCount) * s.fieldElementSize
        < buffer.length + s.fieldElementSize →
      parseValues s buffer bCount = .ok (splitElements s bCount
        (elementsAt buffer s.fieldElementSize
          (s.stateWidth + s.secretInputCount + bCount + s.constraintCount) 0))) := by
  set n := s.stateWidth + s.secretInputCount + bCount + s.constraintCount with hn
  set w := s.fieldElementSize with hw
  have hn1 : 1 ≤ n := by
    rcases Nat.eq_zero_or_pos n with h0 | h0
    · rw [h0] at hlt; simp at hlt
    · exact h0
  have hw1 : 1 ≤ w := by
    rcases Nat.eq_zero_or_pos w with h0 | h0
    · rw [h0] at hlt; simp at hlt
    · exact h0
  have hmul : n * w = (n - 1) * w + w := by
    have : n = (n - 1) + 1 := by omega
    conv_lhs => rw [this, Nat.add_mul, Nat.one_mul]
  constructor
  · intro h
    apply parseValues_not_readable
    rintro (h0 | ⟨_, h1⟩)
    · omega
    · rw [← hn, ← hw] at h1
      omega
  · intro h
    apply parseValues_readable _ _ _ hb
    refine Or.inr ⟨hw1, ?_⟩
    rw [← hn, ← hw]
    omega

/-- A buffer two bytes short of a two-element row fails; a buffer one byte short is
decoded. -/
theorem parseValues_short_witness :
    (([1, 2].length + 2 ≤ (2 + 0 + 0 + 0) * 2 →
        parseValues ⟨2, 2, 0, 0⟩ [1, 2] 0 = .error .syntaxError) ∧
      ((2 + 0 + 0 + 0) * 2 < [1, 2].length + 2 →
        parseValues ⟨2, 2, 0, 0⟩ [1, 2] 0 = .ok (splitElements ⟨2, 2, 0, 0⟩ 0
          (elementsAt [1, 2] 2 (2 + 0 + 0 + 0) 0)))) ∧
    parseValues ⟨2, 2, 0, 0⟩ [1, 2] 0 = .error .syntaxError ∧
    parseValues ⟨2, 2, 0, 0⟩ [1, 2, 3] 0 = .ok ([258, 3], [], [], []) :=
  ⟨parseValues_short ⟨2, 2, 0, 0⟩ [1, 2] 0 (by decide) (by decide), by decide, by decide⟩

theorem window_take (buffer : Buffer) (w n k : Nat) (hk : k < n) :
    window (buffer.take (n * w)) w k = window buffer w k := by
  simp only [window]
  rw [List.drop_take, List.take_take]
  congr 1
  have : n * w - k * w = (n - k) * w := by rw [Nat.sub_mul]
  rw [this]
  have h1 : 1 ≤ n - k := by omega
  have : w ≤ (n - k) * w := by
    calc w = 1 * w := (Nat.one_mul w).symm
      _ ≤ (n - k) * w := Nat.mul_le_mul_right w h1
  omega

theorem window_length_le (buffer : Buffer) (w k : Nat) : (window buffer w k).length ≤ w := by
  simp only [window, List.length_take]
  omega

/-- C7 (row decoding): with `fieldElementSize = w ≥ 1`, for every `bCount` and every
buffer of bytes of length at least `(stateWidth + secretInputCount + bCount +
constraintCount) * w`, `parseValues` succeeds and returns four arrays of lengths
`stateWidth`, `secretInputCount`, `bCount`, `constraintCount` whose concatenation at
index `k` is the big-endian reading of bytes `[k*w, (k+1)*w)`; every value is below
`256^w`, and the bytes past the row length do not influence the result. -/
theorem parseValues_decodes (s : Serializer) (buffer : Buffer) (bCount : Nat)
    (hw : 1 ≤ s.fieldElementSize) (hb : IsBytes buffer)
    (hlen : (s.stateWidth + s.secretInputCount + bCount + s.constraintCount)
      * s.fieldElementSize ≤ buffer.length) :
    ∃ p q b d, parseValues s buffer bCount = .ok (p, q, b, d) ∧
      p.length = s.stateWidth ∧ q.length = s.secretInputCount ∧ b.length = bCount ∧
      d.length = s.constraintCount ∧
      p ++ q ++ b ++ d =
        (List.range (s.stateWidth + s.secretInputCount + bCount + s.constraintCount)).map
          (fun k => fromBytesBE (window buffer s.fieldElementSize k)) ∧
      (∀ v ∈ p ++ q ++ b ++ d, v < 256 ^ s.fieldElementSize) ∧
      parseValues s (buffer.take ((s.stateWidth + s.secretInputCount + bCount
        + s.constraintCount) * s.fieldElementSize)) bCount = .ok (p, q, b, d) := by
  set n := s.stateWidth + s.secretInputCount + bCount + s.constraintCount with hn
  set w := s.fieldElementSize with hw'
  have h1 := parseValues_readable s buffer bCount hb (readable_of_le _ _ _ hw hlen)
  have h2 := parseValues_readable s (buffer.take (n * w)) bCount (isBytes_take hb _)
    (readable_of_le _ _ _ hw (by rw [List.length_take]; exact Nat.le_min.2 ⟨le_refl _, hlen⟩))
  have hsame : elementsAt (buffer.take (n * w)) w n 0 = elementsAt buffer w n 0 := by
    rw [elementsAt_eq_window, elementsAt_eq_window]
    apply List.map_congr_left
    intro k hk
    rw [window_take _ _ _ _ (List.mem_range.1 hk)]
  rw [← hn, ← hw', hsame] at h2
  rw [← hn, ← hw'] at h1
  have hsplit : elementsAt buffer w n 0 =
      elementsAt buffer w s.stateWidth 0
        ++ elementsAt buffer w s.secretInputCount (0 + s.stateWidth * w)
        ++ elementsAt buffer w bCount (0 + (s.stateWidth + s.secretInputCount) * w)
        ++ elementsAt buffer w s.constraintCount
          (0 + (s.stateWidth + s.secretInputCount + bCount) * w) := by
    rw [hn, elementsAt_add, elementsAt_add, elementsAt_add]
  rw [hsplit, splitElements_append _ _ _ _ _ _ (elementsAt_length _ _ _ _)
    (elementsAt_length _ _ _ _) (elementsAt_length _ _ _ _) (elementsAt_length _ _ _ _)] at h1 h2
  refine ⟨_, _, _, _, h1, elementsAt_length _ _ _ _, elementsAt_length _ _ _ _,
    elementsAt_length _ _ _ _, elementsAt_length _ _ _ _, ?_, ?_, h2⟩
  · rw [← hsplit, elementsAt_eq_window]
  · rw [← hsplit, elementsAt_eq_window]
    intro v hv
    simp only [List.mem_map, List.mem_range] at hv
    obtain ⟨k, _, rfl⟩ := hv
    calc fromBytesBE (window buffer w k)
        < 256 ^ (window buffer w k).length :=
          fromBytesBE_lt _ (isBytes_take (isBytes_drop hb _) _)
      _ ≤ 256 ^ w := Nat.pow_le_pow_right (by norm_num) (window_length_le _ _ _)

/-- Decoding a three-element row of two-byte elements followed by a spare byte. -/
theorem parseValues_decodes_witness :
    ∃ p q b d, parseValues ⟨2, 1, 0, 1⟩ [1, 2, 255, 255, 0, 7, 9] 1 = .ok (p, q, b, d) ∧
      p.length = 1 ∧ q.length = 0 ∧ b.length = 1 ∧ d.length = 1 ∧
      p ++ q ++ b ++ d = (List.range (1 + 0 + 1 + 1)).map
        (fun k => fromBytesBE (window [1, 2, 255, 255, 0, 7, 9] 2 k)) ∧
      (∀ v ∈ p ++ q ++ b ++ d, v < 256 ^ 2) ∧
      parseValues ⟨2, 1, 0, 1⟩ (List.take ((1 + 0 + 1 + 1) * 2) [1, 2, 255, 255, 0, 7, 9]) 1
        = .ok (p, q, b, d) :=
  parseValues_decodes ⟨2, 1, 0, 1⟩ [1, 2, 255, 255, 0, 7, 9] 1 (by decide) (by decide)
    (by decide)

/-! ## Proofs: the properties -/

/-- C8 (proof header layout): when the evaluation root has `hashDigestWidth = n`
bytes and `serializeProof` succeeds (so `bpc` and `depth` are in `0..255`), bytes
`[0, n)` of the output are the root, byte `n` is `bpc`, byte `n + 1` is `depth`, and
the encoding of `evaluations.values` starts at offset `n + 2`. -/
theorem serializeProof_header (cw : Nat) (s : Serializer) (mem : Nat → Nat)
    (proof : StarkProof) (hashAlgorithm : HashAlgorithm) (out : Buffer)
    (hroot : proof.evaluations.root.length = getHashDigestSize hashAlgorithm)
    (hser : serializeProof cw s mem proof hashAlgorithm = .ok out) :
    out.take (getHashDigestSize hashAlgorithm) = proof.evaluations.root ∧
      out[getHashDigestSize hashAlgorithm]? = some proof.evaluations.bpc ∧
      out[getHashDigestSize hashAlgorithm + 1]? = some proof.evaluations.depth ∧
      (out.drop (getHashDigestSize hashAlgorithm + 2)).take
        (encodeArray cw proof.evaluations.values).length
          = encodeArray cw proof.evaluations.values := by
  obtain ⟨off, h⟩ := (map_fst_ok_iff _ _).1 hser
  unfold serializeProofRun at h
  rw [bind_ok_iff] at h
  obtain ⟨⟨b1, nb⟩, h1, h⟩ := h
  simp only at h
  rw [bind_ok_iff] at h
  obtain ⟨⟨b2, o2⟩, h2, h⟩ := h
  simp only at h
  rw [bind_ok_iff] at h
  obtain ⟨⟨b3, o3⟩, h3, h⟩ := h
  simp only at h
  rw [bind_ok_iff] at h
  obtain ⟨⟨b4, o4⟩, h4, h⟩ := h
  simp only at h
  rw [bind_ok_iff] at h
  obtain ⟨⟨b5, o5⟩, h5, h⟩ := h
  simp only at h
  rw [bind_ok_iff] at h
  obtain ⟨⟨b6, n6⟩, h6, h⟩ := h
  simp only at h
  rw [bind_ok_iff] at h
  obtain ⟨⟨b7, o7⟩, h7, h⟩ := h
  simp only at h
  rw [bind_ok_iff] at h
  obtain ⟨⟨b8, o8⟩, h8, h⟩ := h
  simp only at h
  rw [bind_ok_iff] at h
  obtain ⟨⟨b9, o9⟩, h9, h⟩ := h
  simp only at h
  rw [bind_ok_iff] at h
  obtain ⟨⟨b10, o10⟩, h10, h⟩ := h
  simp only [pure, Except.pure, Except.ok.injEq, Prod.mk.injEq] at h
  obtain ⟨rfl, rfl⟩ := h
  -- everything after the values array keeps the bytes before it
  have hframe : Framed b4 o4 b10 o10 :=
    ((((((writeMatrix_framed _ _ _ _ _ _ h5).andThen (copy_framed _ _ _ _ _ h6)).andThen
      (writeMerkleProof_framed _ _ _ _ _ _ _ h7)).andThen (writeUInt8_framed _ _ _ _ _ h8).1).andThen
      (writeComponents_framed _ _ _ _ _ _ _ h9)).andThen
      (writeArray_exact _ _ _ _ _ _ h10).toFramed)
  -- the header
  set A := allocUnsafe mem (sizeOf cw proof ((s.stateWidth + s.constraintCount
    + proof.evaluations.bpc) * s.fieldElementSize) hashAlgorithm).total with hA
  set n := getHashDigestSize hashAlgorithm with hn
  have f1 := copy_framed _ _ _ _ _ h1
  obtain ⟨-, lt2, -, e2, eo2⟩ := writeUInt8_framed _ _ _ _ _ h2
  obtain ⟨-, lt3, -, e3, eo3⟩ := writeUInt8_framed _ _ _ _ _ h3
  have hb1len : b1.length = A.length := f1.2.1
  have hb2len : b2.length = b1.length := by rw [e2, List.length_set]
  obtain ⟨c1, c2⟩ := copy_zero_exact _ _ _ _ h1 (by omega)
  rw [hroot] at c1
  have hrest : 2 ≤ (A.drop proof.evaluations.root.length).length := by
    rw [List.length_drop]; omega
  have hhead : b3.take (n + 2) = proof.evaluations.root ++
      [proof.evaluations.bpc, proof.evaluations.depth] := by
    rw [e3, eo2, e2, c2, c1, Nat.zero_add, ← hroot]
    exact header_take _ _ _ _ hrest
  obtain ⟨x1, x2, x3⟩ := writeArray_exact _ _ _ _ _ _ h4
  have ho3 : o3 = n + 2 := by omega
  have hb4 : b4.take o4 = proof.evaluations.root ++
      [proof.evaluations.bpc, proof.evaluations.depth]
      ++ encodeArray cw proof.evaluations.values := by
    rw [x3, ho3, hhead]
    have : o4 = (proof.evaluations.root ++ [proof.evaluations.bpc, proof.evaluations.depth]
        ++ encodeArray cw proof.evaluations.values).length := by
      simp only [List.length_append, List.length_cons, List.length_nil]
      omega
    rw [this, List.take_left]
  have hout : b10.take o4 = proof.evaluations.root ++
      [proof.evaluations.bpc, proof.evaluations.depth]
      ++ encodeArray cw proof.evaluations.values := by
    rw [hframe.2.2, hb4]
  have ho4 : o4 = n + 2 + (encodeArray cw proof.evaluations.values).length := by omega
  refine ⟨?_, ?_, ?_, ?_⟩
  · have : b10.take n = (b10.take o4).take n := by
      rw [List.take_take, Nat.min_eq_left (by omega)]
    rw [this, hout, List.append_assoc, ← hroot, List.take_left]
  · have : b10[n]? = (b10.take o4)[n]? := by
      rw [List.getElem?_take_of_lt (by omega)]
    rw [this, hout, List.append_assoc,
      List.getElem?_append_right (by omega), hroot, Nat.sub_self]
    simp
  · have : b10[n + 1]? = (b10.take o4)[n + 1]? := by
      rw [List.getElem?_take_of_lt (by omega)]
    rw [this, hout, List.append_assoc,
      List.getElem?_append_right (by omega), hroot, Nat.add_sub_cancel_left]
    simp
  · have : (b10.drop (n + 2)).take (encodeArray cw proof.evaluations.values).length
        = (b10.take o4).drop (n + 2) := by
      rw [List.drop_take, ho4, Nat.add_sub_cancel_left]
    rw [this, hout]
    have hl : (proof.evaluations.root ++ [proof.evaluations.bpc, proof.evaluations.depth]).length
        = n + 2 := by
      simp only [List.length_append, List.length_cons, List.length_nil]; omega
    rw [← hl, List.drop_left]

/-- The header of the serialization of the sample proof. -/
theorem serializeProof_header_witness :
    sampleBytes.take (getHashDigestSize sampleHash) = sampleProof.evaluations.root ∧
      sampleBytes[getHashDigestSize sampleHash]? = some sampleProof.evaluations.bpc ∧
      sampleBytes[getHashDigestSize sampleHash + 1]? = some sampleProof.evaluations.depth ∧
      (sampleBytes.drop (getHashDigestSize sampleHash + 2)).take
        (encodeArray 1 sampleProof.evaluations.values).length
          = encodeArray 1 sampleProof.evaluations.values :=
  serializeProof_header 1 sampleSerializer (fun _ => 170) sampleProof sampleHash sampleBytes
    (by decide) (by decide)

set_option maxRecDepth 20000 in
/-- C2, on the modelled helpers: two proofs meet every stated condition and do not
round-trip.  With two-byte digests a one-byte value of `lcProof` is read back as two
bytes; with one-byte counts a remainder of 256 records is not serialized at all. -/
theorem parseProof_serializeProof_stated_fails :
    (StatedValid sampleSerializer (getHashDigestSize sampleHash) narrowLeafProof ∧
      serializeProof 1 sampleSerializer (fun _ => 0) narrowLeafProof sampleHash
        = .ok [9, 9, 1, 3, 0, 0, 8, 8, 1, 7, 0, 0, 0, 0] ∧
      parseProof 1 sampleSerializer (fun _ _ => 0) [9, 9, 1, 3, 0, 0, 8, 8, 1, 7, 0, 0, 0, 0]
        sampleHash ≠ .ok narrowLeafProof) ∧
    (StatedValid sampleSerializer (getHashDigestSize sampleHash) longRemainderProof ∧
      serializeProof 1 sampleSerializer (fun _ => 0) longRemainderProof sampleHash
        = .error .rangeError) := by
  decide

/-- C2 (amended): for every valid proof, where validity also asks that the value
records of every Merkle proof have `hashDigestWidth` bytes and that every array,
matrix and row count fits the count prefix, `serializeProof` succeeds and `parseProof`
of its output succeeds and returns the proof itself. -/
theorem parseProof_serializeProof (cw : Nat) (s : Serializer) (mem : Nat → Nat)
    (mem' : Nat → Nat → Nat) (proof : StarkProof) (hashAlgorithm : HashAlgorithm)
    (hv : ValidProof cw s (getHashDigestSize hashAlgorithm) proof) :
    ∃ buffer, serializeProof cw s mem proof hashAlgorithm = .ok buffer ∧
      parseProof cw s mem' buffer hashAlgorithm = .ok proof := by
  refine ⟨encodeProof cw proof, ?_, ?_⟩
  · exact (map_fst_ok_iff _ _).2 ⟨_, serializeProofRun_valid cw s mem proof hashAlgorithm hv⟩
  · exact (map_fst_ok_iff _ _).2 ⟨_, parseProofRun_encodeProof cw s mem' proof hashAlgorithm hv⟩

/-- The round trip of a proof with no component and an empty remainder. -/
theorem parseProof_serializeProof_witness :
    ∃ buffer, serializeProof 1 sampleSerializer (fun _ => 170) bareProof sampleHash
        = .ok buffer ∧
      parseProof 1 sampleSerializer (fun _ _ => 85) buffer sampleHash = .ok bareProof :=
  parseProof_serializeProof 1 sampleSerializer (fun _ => 170) (fun _ _ => 85) bareProof
    sampleHash (by decide)

set_option maxRecDepth 20000 in
/-- C9, on the modelled helpers: two proofs meet every stated validity condition and
break the size law.  With two-byte digests and a one-byte value in `lcProof` the buffer
has 14 bytes while the write offset after the remainder is 13, so the last byte is
whatever the memory held; with one-byte counts a remainder of 256 records gives no
buffer at all. -/
theorem serializeProof_size_stated_fails :
    (StatedValid sampleSerializer (getHashDigestSize sampleHash) narrowLeafProof ∧
      serializeProofRun 1 sampleSerializer (fun _ => 170) narrowLeafProof sampleHash
        = .ok ([9, 9, 1, 3, 0, 0, 8, 8, 1, 7, 0, 0, 0, 170], 13) ∧
      [9, 9, 1, 3, 0, 0, 8, 8, 1, 7, 0, 0, 0, 170].length = 14 ∧
      (sizeOf 1 narrowLeafProof (serializeValueSize sampleSerializer narrowLeafProof)
        sampleHash).total = 14) ∧
    (StatedValid sampleSerializer (getHashDigestSize sampleHash) longRemainderProof ∧
      serializeProofRun 1 sampleSerializer (fun _ => 170) longRemainderProof sampleHash
        = .error .rangeError) := by
  decide

/-- C9 (amended): for every valid proof, where validity also asks that the value
records of every Merkle proof have `hashDigestWidth` bytes and that every array, matrix
and row count fits the count prefix, `serializeProof` returns a buffer whose length
is the total computed from the shape of the proof before writing, every byte of it
is a byte of the encoding, the write offset after the remainder equals that length,
and the total is the sum, in layout order, of
the digest width, the two one-byte fields, the values array, the nodes matrix, the
digest width, `lcProof`, the component count byte, for each component the digest width
and its two Merkle proofs, and the remainder array. -/
theorem serializeProof_size (cw : Nat) (s : Serializer) (mem : Nat → Nat)
    (proof : StarkProof) (hashAlgorithm : HashAlgorithm)
    (hv : ValidProof cw s (getHashDigestSize hashAlgorithm) proof) :
    ∃ buffer offset, serializeProofRun cw s mem proof hashAlgorithm = .ok (buffer, offset) ∧
      serializeProof cw s mem proof hashAlgorithm = .ok buffer ∧
      buffer = encodeProof cw proof ∧
      buffer.length = (sizeOf cw proof ((s.stateWidth + s.constraintCount
        + proof.evaluations.bpc) * s.fieldElementSize) hashAlgorithm).total ∧
      offset = buffer.length ∧
      buffer.length = getHashDigestSize hashAlgorithm + 1 + 1
        + sizeOfArray cw proof.evaluations.values ((s.stateWidth + s.constraintCount
            + proof.evaluations.bpc) * s.fieldElementSize)
        + sizeOfMatrix cw proof.evaluations.nodes (getHashDigestSize hashAlgorithm)
        + getHashDigestSize hashAlgorithm
        + sizeOfMerkleProof cw proof.degree.lcProof (getHashDigestSize hashAlgorithm)
        + 1
        + (proof.degree.ldProof.components.map (fun component =>
            getHashDigestSize hashAlgorithm
              + sizeOfMerkleProof cw component.columnProof (getHashDigestSize hashAlgorithm)
              + sizeOfMerkleProof cw component.polyProof
                  (getHashDigestSize hashAlgorithm))).sum
        + sizeOfArray cw proof.degree.ldProof.remainder (getHashDigestSize hashAlgorithm) := by
  have hrun := serializeProofRun_valid cw s mem proof hashAlgorithm hv
  have hlen := encodeProof_length cw s proof hashAlgorithm hv
  exact ⟨_, _, hrun, (map_fst_ok_iff _ _).2 ⟨_, hrun⟩, rfl, hlen, rfl, hlen⟩

/-- The size law on the sample proof: 45 bytes. -/
theorem serializeProof_size_witness :
    ∃ buffer offset,
      serializeProofRun 1 sampleSerializer (fun _ => 170) sampleProof sampleHash
        = .ok (buffer, offset) ∧
      serializeProof 1 sampleSerializer (fun _ => 170) sampleProof sampleHash = .ok buffer ∧
      buffer = encodeProof 1 sampleProof ∧
      buffer.length = (sizeOf 1 sampleProof ((1 + 1 + 1) * 1) sampleHash).total ∧
      offset = buffer.length ∧
      buffer.length = 2 + 1 + 1 + sizeOfArray 1 [[1, 2, 3], [4, 5, 6]] ((1 + 1 + 1) * 1)
        + sizeOfMatrix 1 [[[7, 7]]] 2 + 2 + sizeOfMerkleProof 1 sampleMerkleProof 2 + 1
        + ([({ columnRoot := [6, 6], columnProof := sampleMerkleProof,
               polyProof := { values := [], nodes := [] } } : Component)].map
            (fun component => 2 + sizeOfMerkleProof 1 component.columnProof 2
              + sizeOfMerkleProof 1 component.polyProof 2)).sum
        + sizeOfArray 1 [[1, 1]] 2 :=
  serializeProof_size 1 sampleSerializer (fun _ => 170) sampleProof sampleHash (by decide)

/-- C10, on the modelled helpers: a proof meets every stated validity condition and a
strict prefix of its serialization is parsed.  With two-byte digests, a three-byte value
in `lcProof` and a one-byte value in a column proof the serialization has 22 bytes, and
its first 16 bytes parse to a proof with no component and a one-record remainder. -/
theorem parseProof_truncated_stated_fails :
    StatedValid sampleSerializer (getHashDigestSize sampleHash) shiftedLeafProof ∧
      serializeProof 1 sampleSerializer (fun _ => 170) shiftedLeafProof sampleHash
        = .ok shiftedLeafBytes ∧
      16 < shiftedLeafBytes.length ∧
      parseProof 1 sampleSerializer (fun _ _ => 85) (shiftedLeafBytes.take 16) sampleHash
        = .ok { evaluations :=
                  { root := [9, 9], values := [], nodes := [], depth := 3, bpc := 1 },
                degree :=
                  { root := [8, 8], lcProof := { values := [[4, 5]], nodes := [] },
                    ldProof := { components := [], remainder := [[6, 6]] } } } := by
  decide

/-- C10 (amended): with a count prefix of at least one byte, for every valid proof,
where validity also asks that the value records of every Merkle proof have
`hashDigestWidth` bytes and that every array, matrix and row count fits the count
prefix, and every strict prefix of its serialization, `parseProof` fails; it returns no
proof. -/
theorem parseProof_truncated (cw : Nat) (s : Serializer) (mem : Nat → Nat)
    (mem' : Nat → Nat → Nat) (proof : StarkProof) (hashAlgorithm : HashAlgorithm)
    (buffer : Buffer) (k : Nat) (hcw : 1 ≤ cw)
    (hv : ValidProof cw s (getHashDigestSize hashAlgorithm) proof)
    (hser : serializeProof cw s mem proof hashAlgorithm = .ok buffer)
    (hk : k < buffer.length) :
    ∃ e, parseProof cw s mem' (buffer.take k) hashAlgorithm = .error e := by
  have hrun := serializeProofRun_valid cw s mem proof hashAlgorithm hv
  obtain ⟨off, hrun'⟩ := (map_fst_ok_iff _ _).1 hser
  rw [hrun] at hrun'
  simp only [Except.ok.injEq, Prod.mk.injEq] at hrun'
  obtain ⟨hbuf, -⟩ := hrun'
  have hfull := parseProofRun_encodeProof cw s mem' proof hashAlgorithm hv
  rw [hbuf] at hfull
  cases hp : parseProof cw s mem' (buffer.take k) hashAlgorithm with
  | error e => exact ⟨e, rfl⟩
  | ok q =>
    exfalso
    obtain ⟨o, ho⟩ := (map_fst_ok_iff _ _).1 hp
    obtain ⟨h1, h2⟩ := parseProofRun_ext cw s mem' (buffer.take k) (buffer.drop k)
      hashAlgorithm hcw q o ho
    rw [List.take_append_drop, hfull] at h2
    simp only [Except.ok.injEq, Prod.mk.injEq] at h2
    rw [List.length_take] at h1
    omega

/-- The serialization of the sample proof with its last byte removed is rejected. -/
theorem parseProof_truncated_witness :
    ∃ e, parseProof 1 sampleSerializer (fun _ _ => 85) (sampleBytes.take 44) sampleHash
      = .error e :=
  parseProof_truncated 1 sampleSerializer (fun _ => 170) (fun _ _ => 85) sampleProof sampleHash
    sampleBytes 44 (by decide) (by decide) (by decide) (by decide)

/-! ## Widths, truncation and bounds: the properties -/

/-- C13 (short proof header): for every hash algorithm with digest size `n` and every
buffer of length below `n + 2`, the empty buffer included, `parseProof` fails with a
range error while it reads the evaluation root, `bpc` and the depth; it returns no
proof. -/
theorem parseProof_short_header (cw : Nat) (s : Serializer) (mem : Nat → Nat → Nat)
    (buffer : Buffer) (hashAlgorithm : HashAlgorithm)
    (h : buffer.length < getHashDigestSize hashAlgorithm + 2) :
    parseHeader s mem buffer hashAlgorithm = .error .rangeError ∧
      parseProofRun cw s mem buffer hashAlgorithm = .error .rangeError ∧
      parseProof cw s mem buffer hashAlgorithm = .error .rangeError := by
  have hh := parseHeader_short s mem buffer hashAlgorithm h
  have hrun : parseProofRun cw s mem buffer hashAlgorithm = .error .rangeError := by
    rw [parseProofRun_header, hh]; rfl
  refine ⟨hh, hrun, ?_⟩
  rw [parseProof, hrun]; rfl

/-- A buffer holding a root and `bpc` but no depth, and the empty buffer. -/
theorem parseProof_short_header_witness :
    (parseHeader sampleSerializer (fun _ _ => 85) [9, 9, 1] sampleHash = .error .rangeError ∧
      parseProofRun 1 sampleSerializer (fun _ _ => 85) [9, 9, 1] sampleHash
        = .error .rangeError ∧
      parseProof 1 sampleSerializer (fun _ _ => 85) [9, 9, 1] sampleHash
        = .error .rangeError) ∧
    parseProof 1 sampleSerializer (fun _ _ => 85) [] sampleHash = .error .rangeError :=
  ⟨parseProof_short_header 1 sampleSerializer (fun _ _ => 85) [9, 9, 1] sampleHash (by decide),
    by decide⟩

/-- C16 (one-byte fields bound the proof): for every proof in which `bpc`, the depth or
the number of components is above 255, `serializeProof` fails with a range error and
returns no buffer; no such count is written reduced modulo 256. -/
theorem serializeProof_one_byte_fields (cw : Nat) (s : Serializer) (mem : Nat → Nat)
    (proof : StarkProof) (hashAlgorithm : HashAlgorithm)
    (h : 255 < proof.evaluations.bpc ∨ 255 < proof.evaluations.depth ∨
      255 < proof.degree.ldProof.components.length) :
    serializeProofRun cw s mem proof hashAlgorithm = .error .rangeError ∧
      serializeProof cw s mem proof hashAlgorithm = .error .rangeError := by
  have hrun : serializeProofRun cw s mem proof hashAlgorithm = .error .rangeError := by
    cases hr : serializeProofRun cw s mem proof hashAlgorithm with
    | error e => rw [serializeProofRun_error cw s mem proof hashAlgorithm e hr]
    | ok x =>
      obtain ⟨out, off⟩ := x
      obtain ⟨h1, h2, h3, -, -⟩ := serializeProofRun_ok cw s mem proof hashAlgorithm out off hr
      omega
  refine ⟨hrun, ?_⟩
  rw [serializeProof, hrun]; rfl

/-- A proof whose `bpc` is 256 is not serialized. -/
theorem serializeProof_one_byte_fields_witness :
    serializeProofRun 1 sampleSerializer (fun _ => 170) wideBpcProof sampleHash
        = .error .rangeError ∧
      serializeProof 1 sampleSerializer (fun _ => 170) wideBpcProof sampleHash
        = .error .rangeError :=
  serializeProof_one_byte_fields 1 sampleSerializer (fun _ => 170) wideBpcProof sampleHash
    (by decide)

/-- C11 (evaluation record width): `serializeProof` sizes `evaluations.values` with the
record width `(stateWidth + constraintCount + bpc) * fieldElementSize`; `parseProof`
reads `bpc` as the single byte at offset `hashDigestWidth` and decodes
`evaluations.values` with the width given by the same formula; and on the
serialization of a proof whose evaluation root has `hashDigestWidth` bytes the byte
read is the proof's `bpc`, so that the width used on decode is the width used on
encode. -/
theorem evaluation_record_width (cw : Nat) (s : Serializer) (mem : Nat → Nat)
    (mem' : Nat → Nat → Nat) (proof : StarkProof) (hashAlgorithm : HashAlgorithm)
    (out : Buffer)
    (hroot : proof.evaluations.root.length = getHashDigestSize hashAlgorithm)
    (hser : serializeProof cw s mem proof hashAlgorithm = .ok out) :
    serializeValueSize s proof =
        (s.stateWidth + s.constraintCount + proof.evaluations.bpc) * s.fieldElementSize ∧
      out.length = (sizeOf cw proof (serializeValueSize s proof) hashAlgorithm).total ∧
      (∀ (buffer eRoot : Buffer) (bpc eDepth valueSize offset : Nat),
        parseHeader s mem' buffer hashAlgorithm = .ok (eRoot, bpc, eDepth, valueSize, offset) →
          buffer[getHashDigestSize hashAlgorithm]? = some bpc ∧
          valueSize = (s.stateWidth + s.constraintCount + bpc) * s.fieldElementSize ∧
          parseProofRun cw s mem' buffer hashAlgorithm = parseBody cw mem' buffer hashAlgorithm
            (eRoot, bpc, eDepth, valueSize, offset)) ∧
      out[getHashDigestSize hashAlgorithm]? = some proof.evaluations.bpc ∧
      ∃ eRoot eDepth offset, parseHeader s mem' out hashAlgorithm =
        .ok (eRoot, proof.evaluations.bpc, eDepth, serializeValueSize s proof, offset) := by
  obtain ⟨off, hrun⟩ := (map_fst_ok_iff _ _).1 hser
  obtain ⟨-, -, -, hlen, hhead⟩ := serializeProofRun_ok cw s mem proof hashAlgorithm out off hrun
  obtain ⟨rest, hout⟩ := hhead hroot
  have hparse := parseHeader_serialized s mem' proof hashAlgorithm rest hroot
  rw [← hout] at hparse
  refine ⟨rfl, hlen, ?_, ?_, ⟨_, _, _, hparse⟩⟩
  · intro buffer eRoot bpc eDepth valueSize offset hh
    obtain ⟨a1, -, a3, -⟩ := parseHeader_ok s mem' buffer hashAlgorithm _ _ _ _ _ hh
    refine ⟨a1, a3, ?_⟩
    rw [parseProofRun_header, hh]
    rfl
  · exact (parseHeader_ok s mem' out hashAlgorithm _ _ _ _ _ hparse).1

/-- The record width on the serialization of the sample proof. -/
theorem evaluation_record_width_witness :
    serializeValueSize sampleSerializer sampleProof = (1 + 1 + 1) * 1 ∧
      sampleBytes.length = (sizeOf 1 sampleProof (serializeValueSize sampleSerializer sampleProof)
        sampleHash).total ∧
      (∀ (buffer eRoot : Buffer) (bpc eDepth valueSize offset : Nat),
        parseHeader sampleSerializer (fun _ _ => 85) buffer sampleHash
            = .ok (eRoot, bpc, eDepth, valueSize, offset) →
          buffer[getHashDigestSize sampleHash]? = some bpc ∧
          valueSize = (1 + 1 + bpc) * 1 ∧
          parseProofRun 1 sampleSerializer (fun _ _ => 85) buffer sampleHash
            = parseBody 1 (fun _ _ => 85) buffer sampleHash
              (eRoot, bpc, eDepth, valueSize, offset)) ∧
      sampleBytes[getHashDigestSize sampleHash]? = some 1 ∧
      ∃ eRoot eDepth offset, parseHeader sampleSerializer (fun _ _ => 85) sampleBytes sampleHash =
        .ok (eRoot, 1, eDepth, serializeValueSize sampleSerializer sampleProof, offset) :=
  evaluation_record_width 1 sampleSerializer (fun _ => 170) (fun _ _ => 85) sampleProof
    sampleHash sampleBytes (by decide) (by decide)

/-- C15 (row width versus proof record width): whenever `mergeValues` returns a row for
`bCount = n`, the length of the row exceeds the evaluation record width that
`serializeProof` and `parseProof` compute for `bpc = n` by exactly `secretInputCount *
fieldElementSize`; the two are equal if and only if that product is `0`, so with a
non-zero product the row does not have the record width `parseProof` uses. -/
theorem row_width_versus_record_width (s : Serializer) (mem : Nat → Nat)
    (pValues sValues bValues dValues : List (List Nat)) (n position : Nat) (row : Buffer)
    (hrow : mergeValues s mem pValues sValues bValues dValues n position = .ok row) :
    (∀ proof : StarkProof, proof.evaluations.bpc = n →
        row.length = serializeValueSize s proof + s.secretInputCount * s.fieldElementSize ∧
        (row.length = serializeValueSize s proof ↔
          s.secretInputCount * s.fieldElementSize = 0)) ∧
      (∀ (mem' : Nat → Nat → Nat) (buffer : Buffer) (hashAlgorithm : HashAlgorithm)
          (eRoot : Buffer) (eDepth valueSize offset : Nat),
        parseHeader s mem' buffer hashAlgorithm = .ok (eRoot, n, eDepth, valueSize, offset) →
          row.length = valueSize + s.secretInputCount * s.fieldElementSize ∧
          (row.length = valueSize ↔ s.secretInputCount * s.fieldElementSize = 0) ∧
          (s.secretInputCount * s.fieldElementSize ≠ 0 → row.length ≠ valueSize)) := by
  obtain ⟨off, hrun⟩ := (mergeValues_ok_iff _ _ _ _ _ _ _ _ _).1 hrow
  have hlen := mergeValuesRun_length _ _ _ _ _ _ _ _ _ _ hrun
  have hexp : (s.stateWidth + s.secretInputCount + n + s.constraintCount) * s.fieldElementSize
      = (s.stateWidth + s.constraintCount + n) * s.fieldElementSize
        + s.secretInputCount * s.fieldElementSize := by ring
  rw [hexp] at hlen
  constructor
  · intro proof hbpc
    simp only [serializeValueSize, hbpc]
    exact ⟨hlen, by omega⟩
  · intro mem' buffer hashAlgorithm eRoot eDepth valueSize offset hh
    obtain ⟨-, -, a3, -⟩ := parseHeader_ok s mem' buffer hashAlgorithm _ _ _ _ _ hh
    rw [a3]
    exact ⟨hlen, by omega, by omega⟩

/-- A row with two secret inputs is two bytes longer than the record width for the
same `bpc`. -/
theorem row_width_versus_record_width_witness :
    (∀ proof : StarkProof, proof.evaluations.bpc = 1 →
        [5, 3, 4, 7, 11].length = serializeValueSize ⟨1, 1, 2, 1⟩ proof + 2 * 1 ∧
        ([5, 3, 4, 7, 11].length = serializeValueSize ⟨1, 1, 2, 1⟩ proof ↔ 2 * 1 = 0)) ∧
      (∀ (mem' : Nat → Nat → Nat) (buffer : Buffer) (hashAlgorithm : HashAlgorithm)
          (eRoot : Buffer) (eDepth valueSize offset : Nat),
        parseHeader ⟨1, 1, 2, 1⟩ mem' buffer hashAlgorithm
            = .ok (eRoot, 1, eDepth, valueSize, offset) →
          [5, 3, 4, 7, 11].length = valueSize + 2 * 1 ∧
          ([5, 3, 4, 7, 11].length = valueSize ↔ 2 * 1 = 0) ∧
          (2 * 1 ≠ 0 → [5, 3, 4, 7, 11].length ≠ valueSize)) :=
  row_width_versus_record_width ⟨1, 1, 2, 1⟩ (fun _ => 170) [[5]] [[3], [4]] [[7]] [[11]] 1 0
    [5, 3, 4, 7, 11] (by decide)

theorem elementsAt_lt (buffer : Buffer) (hb : IsBytes buffer) (w n offset : Nat) :
    ∀ v ∈ elementsAt buffer w n offset, v < 256 ^ w := by
  intro v hv
  simp only [elementsAt, List.mem_map, List.mem_range] at hv
  obtain ⟨k, _, rfl⟩ := hv
  calc fromBytesBE ((buffer.drop (offset + k * w)).take w)
      < 256 ^ ((buffer.drop (offset + k * w)).take w).length :=
        fromBytesBE_lt _ (isBytes_take (isBytes_drop hb _) _)
    _ ≤ 256 ^ w := Nat.pow_le_pow_right (by norm_num) (by
        rw [List.length_take]; omega)

/-- Merging the values parsed from a buffer of exactly one row gives the buffer back. -/
theorem mergeValues_of_parseValues (s : Serializer) (mem : Nat → Nat) (buffer : Buffer)
    (bCount : Nat) (hw : 1 ≤ s.fieldElementSize) (hb : IsBytes buffer)
    (hlen : buffer.length =
      (s.stateWidth + s.secretInputCount + bCount + s.constraintCount) * s.fieldElementSize) :
    ∃ p q b d, parseValues s buffer bCount = .ok (p, q, b, d) ∧
      mergeValues s mem (p.map (fun x => [x])) (q.map (fun x => [x])) (b.map (fun x => [x]))
        (d.map (fun x => [x])) bCount 0 = .ok buffer := by
  obtain ⟨w, sw, sic, cc⟩ := s
  simp only at hw hlen ⊢
  have h1 := parseValues_readable ⟨w, sw, sic, cc⟩ buffer bCount hb
    (readable_of_le _ _ _ hw (by rw [hlen]))
  simp only at h1
  have hsplit : elementsAt buffer w (sw + sic + bCount + cc) 0 =
      elementsAt buffer w sw 0 ++ elementsAt buffer w sic (0 + sw * w)
        ++ elementsAt buffer w bCount (0 + (sw + sic) * w)
        ++ elementsAt buffer w cc (0 + (sw + sic + bCount) * w) := by
    rw [elementsAt_add, elementsAt_add, elementsAt_add]
  set E1 := elementsAt buffer w sw 0 with hE1
  set E2 := elementsAt buffer w sic (0 + sw * w) with hE2
  set E3 := elementsAt buffer w bCount (0 + (sw + sic) * w) with hE3
  set E4 := elementsAt buffer w cc (0 + (sw + sic + bCount) * w) with hE4
  have l1 : E1.length = sw := elementsAt_length _ _ _ _
  have l2 : E2.length = sic := elementsAt_length _ _ _ _
  have l3 : E3.length = bCount := elementsAt_length _ _ _ _
  have l4 : E4.length = cc := elementsAt_length _ _ _ _
  have hflat := flatMap_toBytesBE_elementsAt w (sw + sic + bCount + cc) buffer hb hlen
  rw [hsplit] at h1 hflat
  rw [splitElements_append ⟨w, sw, sic, cc⟩ bCount E1 E2 E3 E4 l1 l2 l3 l4] at h1
  refine ⟨E1, E2, E3, E4, h1, ?_⟩
  have f1 := fitsAt_wrap E1 w (elementsAt_lt buffer hb _ _ _)
  have f2 := fitsAt_wrap E2 w (elementsAt_lt buffer hb _ _ _)
  have f3 := fitsAt_wrap E3 w (elementsAt_lt buffer hb _ _ _)
  have f4 := fitsAt_wrap E4 w (elementsAt_lt buffer hb _ _ _)
  have r1 := rowOf_wrap E1
  have r2 := rowOf_wrap E2
  have r3 := rowOf_wrap E3
  have r4 := rowOf_wrap E4
  rw [l1] at f1 r1
  rw [l2] at f2 r2
  rw [l3] at f3 r3
  rw [l4] at f4 r4
  have hrun := mergeValuesRun_fits ⟨w, sw, sic, cc⟩ mem (E1.map (fun x => [x]))
    (E2.map (fun x => [x])) (E3.map (fun x => [x])) (E4.map (fun x => [x])) bCount 0
    f1 f2 f3 f4
  simp only [rowElements, r1, r2, r3, r4, hflat] at hrun
  exact (mergeValues_ok_iff _ _ _ _ _ _ _ _ _).2 ⟨_, hrun⟩

/-- C14 (reverse row round trip): with `fieldElementSize = w ≥ 1`, for every `bCount`
and every buffer of bytes of length exactly `(stateWidth + secretInputCount + bCount +
constraintCount) * w`, `parseValues` returns four arrays and `mergeValues` of these
arrays, each value wrapped as a one-entry column, at position `0` returns the buffer
byte for byte; hence two such buffers with the same `parseValues` result are equal. -/
theorem mergeValues_parseValues (s : Serializer) (mem : Nat → Nat) (buffer other : Buffer)
    (bCount : Nat) (hw : 1 ≤ s.fieldElementSize) (hb : IsBytes buffer)
    (hlen : buffer.length =
      (s.stateWidth + s.secretInputCount + bCount + s.constraintCount) * s.fieldElementSize)
    (hb' : IsBytes other)
    (hlen' : other.length =
      (s.stateWidth + s.secretInputCount + bCount + s.constraintCount) * s.fieldElementSize) :
    (∃ p q b d, parseValues s buffer bCount = .ok (p, q, b, d) ∧
      mergeValues s mem (p.map (fun x => [x])) (q.map (fun x => [x])) (b.map (fun x => [x]))
        (d.map (fun x => [x])) bCount 0 = .ok buffer) ∧
    (parseValues s buffer bCount = parseValues s other bCount → buffer = other) := by
  obtain ⟨p, q, b, d, h1, h2⟩ := mergeValues_of_parseValues s mem buffer bCount hw hb hlen
  obtain ⟨p', q', b', d', h1', h2'⟩ := mergeValues_of_parseValues s mem other bCount hw hb' hlen'
  refine ⟨⟨p, q, b, d, h1, h2⟩, ?_⟩
  intro heq
  rw [h1, h1'] at heq
  simp only [Except.ok.injEq, Prod.mk.injEq] at heq
  obtain ⟨rfl, rfl, rfl, rfl⟩ := heq
  rw [h2] at h2'
  simpa using h2'

/-- The reverse round trip on a two-element row of two-byte elements. -/
theorem mergeValues_parseValues_witness :
    (∃ p q b d, parseValues ⟨2, 1, 0, 1⟩ [1, 2, 255, 255] 0 = .ok (p, q, b, d) ∧
      mergeValues ⟨2, 1, 0, 1⟩ (fun _ => 170) (p.map (fun x => [x])) (q.map (fun x => [x]))
        (b.map (fun x => [x])) (d.map (fun x => [x])) 0 0 = .ok [1, 2, 255, 255]) ∧
    (parseValues ⟨2, 1, 0, 1⟩ [1, 2, 255, 255] 0 = parseValues ⟨2, 1, 0, 1⟩ [1, 2, 255, 254] 0 →
      [1, 2, 255, 255] = [1, 2, 255, 254]) :=
  mergeValues_parseValues ⟨2, 1, 0, 1⟩ (fun _ => 170) [1, 2, 255, 255] [1, 2, 255, 254] 0
    (by decide) (by decide) (by decide) (by decide) (by decide)

/-- C12, as the code behaves: with two-byte elements the value `74565 = 0x12345` is
written as `0x12 0x34`, the start of its hexadecimal string, and not as its low-order
bytes `0x23 0x45`. -/
theorem mergeValues_truncation_not_low_order :
    256 ^ 2 ≤ 74565 ∧
      mergeValues ⟨2, 1, 0, 0⟩ (fun _ => 170) [[74565]] [] [] [] 0 0 = .ok [18, 52] ∧
      toBytesBE 2 (74565 % 256 ^ 2) = [35, 69] ∧
      window [18, 52] 2 0 ≠ toBytesBE 2 (74565 % 256 ^ 2) := by
  decide

/-- C12 (amended): an over-wide value is cut at its low-order end.  For every row whose
needed columns are defined at `position` and every element `v ≥ 256^w` of it,
`mergeValues` does not fail and the `w`-byte window of that element holds the first `2 *
w` hexadecimal digits of `v`: the big-endian encoding of `v / 16^j`, where `j ≥ 1` is the
number of hexadecimal digits of `v` beyond `2 * w`. -/
theorem mergeValues_truncation (s : Serializer) (mem : Nat → Nat)
    (pValues sValues bValues dValues : List (List Nat)) (bCount position k : Nat)
    (hp : DefinedAt pValues s.stateWidth position)
    (hs : DefinedAt sValues s.secretInputCount position)
    (hb : DefinedAt bValues bCount position)
    (hd : DefinedAt dValues s.constraintCount position)
    (hk : k < s.stateWidth + s.secretInputCount + bCount + s.constraintCount)
    (hv : 256 ^ s.fieldElementSize ≤
      (rowElements s pValues sValues bValues dValues bCount position).getD k 0) :
    ∃ buffer, mergeValues s mem pValues sValues bValues dValues bCount position = .ok buffer ∧
      ∃ j, 1 ≤ j ∧
        16 ^ (s.fieldElementSize * 2 + j - 1) ≤
          (rowElements s pValues sValues bValues dValues bCount position).getD k 0 ∧
        (rowElements s pValues sValues bValues dValues bCount position).getD k 0 <
          16 ^ (s.fieldElementSize * 2 + j) ∧
        window buffer s.fieldElementSize k = toBytesBE s.fieldElementSize
          ((rowElements s pValues sValues bValues dValues bCount position).getD k 0 / 16 ^ j)
        := by
  have hrun := mergeValuesRun_eq s mem pValues sValues bValues dValues bCount position
    hp hs hb hd
  refine ⟨_, (mergeValues_ok_iff _ _ _ _ _ _ _ _ _).2 ⟨_, hrun⟩, ?_⟩
  obtain ⟨j, j1, j2, j3, j4⟩ := encodeElement_overflow s.fieldElementSize _ hv
  refine ⟨j, j1, j2, j3, ?_⟩
  rw [window_flatMap _ _ (encodeElement_length _) _ k
    (by rw [rowElements_length]; exact hk), j4]

/-- The window of the over-wide value `74565` in a row of two-byte elements. -/
theorem mergeValues_truncation_witness :
    ∃ buffer, mergeValues ⟨2, 1, 0, 1⟩ (fun _ => 170) [[74565]] [] [] [[7]] 0 0 = .ok buffer ∧
      ∃ j, 1 ≤ j ∧
        16 ^ (2 * 2 + j - 1) ≤ (rowElements ⟨2, 1, 0, 1⟩ [[74565]] [] [] [[7]] 0 0).getD 0 0 ∧
        (rowElements ⟨2, 1, 0, 1⟩ [[74565]] [] [] [[7]] 0 0).getD 0 0 < 16 ^ (2 * 2 + j) ∧
        window buffer 2 0 = toBytesBE 2
          ((rowElements ⟨2, 1, 0, 1⟩ [[74565]] [] [] [[7]] 0 0).getD 0 0 / 16 ^ j) :=
  mergeValues_truncation ⟨2, 1, 0, 1⟩ (fun _ => 170) [[74565]] [] [] [[7]] 0 0 0
    (by decide) (by decide) (by decide) (by decide) (by decide) (by decide)

end GenStark
